import Mathlib

/-!
# pegraph: policy-enriched application graph

A shallow embedding of `pegraph.go` and a verification of its specification.

Modelling conventions.

* Go strings are Lean `String`s; `len(s)` is the number of bytes of `s`
  (`String.utf8ByteSize`).
* A Go `map[string][]T` is an association list with the Go reading and writing
  operations (`goLookup`, `goIndex`, `goAppend`).  Reading an absent key with
  `m[k]` yields the nil slice, here `[]`.  The order of the list is the order in
  which `range` enumerates the map.
* `*Location` is an address (`LocRef`) into a heap of `Location` values;
  addresses are assumed valid (non nil).  `*Node` values are never mutated after
  creation, so a node is represented by its value.
* `uuid.New()` and `rand.Intn` consume an explicit entropy source, whose
  position is part of the state.
* A run of Go code either returns or panics; a panic is a `Fault`.
* The mutual recursion `processNode`/`processConnections` is modelled with a
  recursion-depth budget; `GeneratePEAGraph` supplies a budget that is proved
  never to be exhausted.
-/

namespace Pegraph

/-! ## Data model -/

/-- Address of a `Location` (the Go type `*Location`). -/
abbrev LocRef := Nat

/-- The Go `Node` struct. -/
structure Node where
  ID : String
  Name : String
  Location : LocRef
deriving DecidableEq, Repr

/-- The Go `Location` struct. -/
structure Location where
  Name : String
  Nodes : List Node
deriving DecidableEq, Repr

/-- The Go type `map[string][]string`. -/
abbrev EdgeMap := List (String × List String)

/-- The Go type `map[string][]*Location`. -/
abbrev LocMap := List (String × List LocRef)

/-- The Go `Graph` struct (used both for template and for instance graphs). -/
structure Graph where
  Nodes : List Node
  Edges : EdgeMap
deriving DecidableEq, Repr

/-- The heap of locations: the value each `*Location` points to. -/
abbrev Heap := LocRef → Location

/-- The sources of entropy: the UUID strings handed out by `uuid.New()` and the
raw draws of the process-wide random generator, in the order of the calls. -/
structure Entropy where
  uuid : Nat → String
  rand : Nat → Nat

/-- Abnormal termination of a run.  The Go code has no error results: the only
abnormal terminations are runtime panics.  `outOfFuel` belongs to the model
only (exhausted recursion budget). -/
inductive Fault where
  | sliceBoundsOutOfRange
  | intnInvalidArgument
  | outOfFuel
deriving DecidableEq, Repr

/-- The mutable state of the closure: the instance graph and the number of
UUIDs and random numbers drawn so far. -/
structure St where
  g : Graph
  uuids : Nat
  rands : Nat
deriving DecidableEq, Repr

/-! ## Go primitives -/

/-- Go `len(s)` for a string: its number of bytes. -/
def goLen (s : String) : Nat := s.utf8ByteSize

/-- Go `v, ok := m[k]`. -/
def goLookup {β : Type} (m : List (String × β)) (k : String) : Option β :=
  match m with
  | [] => none
  | (k', v) :: rest => if k' = k then some v else goLookup rest k

/-- Go `m[k]` for a map of slices: the nil slice when the key is absent. -/
def goIndex {β : Type} (m : List (String × List β)) (k : String) : List β :=
  (goLookup m k).getD []

/-- Go `m[k] = append(m[k], v)`. -/
def goAppend {β : Type} (m : List (String × List β)) (k : String) (v : β) :
    List (String × List β) :=
  match m with
  | [] => [(k, [v])]
  | (k', vs) :: rest =>
    if k' = k then (k', vs ++ [v]) :: rest else (k', vs) :: goAppend rest k v

/-- Go `rand.Intn(n)`: panics when `n <= 0`, otherwise a number in `[0, n)`. -/
def intn (E : Entropy) (pos : Nat) (n : Nat) : Except Fault Nat :=
  if n = 0 then .error .intnInvalidArgument else .ok (E.rand pos % n)

/-! ## The program -/

/-- Source: `generateUniqueID`. -/
def generateUniqueID (uuid : String) (objName : String) (loc : String) : String :=
  let id := "obj"
  let id := if objName ≠ "" then id ++ "_" ++ objName else id
  let id := if loc ≠ "" then id ++ "_" ++ loc else id
  id ++ "_" ++ uuid

/-- Source: `createInstance`; `uuid` is the string returned by `uuid.New()`. -/
def createInstance (heap : Heap) (uuid : String) (name : String) (loc : LocRef) : Node :=
  { ID := generateUniqueID uuid name (heap loc).Name, Name := name, Location := loc }

/-- The state threaded through `createInstances`: the location heap (mutated by
`loc.Nodes = append(loc.Nodes, newNode)`), the number of UUIDs drawn and the
slice `newNodes`. -/
structure InstState where
  heap : Heap
  uuids : Nat
  newNodes : List Node

/-- Body of the inner loop of `createInstances`. -/
def createInstancesStep (E : Entropy) (name : String) (s : InstState) (loc : LocRef) :
    InstState :=
  let newNode := createInstance s.heap (E.uuid s.uuids) name loc
  { heap := fun r =>
      if r = loc then { s.heap r with Nodes := (s.heap r).Nodes ++ [newNode] } else s.heap r
    uuids := s.uuids + 1
    newNodes := s.newNodes ++ [newNode] }

/-- Source: `createInstances`, started with a heap and a UUID position. -/
def createInstances (E : Entropy) (heap : Heap) (uuids : Nat) (nodes : List Node)
    (locationReqList : LocMap) : InstState :=
  nodes.foldl
    (fun s node => (goIndex locationReqList node.Name).foldl (createInstancesStep E node.Name) s)
    { heap := heap, uuids := uuids, newNodes := [] }

/-- Body of the two outer loops of `addEdges` for the pair `(node1, node2)`. -/
def addEdgesPair (graph : Graph) (edges : EdgeMap) (node1 node2 : Node) : EdgeMap :=
  if node1.ID ≠ node2.ID then
    match goLookup graph.Edges node1.Name with
    | some connections =>
      connections.foldl
        (fun edges connectedNode =>
          if connectedNode = node2.Name then goAppend edges node1.ID node2.ID else edges)
        edges
    | none => edges
  else edges

/-- Source: `addEdges` (the parameter `perfData` is never read). -/
def addEdges (graph : Graph) (newNodes : List Node) : EdgeMap :=
  newNodes.foldl
    (fun edges node1 => newNodes.foldl (fun edges node2 => addEdgesPair graph edges node1 node2) edges)
    []

/-- Source: `GenerateInitialPEAGraph` (the parameters `locationAllowlist`,
`perfData` and `locations` are never read).  Returns the new graph together with
the heap and the UUID position after the instantiation. -/
def GenerateInitialPEAGraph (E : Entropy) (heap : Heap) (g : Graph) (locationReqList : LocMap) :
    St × Heap :=
  let s := createInstances E heap 0 g.Nodes locationReqList
  let newEdges := addEdges g s.newNodes
  ({ g := { Nodes := s.newNodes, Edges := newEdges }, uuids := s.uuids, rands := 0 }, s.heap)

/-- Source: `containsNode`. -/
def containsNodeFrom (name : String) : Nat → List Node → List Nat
  | _, [] => []
  | idx, node :: rest =>
    if node.Name = name then idx :: containsNodeFrom name (idx + 1) rest
    else containsNodeFrom name (idx + 1) rest

/-- Source: `containsNode`. -/
def containsNode (nodes : List Node) (name : String) : List Nat :=
  containsNodeFrom name 0 nodes

/-- Source: `containsEdge`. -/
def containsEdge (edges : EdgeMap) (u v : String) : Bool :=
  match goLookup edges u with
  | some connections => connections.any (fun connectedNode => connectedNode = v)
  | none => false

/-- Body of the loop of `processExistingNode`; `g.Nodes[idx]` panics when the
index is out of range. -/
def processExistingNodeStep (node : Node) (st : St) (idx : Nat) : Except Fault St :=
  match st.g.Nodes[idx]? with
  | none => .error .sliceBoundsOutOfRange
  | some connectedNode =>
    if goIndex st.g.Edges node.ID = [] ∨ containsEdge st.g.Edges node.ID connectedNode.ID = false then
      .ok { st with g := { st.g with Edges := goAppend st.g.Edges node.ID connectedNode.ID } }
    else .ok st

/-- Source: `processExistingNode`. -/
def processExistingNode (st : St) (node : Node) (connectedNodeIdxs : List Nat) :
    Except Fault St :=
  connectedNodeIdxs.foldlM (processExistingNodeStep node) st

/-- Source: `checkSources`. -/
def checkSources (st : St) (appGraph : Graph) (node : Node) : St :=
  appGraph.Edges.foldl
    (fun st entry =>
      entry.2.foldl
        (fun st destNodeName =>
          if destNodeName = node.Name then
            st.g.Nodes.foldl
              (fun st srcNode =>
                if srcNode.Name = entry.1 then
                  { st with g := { st.g with Edges := goAppend st.g.Edges srcNode.ID node.ID } }
                else st)
              st
          else st)
        st)
    st

/-- Body of the loop of `processConnections`; `recur` is the recursive call
`processNode(g, appGraph, newNode, locationAllowlist)`. -/
def processConnectionsStep (E : Entropy) (heap : Heap)
    (recur : St → Node → Except Fault (St × List Node))
    (node : Node) (locationAllowlist : LocMap)
    (acc : St × List Node) (connectedNodeName : String) : Except Fault (St × List Node) :=
  let st := acc.1
  let addedNodes := acc.2
  let idxs := containsNode st.g.Nodes connectedNodeName
  if idxs.length > 0 then do
    let st ← processExistingNode st node idxs
    pure (st, addedNodes)
  else do
    let locs := goIndex locationAllowlist connectedNodeName
    let i ← intn E st.rands locs.length
    match locs[i]? with
    | none => .error .sliceBoundsOutOfRange
    | some loc =>
      let newNode := createInstance heap (E.uuid st.uuids) connectedNodeName loc
      if goLen newNode.ID < 14 then .error .sliceBoundsOutOfRange
      else do
        let st : St :=
          { g := { Nodes := st.g.Nodes ++ [newNode],
                   Edges := goAppend st.g.Edges node.ID newNode.ID },
            uuids := st.uuids + 1, rands := st.rands + 1 }
        let r ← recur st newNode
        pure (r.1, addedNodes ++ [newNode])

/-- Source: `processConnections`. -/
def processConnections (E : Entropy) (heap : Heap)
    (recur : St → Node → Except Fault (St × List Node))
    (st : St) (node : Node) (connections : List String) (locationAllowlist : LocMap) :
    Except Fault (St × List Node) :=
  connections.foldlM (processConnectionsStep E heap recur node locationAllowlist) (st, [])

/-- Source: `processNode`.  The first argument bounds the depth of the recursion
through `processConnections`.  `node.ID[:14]` panics on an ID shorter than 14
bytes. -/
def processNode (E : Entropy) (heap : Heap) (appGraph : Graph) (locationAllowlist : LocMap) :
    Nat → St → Node → Except Fault (St × List Node)
  | 0, _, _ => .error .outOfFuel
  | fuel + 1, st, node =>
    if goLen node.ID < 14 then .error .sliceBoundsOutOfRange
    else
      match goLookup appGraph.Edges node.Name with
      | some connections =>
        processConnections E heap (processNode E heap appGraph locationAllowlist fuel)
          st node connections locationAllowlist
      | none => .ok (checkSources st appGraph node, [])

/-- The type names listed in the adjacency lists of the template. -/
def dependencyTypes (appGraph : Graph) : List String :=
  appGraph.Edges.flatMap (fun entry => entry.2)

/-- The recursion depth that `GeneratePEAGraph` allows: one more than the number
of type names listed in the template adjacency lists. -/
def recursionBudget (appGraph : Graph) : Nat :=
  (dependencyTypes appGraph).length + 1

/-- Source: `GeneratePEAGraph`.  The `range` clause evaluates `g.Nodes` once, so
the loop visits the nodes present at the call. -/
def GeneratePEAGraph (E : Entropy) (heap : Heap) (st : St) (appGraph : Graph)
    (locationAllowlist : LocMap) : Except Fault St :=
  st.g.Nodes.foldlM
    (fun st node => do
      let r ← processNode E heap appGraph locationAllowlist (recursionBudget appGraph) st node
      pure r.1)
    st

/-- The pipeline `GenerateInitialPEAGraph` followed by `GeneratePEAGraph`. -/
def run (E : Entropy) (heap : Heap) (template : Graph) (locationReqList : LocMap)
    (locationAllowlist : LocMap) : Except Fault St :=
  GeneratePEAGraph E heap (GenerateInitialPEAGraph E heap template locationReqList).1 template
    locationAllowlist


/-! ## Elementary mutations of the closure

Every change that `GeneratePEAGraph` makes to the graph is one of three
elementary mutations, named after the place of the source that performs it. -/

/-- The state after `g.Edges[u] = append(g.Edges[u], v)`. -/
def St.addEdge (st : St) (u v : String) : St :=
  { st with g := { st.g with Edges := goAppend st.g.Edges u v } }

/-- The state after the creation branch of `processConnections`: the new node
is appended to `g.Nodes`, the edge `node -> newNode` is appended, one UUID and
one random number have been drawn. -/
def St.addNode (st : St) (node newNode : Node) : St :=
  { g := { Nodes := st.g.Nodes ++ [newNode],
           Edges := goAppend st.g.Edges node.ID newNode.ID },
    uuids := st.uuids + 1, rands := st.rands + 1 }

/-- One elementary mutation.
* `forward`: `processExistingNode` appends an edge to an existing instance of a
  dependency type, the edge being absent;
* `create`: `processConnections` creates an instance of a dependency type that
  has no instance, at an allow-listed location;
* `backward`: `checkSources` appends an edge from an instance of a source type. -/
inductive Step (E : Entropy) (heap : Heap) (appGraph : Graph) (locationAllowlist : LocMap) :
    St → St → Prop where
  | forward (st : St) (node connectedNode : Node) (connections : List String) :
      node ∈ st.g.Nodes →
      goLookup appGraph.Edges node.Name = some connections →
      connectedNode ∈ st.g.Nodes →
      connectedNode.Name ∈ connections →
      connectedNode.ID ∉ goIndex st.g.Edges node.ID →
      Step E heap appGraph locationAllowlist st (st.addEdge node.ID connectedNode.ID)
  | create (st : St) (node : Node) (connections : List String) (D : String) (loc : LocRef) :
      node ∈ st.g.Nodes →
      goLookup appGraph.Edges node.Name = some connections →
      D ∈ connections →
      (∀ n ∈ st.g.Nodes, n.Name ≠ D) →
      loc ∈ goIndex locationAllowlist D →
      14 ≤ goLen (createInstance heap (E.uuid st.uuids) D loc).ID →
      Step E heap appGraph locationAllowlist st
        (st.addNode node (createInstance heap (E.uuid st.uuids) D loc))
  | backward (st : St) (node srcNode : Node) (entry : String × List String) :
      node ∈ st.g.Nodes →
      goLookup appGraph.Edges node.Name = none →
      entry ∈ appGraph.Edges →
      node.Name ∈ entry.2 →
      srcNode ∈ st.g.Nodes →
      srcNode.Name = entry.1 →
      Step E heap appGraph locationAllowlist st (st.addEdge srcNode.ID node.ID)

/-- A finite sequence of elementary mutations. -/
def Steps (E : Entropy) (heap : Heap) (appGraph : Graph) (locationAllowlist : LocMap) :
    St → St → Prop :=
  Relation.ReflTransGen (Step E heap appGraph locationAllowlist)

/-! ## Properties of instance graphs -/

/-- The string `id` is the ID of a node of `g`. -/
def Graph.hasID (g : Graph) (id : String) : Prop := ∃ n ∈ g.Nodes, n.ID = id

/-- Edge validity: both endpoints of every instance edge are IDs of nodes. -/
def EdgeValid (g : Graph) : Prop :=
  ∀ u v : String, v ∈ goIndex g.Edges u → g.hasID u ∧ g.hasID v

/-- Forward coverage of one instance: every dependency type of its type has an
instance to which the instance has an edge. -/
def Covered (appGraph : Graph) (g : Graph) (i1 : Node) : Prop :=
  ∀ connections, goLookup appGraph.Edges i1.Name = some connections →
    ∀ T2 ∈ connections, ∃ i2 ∈ g.Nodes, i2.Name = T2 ∧ i2.ID ∈ goIndex g.Edges i1.ID

/-- The type `D` has no instance in `g`. -/
def Absent (g : Graph) (D : String) : Prop := ∀ n ∈ g.Nodes, n.Name ≠ D

/-- The allow-list has a location for every dependency type without instance. -/
def AllowlistCovers (appGraph : Graph) (locationAllowlist : LocMap) (g : Graph) : Prop :=
  ∀ D ∈ dependencyTypes appGraph, Absent g D → goIndex locationAllowlist D ≠ []

/-- The strings returned by `uuid.New().String()` have the canonical form of 36
bytes. -/
def Entropy.Canonical (E : Entropy) : Prop := ∀ k, goLen (E.uuid k) = 36

/-- Every node ID is long enough for the slice expression `node.ID[:14]`. -/
def LongIDs (g : Graph) : Prop := ∀ n ∈ g.Nodes, 14 ≤ goLen n.ID

/-- Every node ID was made by `generateUniqueID` from one of the first `uuids`
UUIDs, and no two nodes have the same ID. -/
def FreshIDs (E : Entropy) (st : St) : Prop :=
  (st.g.Nodes.map (fun n => n.ID)).Nodup ∧
    ∀ n ∈ st.g.Nodes, ∃ j < st.uuids, ∃ name loc, n.ID = generateUniqueID (E.uuid j) name loc

/-- What a returning call `processNode(g, appGraph, node, locationAllowlist)`
guarantees about the state `st'` it leaves: the state was reached by elementary
mutations, `node` is covered, and so is every node that the call created. -/
def NodePost (E : Entropy) (heap : Heap) (appGraph : Graph) (locationAllowlist : LocMap)
    (st : St) (node : Node) (st' : St) : Prop :=
  Steps E heap appGraph locationAllowlist st st' ∧ Covered appGraph st'.g node ∧
    ∀ m ∈ st'.g.Nodes, m ∈ st.g.Nodes ∨ Covered appGraph st'.g m

/-- The location that the creation branch of `processConnections` picks for the
dependency type `D` in state `st`. -/
def pickedLocation (E : Entropy) (locationAllowlist : LocMap) (st : St) (D : String) : LocRef :=
  (goIndex locationAllowlist D).getD (E.rand st.rands % (goIndex locationAllowlist D).length) 0

/-- The number of distinct type names that occur in the template adjacency lists
and have no instance in `g`: the measure that bounds the recursion. -/
def absentCount (appGraph : Graph) (g : Graph) : Nat :=
  ((dependencyTypes appGraph).dedup.filter
    (fun D => g.Nodes.all (fun n => decide (n.Name ≠ D)))).length

/-- The first `N` UUIDs are pairwise distinct and all of the same length. -/
def Entropy.FreshUpTo (E : Entropy) (N : Nat) : Prop :=
  ∀ j k, j < N → k < N → (goLen (E.uuid j) = goLen (E.uuid k) ∧ (E.uuid j = E.uuid k → j = k))

/-- The specification of the Edge Projector for a template `graph` and an
instance list `newNodes`: between entries with distinct IDs there is an edge
exactly when the types are adjacent in the template, and every ID stored in the
result is the target of such a pair. -/
def EdgeProjectorSpec (graph : Graph) (newNodes : List Node) : Prop :=
  (∀ I1 ∈ newNodes, ∀ I2 ∈ newNodes, I1.ID ≠ I2.ID →
      (I2.ID ∈ goIndex (addEdges graph newNodes) I1.ID ↔
        I2.Name ∈ goIndex graph.Edges I1.Name)) ∧
    ∀ u v, v ∈ goIndex (addEdges graph newNodes) u →
      ∃ I1 ∈ newNodes, ∃ I2 ∈ newNodes, I1.ID = u ∧ I2.ID = v ∧ I1.ID ≠ I2.ID ∧
        I2.Name ∈ goIndex graph.Edges I1.Name

/-! ## Concrete inputs

The scenarios of the specification, run with a fixed entropy source: four
UUIDs in canonical form, and a random generator that always draws `0`.  The
location `L1` lives at address `1`, the location `L2` at every other address. -/

/-- Four UUID strings in canonical form. -/
def sampleUUIDs : List String :=
  ["00000000-0000-4000-8000-000000000000", "00000000-0000-4000-8000-000000000001",
   "00000000-0000-4000-8000-000000000002", "00000000-0000-4000-8000-000000000003"]

/-- An entropy source: the sample UUIDs, then a constant. -/
def sampleEntropy : Entropy :=
  { uuid := fun k => sampleUUIDs.getD k "ffffffff-ffff-4fff-8fff-ffffffffffff"
    rand := fun _ => 0 }

/-- A heap with the locations `L1` (address 1) and `L2`, both empty. -/
def sampleHeap : Heap := fun r => if r = 1 then ⟨"L1", []⟩ else ⟨"L2", []⟩

/-- A template node of the given type (templates carry no ID and no location). -/
def templateNode (name : String) : Node := { ID := "", Name := name, Location := 0 }

/-- Scenario A and B: template `Web -> DB`. -/
def webDbTemplate : Graph :=
  { Nodes := [templateNode "Web", templateNode "DB"], Edges := [("Web", ["DB"])] }

/-- Scenario C: the cyclic template `A -> B`, `B -> A`. -/
def cyclicTemplate : Graph :=
  { Nodes := [templateNode "A", templateNode "B"], Edges := [("A", ["B"]), ("B", ["A"])] }

/-- Scenario D: template `Gateway -> Auth`, `Gateway -> Cache`. -/
def gatewayTemplate : Graph :=
  { Nodes := [templateNode "Gateway", templateNode "Auth", templateNode "Cache"],
    Edges := [("Gateway", ["Auth", "Cache"])] }

/-- A template with a self edge `T -> T`. -/
def selfEdgeTemplate : Graph :=
  { Nodes := [templateNode "T"], Edges := [("T", ["T"])] }

/-- The Web instance of scenario A. -/
def webL1 : Node :=
  { ID := "obj_Web_L1_00000000-0000-4000-8000-000000000000", Name := "Web", Location := 1 }

/-- The DB instance of scenario A. -/
def dbL1 : Node :=
  { ID := "obj_DB_L1_00000000-0000-4000-8000-000000000001", Name := "DB", Location := 1 }

/-- The A instance of scenario C. -/
def aL1 : Node :=
  { ID := "obj_A_L1_00000000-0000-4000-8000-000000000000", Name := "A", Location := 1 }

/-- The B instance of scenario C. -/
def bL1 : Node :=
  { ID := "obj_B_L1_00000000-0000-4000-8000-000000000001", Name := "B", Location := 1 }

/-- The instance of the self-edge template. -/
def tL1 : Node :=
  { ID := "obj_T_L1_00000000-0000-4000-8000-000000000000", Name := "T", Location := 1 }

/-- An instance list in which two instances of different types share an ID. -/
def clashingNodes : List Node :=
  [{ ID := "x", Name := "A", Location := 1 }, { ID := "x", Name := "C", Location := 1 },
   { ID := "y", Name := "B", Location := 1 }]

/-- The template `A -> B`. -/
def abTemplate : Graph :=
  { Nodes := [templateNode "A", templateNode "B", templateNode "C"], Edges := [("A", ["B"])] }

/-! ## Further notions -/

/-- The number of instances of the type `D` in `g`, counted with the source
function `containsNode`. -/
def instanceCount (g : Graph) (D : String) : Nat := (containsNode g.Nodes D).length

/-- Scenario A after `GenerateInitialPEAGraph`: the Web instance, no edge. -/
def scenarioAStart : St :=
  { g := { Nodes := [webL1], Edges := [] }, uuids := 1, rands := 0 }

/-- Scenario A after `GeneratePEAGraph`. -/
def scenarioAEnd : St :=
  { g := { Nodes := [webL1, dbL1], Edges := [(webL1.ID, [dbL1.ID, dbL1.ID])] },
    uuids := 2, rands := 1 }

/-- Scenario C after `GenerateInitialPEAGraph`: the A instance, no edge. -/
def scenarioCStart : St :=
  { g := { Nodes := [aL1], Edges := [] }, uuids := 1, rands := 0 }

/-- Scenario C after `GeneratePEAGraph`. -/
def scenarioCEnd : St :=
  { g := { Nodes := [aL1, bL1], Edges := [(aL1.ID, [bL1.ID]), (bL1.ID, [aL1.ID])] },
    uuids := 2, rands := 1 }

/-- Every stored edge joins the IDs of two nodes whose types are adjacent in the
template. -/
def EdgesFollowTemplate (appGraph : Graph) (g : Graph) : Prop :=
  ∀ u v, v ∈ goIndex g.Edges u →
    ∃ i ∈ g.Nodes, ∃ j ∈ g.Nodes, i.ID = u ∧ j.ID = v ∧
      j.Name ∈ goIndex appGraph.Edges i.Name

/-- The Gateway instance of Scenario D. -/
def gatewayL1 : Node :=
  { ID := "obj_Gateway_L1_00000000-0000-4000-8000-000000000000", Name := "Gateway",
    Location := 1 }

/-- The Auth instance of Scenario D. -/
def authL1 : Node :=
  { ID := "obj_Auth_L1_00000000-0000-4000-8000-000000000001", Name := "Auth", Location := 1 }

/-- The Cache instance of Scenario D. -/
def cacheL1 : Node :=
  { ID := "obj_Cache_L1_00000000-0000-4000-8000-000000000002", Name := "Cache", Location := 1 }

/-- Scenario D after `GeneratePEAGraph`. -/
def scenarioDEnd : St :=
  { g := { Nodes := [gatewayL1, authL1, cacheL1],
           Edges := [(gatewayL1.ID, [authL1.ID, authL1.ID, cacheL1.ID, cacheL1.ID])] },
    uuids := 3, rands := 2 }

/-- A template whose adjacency list names the dependency DB twice. -/
def repeatedDependencyTemplate : Graph :=
  { Nodes := [templateNode "Web", templateNode "DB"], Edges := [("Web", ["DB", "DB"])] }

/-- Go `strings.Split(s, sep)` for a separator of one character, on the
characters of `s`: the fields between the separators, at least one field. -/
def splitChars (sep : Char) : List Char → List (List Char)
  | [] => [[]]
  | c :: cs =>
    if c = sep then [] :: splitChars sep cs
    else
      match splitChars sep cs with
      | [] => [[c]]
      | w :: ws => (c :: w) :: ws

/-- Go `strings.Split(s, sep)` for a separator of one character. -/
def goSplit (s : String) (sep : Char) : List String :=
  (splitChars sep s.data).map String.mk

/-- Source: `getLocationLable`. -/
def getLocationLable (nodeID : String) : String :=
  let locLabel := goSplit nodeID '_'
  if locLabel.length > 2 then locLabel.getD 2 "" else ""

/-- Complete coverage of the dependency type `D` for the instance `n`: the type
has an instance, and `n` has an edge to every instance of it. -/
def FullFor (g : Graph) (n : Node) (D : String) : Prop :=
  (∃ i2 ∈ g.Nodes, i2.Name = D) ∧
    ∀ i2 ∈ g.Nodes, i2.Name = D → i2.ID ∈ goIndex g.Edges n.ID

/-- Complete coverage of one instance: complete coverage of every dependency
type of its type. -/
def FullyCovered (appGraph : Graph) (g : Graph) (n : Node) : Prop :=
  ∀ connections, goLookup appGraph.Edges n.Name = some connections →
    ∀ D ∈ connections, FullFor g n D

/-! ## The enumeration order of the template map

`checkSources` ranges over the map `appGraph.Edges`; the Go runtime yields the
entries of a map in an order of its own choice, each entry once.  In the
definitions above that order is the order of the association list.  The
following variants take the order as a parameter. -/

/-- The state `st` with the edge map replaced by `edges`. -/
def St.withEdges (st : St) (edges : EdgeMap) : St :=
  { st with g := { st.g with Edges := edges } }

/-- The keys to which `checkSources(g, appGraph, node)` appends the ID of
`node`, in the order of the appends, when the map entries are enumerated in the
order `entries` and `g.Nodes` is `nodes`. -/
def backwardKeys (entries : EdgeMap) (nodes : List Node) (node : Node) : List String :=
  entries.flatMap (fun entry =>
    entry.2.flatMap (fun destNodeName =>
      if destNodeName = node.Name then
        (nodes.filter (fun srcNode => decide (srcNode.Name = entry.1))).map
          (fun srcNode => srcNode.ID)
      else []))

/-- Source: `processNode`, with the enumeration order of `range appGraph.Edges`
in `checkSources` made explicit: `enum st node` is the sequence in which the
entries of the map are yielded to the call `checkSources(g, appGraph, node)`
made in state `st`. -/
def processNodeWith (enum : St → Node → EdgeMap) (E : Entropy) (heap : Heap)
    (appGraph : Graph) (locationAllowlist : LocMap) :
    Nat → St → Node → Except Fault (St × List Node)
  | 0, _, _ => .error .outOfFuel
  | fuel + 1, st, node =>
    if goLen node.ID < 14 then .error .sliceBoundsOutOfRange
    else
      match goLookup appGraph.Edges node.Name with
      | some connections =>
        processConnections E heap (processNodeWith enum E heap appGraph locationAllowlist fuel)
          st node connections locationAllowlist
      | none => .ok (checkSources st { appGraph with Edges := enum st node } node, [])

/-- Source: `GeneratePEAGraph`, with the enumeration order made explicit. -/
def GeneratePEAGraphWith (enum : St → Node → EdgeMap) (E : Entropy) (heap : Heap) (st : St)
    (appGraph : Graph) (locationAllowlist : LocMap) : Except Fault St :=
  st.g.Nodes.foldlM
    (fun st node => do
      let r ← processNodeWith enum E heap appGraph locationAllowlist
        (recursionBudget appGraph) st node
      pure r.1)
    st

/-- Two states hold the same graph: the same node list and, for every ID, the
same edge list (a Go map has no order of its keys), with the same position in
the entropy source. -/
def SameGraph (s1 s2 : St) : Prop :=
  s1.g.Nodes = s2.g.Nodes ∧ (∀ id, goIndex s1.g.Edges id = goIndex s2.g.Edges id) ∧
    s1.uuids = s2.uuids ∧ s1.rands = s2.rands

/-- Two runs end alike: with the same panic, or with the same graph. -/
def SameOutcome (r1 r2 : Except Fault St) : Prop :=
  match r1, r2 with
  | .ok s1, .ok s2 => SameGraph s1 s2
  | .error e1, .error e2 => e1 = e2
  | _, _ => False

/-- Two calls of `processNode` end alike: with the same panic, or with the same
graph and the same list of added nodes. -/
def SameResult (r1 r2 : Except Fault (St × List Node)) : Prop :=
  match r1, r2 with
  | .ok a1, .ok a2 => SameGraph a1.1 a2.1 ∧ a1.2 = a2.2
  | .error e1, .error e2 => e1 = e2
  | _, _ => False

/-- A template with three sources of one dependency: `Z -> C`, `X -> C`,
`Y -> C`. -/
def sharedDependencyTemplate : Graph :=
  { Nodes := [templateNode "Z", templateNode "X", templateNode "Y", templateNode "C"],
    Edges := [("Z", ["C"]), ("X", ["C"]), ("Y", ["C"])] }

/-- The initial graph of the shared-dependency template with one instance of
each source at `L1`. -/
def sharedDependencyStart : St :=
  (GenerateInitialPEAGraph sampleEntropy sampleHeap sharedDependencyTemplate
    [("Z", [1]), ("X", [1]), ("Y", [1])]).1

/-! ## Reaching an empty allow-list -/

/-- The call `processNode(g, appGraph, node, locationAllowlist)` made in state
`st` reaches a dependency type that has no instance in `g.Nodes` and whose
allow-list is empty or absent: either in its own loop over the dependencies of
`node` (`here`: the dependencies `done` before `D` have been processed and left
the state `acc`), or in the nested call for an instance that this loop has
created (`nested`).  The first index is the recursion budget of the call. -/
inductive ReachesEmptyAllowlist (E : Entropy) (heap : Heap) (appGraph : Graph)
    (locationAllowlist : LocMap) : Nat → St → Node → Prop where
  | here (fuel : Nat) (st : St) (node : Node) (done rest : List String) (D : String)
      (acc : St × List Node) :
      14 ≤ goLen node.ID →
      goLookup appGraph.Edges node.Name = some (done ++ D :: rest) →
      done.foldlM
        (processConnectionsStep E heap (processNode E heap appGraph locationAllowlist fuel)
          node locationAllowlist) (st, []) = .ok acc →
      containsNode acc.1.g.Nodes D = [] →
      goIndex locationAllowlist D = [] →
      ReachesEmptyAllowlist E heap appGraph locationAllowlist (fuel + 1) st node
  | nested (fuel : Nat) (st : St) (node : Node) (done rest : List String) (D : String)
      (acc : St × List Node) :
      14 ≤ goLen node.ID →
      goLookup appGraph.Edges node.Name = some (done ++ D :: rest) →
      done.foldlM
        (processConnectionsStep E heap (processNode E heap appGraph locationAllowlist fuel)
          node locationAllowlist) (st, []) = .ok acc →
      containsNode acc.1.g.Nodes D = [] →
      goIndex locationAllowlist D ≠ [] →
      14 ≤ goLen (createInstance heap (E.uuid acc.1.uuids) D
        (pickedLocation E locationAllowlist acc.1 D)).ID →
      ReachesEmptyAllowlist E heap appGraph locationAllowlist fuel
        (acc.1.addNode node (createInstance heap (E.uuid acc.1.uuids) D
          (pickedLocation E locationAllowlist acc.1 D)))
        (createInstance heap (E.uuid acc.1.uuids) D
          (pickedLocation E locationAllowlist acc.1 D)) →
      ReachesEmptyAllowlist E heap appGraph locationAllowlist (fuel + 1) st node

/-- A chain template `Web -> DB`, `DB -> Store`. -/
def storeTemplate : Graph :=
  { Nodes := [templateNode "Web", templateNode "DB", templateNode "Store"],
    Edges := [("Web", ["DB"]), ("DB", ["Store"])] }

/-- A template with two independent sources: `Web -> DB`, `Api -> Cache`. -/
def twoSourcesTemplate : Graph :=
  { Nodes := [templateNode "Web", templateNode "Api", templateNode "DB", templateNode "Cache"],
    Edges := [("Web", ["DB"]), ("Api", ["Cache"])] }


/-! ## Maps -/

theorem goLookup_goAppend {β : Type} (m : List (String × List β)) (k k' : String) (v : β) :
    goLookup (goAppend m k v) k' =
      if k' = k then some (goIndex m k ++ [v]) else goLookup m k' := by
  induction m with
  | nil =>
    by_cases h : k' = k
    · simp [goAppend, goLookup, goIndex, h]
    · have h' : ¬ k = k' := fun e => h e.symm
      simp [goAppend, goLookup, h, h']
  | cons e rest ih =>
    obtain ⟨k0, vs⟩ := e
    by_cases h0 : k0 = k
    · by_cases h : k' = k
      · simp [goAppend, goLookup, goIndex, h0, h]
      · have h' : ¬ k = k' := fun e => h e.symm
        simp [goAppend, goLookup, h0, h, h']
    · by_cases h : k' = k
      · subst h
        simp only [goAppend, goLookup, h0, if_false, ih, if_true, goIndex]
      · simp only [goAppend, goLookup, h0, if_false, ih, h]

theorem goIndex_goAppend {β : Type} (m : List (String × List β)) (k k' : String) (v : β) :
    goIndex (goAppend m k v) k' = if k' = k then goIndex m k ++ [v] else goIndex m k' := by
  unfold goIndex
  rw [goLookup_goAppend]
  by_cases h : k' = k <;> simp [h, goIndex]

theorem goIndex_goAppend_self {β : Type} (m : List (String × List β)) (k : String) (v : β) :
    goIndex (goAppend m k v) k = goIndex m k ++ [v] := by
  simp [goIndex_goAppend]

theorem goIndex_prefix_goAppend {β : Type} (m : List (String × List β)) (k k' : String) (v : β) :
    goIndex m k' <+: goIndex (goAppend m k v) k' := by
  rw [goIndex_goAppend]
  by_cases h : k' = k
  · subst h; simp
  · simp [h]

theorem containsEdge_iff (edges : EdgeMap) (u v : String) :
    containsEdge edges u v = true ↔ v ∈ goIndex edges u := by
  unfold containsEdge goIndex
  cases h : goLookup edges u with
  | none => simp
  | some connections =>
    simp only [List.any_eq_true, decide_eq_true_eq, Option.getD_some]
    constructor
    · rintro ⟨x, hx, rfl⟩; exact hx
    · intro hv; exact ⟨v, hv, rfl⟩

theorem goLookup_mem {β : Type} (m : List (String × β)) (k : String) (v : β)
    (h : goLookup m k = some v) : (k, v) ∈ m := by
  induction m with
  | nil => simp [goLookup] at h
  | cons e rest ih =>
    obtain ⟨k0, v0⟩ := e
    by_cases h0 : k0 = k
    · simp [goLookup, h0] at h
      subst h0; subst h; simp
    · simp only [goLookup, h0, if_false] at h
      exact List.mem_cons_of_mem _ (ih h)

/-! ## Strings -/

theorem goLen_append (a b : String) : goLen (a ++ b) = goLen a + goLen b := by
  show String.utf8Len (a ++ b).data = String.utf8Len a.data + String.utf8Len b.data
  rw [String.data_append, String.utf8Len_append]


/-! ## Monotonicity of the elementary mutations -/

theorem Step.one_nodes_grow {E : Entropy} {heap : Heap} {appGraph : Graph} {allow : LocMap}
    {st st' : St} (h : Step E heap appGraph allow st st') : st.g.Nodes <+: st'.g.Nodes := by
  cases h <;> simp [St.addEdge, St.addNode]

theorem Step.one_edges_grow {E : Entropy} {heap : Heap} {appGraph : Graph} {allow : LocMap}
    {st st' : St} (h : Step E heap appGraph allow st st') (k : String) :
    goIndex st.g.Edges k <+: goIndex st'.g.Edges k := by
  cases h <;> exact goIndex_prefix_goAppend _ _ _ _

theorem Steps.nodes_grow {E : Entropy} {heap : Heap} {appGraph : Graph} {allow : LocMap}
    {st st' : St} (h : Steps E heap appGraph allow st st') : st.g.Nodes <+: st'.g.Nodes := by
  induction h with
  | refl => exact List.prefix_refl _
  | tail _ hs ih => exact ih.trans hs.one_nodes_grow

theorem Steps.edges_grow {E : Entropy} {heap : Heap} {appGraph : Graph} {allow : LocMap}
    {st st' : St} (h : Steps E heap appGraph allow st st') (k : String) :
    goIndex st.g.Edges k <+: goIndex st'.g.Edges k := by
  induction h with
  | refl => exact List.prefix_refl _
  | tail _ hs ih => exact ih.trans (hs.one_edges_grow k)

theorem Steps.mem_nodes {E : Entropy} {heap : Heap} {appGraph : Graph} {allow : LocMap}
    {st st' : St} (h : Steps E heap appGraph allow st st') {n : Node} (hn : n ∈ st.g.Nodes) :
    n ∈ st'.g.Nodes :=
  h.nodes_grow.subset hn

theorem Steps.mem_edges {E : Entropy} {heap : Heap} {appGraph : Graph} {allow : LocMap}
    {st st' : St} (h : Steps E heap appGraph allow st st') {u v : String}
    (hv : v ∈ goIndex st.g.Edges u) : v ∈ goIndex st'.g.Edges u :=
  (h.edges_grow u).subset hv

theorem Steps.trans {E : Entropy} {heap : Heap} {appGraph : Graph} {allow : LocMap}
    {a b c : St} (h1 : Steps E heap appGraph allow a b) (h2 : Steps E heap appGraph allow b c) :
    Steps E heap appGraph allow a c :=
  Relation.ReflTransGen.trans h1 h2

theorem Steps.covered {E : Entropy} {heap : Heap} {appGraph : Graph} {allow : LocMap}
    {st st' : St} (h : Steps E heap appGraph allow st st') {n : Node}
    (hc : Covered appGraph st.g n) : Covered appGraph st'.g n := by
  intro connections hl T2 hT
  obtain ⟨i2, hi, hn, he⟩ := hc connections hl T2 hT
  exact ⟨i2, h.mem_nodes hi, hn, h.mem_edges he⟩

/-- An invariant of the elementary mutations holds along every sequence. -/
theorem Steps.invariant {E : Entropy} {heap : Heap} {appGraph : Graph} {allow : LocMap}
    (P : St → Prop)
    (hstep : ∀ a b, P a → Step E heap appGraph allow a b → P b)
    {st st' : St} (h : Steps E heap appGraph allow st st') (h0 : P st) : P st' := by
  induction h with
  | refl => exact h0
  | tail _ hs ih => exact hstep _ _ ih hs


/-! ## `containsNode` -/

theorem mem_containsNodeFrom (name : String) (nodes : List Node) (start idx : Nat) :
    idx ∈ containsNodeFrom name start nodes ↔
      ∃ j c, idx = start + j ∧ nodes[j]? = some c ∧ c.Name = name := by
  induction nodes generalizing start with
  | nil => simp [containsNodeFrom]
  | cons n rest ih =>
    have key : (∃ j c, idx = start + j ∧ (n :: rest)[j]? = some c ∧ c.Name = name) ↔
        ((idx = start ∧ n.Name = name) ∨
          ∃ j c, idx = start + 1 + j ∧ rest[j]? = some c ∧ c.Name = name) := by
      constructor
      · rintro ⟨j, c, hj, hc, hn⟩
        cases j with
        | zero =>
          simp at hc
          subst hc
          exact Or.inl ⟨by simpa using hj, hn⟩
        | succ j =>
          simp at hc
          exact Or.inr ⟨j, c, by omega, hc, hn⟩
      · rintro (⟨hi, hn⟩ | ⟨j, c, hj, hc, hn⟩)
        · exact ⟨0, n, by simpa using hi, by simp, hn⟩
        · exact ⟨j + 1, c, by omega, by simpa using hc, hn⟩
    rw [key]
    unfold containsNodeFrom
    by_cases hn : n.Name = name
    · simp only [hn, if_true, List.mem_cons, ih, and_true]
    · simp only [hn, if_false, ih, and_false, false_or]

theorem mem_containsNode (nodes : List Node) (name : String) (idx : Nat) :
    idx ∈ containsNode nodes name ↔ ∃ c, nodes[idx]? = some c ∧ c.Name = name := by
  unfold containsNode
  rw [mem_containsNodeFrom]
  constructor
  · rintro ⟨j, c, hj, hc, hn⟩
    have : idx = j := by omega
    subst this
    exact ⟨c, hc, hn⟩
  · rintro ⟨c, hc, hn⟩
    exact ⟨idx, c, by omega, hc, hn⟩

theorem containsNode_eq_nil (nodes : List Node) (name : String) :
    containsNode nodes name = [] ↔ ∀ n ∈ nodes, n.Name ≠ name := by
  rw [List.eq_nil_iff_forall_not_mem]
  constructor
  · intro h n hn hname
    obtain ⟨i, hi, hget⟩ := List.getElem_of_mem hn
    exact h i ((mem_containsNode _ _ _).2 ⟨n, by simp [List.getElem?_eq_getElem hi, hget], hname⟩)
  · intro h idx hidx
    obtain ⟨c, hc, hn⟩ := (mem_containsNode _ _ _).1 hidx
    exact h c (List.getElem?_mem hc) hn

theorem containsNode_length_pos (nodes : List Node) (name : String) :
    (containsNode nodes name).length > 0 ↔ ∃ n ∈ nodes, n.Name = name := by
  rw [gt_iff_lt, List.length_pos, Ne, containsNode_eq_nil]
  push_neg
  rfl

/-! ## `processExistingNode` -/

theorem processExistingNodeStep_eq (node : Node) (st : St) (idx : Nat) (c : Node)
    (hc : st.g.Nodes[idx]? = some c) :
    processExistingNodeStep node st idx =
      .ok (if c.ID ∈ goIndex st.g.Edges node.ID then st else st.addEdge node.ID c.ID) := by
  unfold processExistingNodeStep
  rw [hc]
  by_cases hmem : c.ID ∈ goIndex st.g.Edges node.ID
  · have h1 : goIndex st.g.Edges node.ID ≠ [] := List.ne_nil_of_mem hmem
    have h2 : containsEdge st.g.Edges node.ID c.ID = true := (containsEdge_iff _ _ _).2 hmem
    simp [hmem, h1, h2]
  · have h2 : containsEdge st.g.Edges node.ID c.ID = false := by
      cases h : containsEdge st.g.Edges node.ID c.ID with
      | false => rfl
      | true => exact absurd ((containsEdge_iff _ _ _).1 h) hmem
    simp [hmem, h2, St.addEdge]

theorem processExistingNode_spec (E : Entropy) (heap : Heap) (appGraph : Graph) (allow : LocMap)
    (node : Node) (connections : List String) (D : String)
    (hl : goLookup appGraph.Edges node.Name = some connections) (hD : D ∈ connections)
    (idxs : List Nat) (st : St) (hnode : node ∈ st.g.Nodes)
    (hidx : ∀ idx ∈ idxs, ∃ c, st.g.Nodes[idx]? = some c ∧ c.Name = D) :
    ∃ st', processExistingNode st node idxs = .ok st' ∧
      Steps E heap appGraph allow st st' ∧ st'.g.Nodes = st.g.Nodes ∧
      st'.uuids = st.uuids ∧ st'.rands = st.rands ∧
      ∀ idx ∈ idxs, ∀ c, st.g.Nodes[idx]? = some c → c.ID ∈ goIndex st'.g.Edges node.ID := by
  induction idxs generalizing st with
  | nil =>
    exact ⟨st, rfl, Relation.ReflTransGen.refl, rfl, rfl, rfl, by simp⟩
  | cons idx rest ih =>
    obtain ⟨c, hc, hcn⟩ := hidx idx (List.mem_cons_self _ _)
    have hstep := processExistingNodeStep_eq node st idx c hc
    -- the state after the first index
    obtain ⟨st1, hst1, hs1, hn1, hu1, hr1, he1⟩ :
        ∃ st1, processExistingNodeStep node st idx = .ok st1 ∧
          Steps E heap appGraph allow st st1 ∧ st1.g.Nodes = st.g.Nodes ∧
          st1.uuids = st.uuids ∧ st1.rands = st.rands ∧
          c.ID ∈ goIndex st1.g.Edges node.ID := by
      by_cases hmem : c.ID ∈ goIndex st.g.Edges node.ID
      · refine ⟨st, ?_, Relation.ReflTransGen.refl, rfl, rfl, rfl, hmem⟩
        rw [hstep, if_pos hmem]
      · refine ⟨st.addEdge node.ID c.ID, ?_, ?_, rfl, rfl, rfl, ?_⟩
        · rw [hstep, if_neg hmem]
        · exact Relation.ReflTransGen.single
            (Step.forward st node c connections hnode hl (List.getElem?_mem hc)
              (hcn ▸ hD) hmem)
        · simp [St.addEdge, goIndex_goAppend_self]
    have hidx1 : ∀ i ∈ rest, ∃ c, st1.g.Nodes[i]? = some c ∧ c.Name = D := by
      intro i hi
      rw [hn1]
      exact hidx i (List.mem_cons_of_mem _ hi)
    obtain ⟨st', hst', hs', hn', hu', hr', he'⟩ := ih st1 (hn1 ▸ hnode) hidx1
    refine ⟨st', ?_, hs1.trans hs', hn'.trans hn1, hu'.trans hu1, hr'.trans hr1, ?_⟩
    · unfold processExistingNode at hst' ⊢
      rw [List.foldlM_cons, hst1]
      exact hst'
    · intro i hi c' hc'
      rcases List.mem_cons.1 hi with rfl | hi
      · rw [hc] at hc'
        cases hc'
        exact hs'.mem_edges he1
      · exact he' i hi c' (by rw [hn1]; exact hc')

/-! ## `checkSources` -/

theorem checkSources_inner (E : Entropy) (heap : Heap) (appGraph : Graph) (allow : LocMap)
    (node : Node) (entry : String × List String)
    (hl : goLookup appGraph.Edges node.Name = none) (he : entry ∈ appGraph.Edges)
    (hd : node.Name ∈ entry.2)
    (srcs : List Node) (st : St) (hnode : node ∈ st.g.Nodes) (hsrcs : srcs ⊆ st.g.Nodes) :
    let st' := srcs.foldl
      (fun st srcNode =>
        if srcNode.Name = entry.1 then
          { st with g := { st.g with Edges := goAppend st.g.Edges srcNode.ID node.ID } }
        else st) st
    Steps E heap appGraph allow st st' ∧ st'.g.Nodes = st.g.Nodes ∧
      st'.uuids = st.uuids ∧ st'.rands = st.rands := by
  induction srcs generalizing st with
  | nil => exact ⟨Relation.ReflTransGen.refl, rfl, rfl, rfl⟩
  | cons s rest ih =>
    have hs : s ∈ st.g.Nodes := hsrcs (List.mem_cons_self _ _)
    have hrest : rest ⊆ st.g.Nodes := fun x hx => hsrcs (List.mem_cons_of_mem _ hx)
    simp only [List.foldl_cons]
    by_cases hname : s.Name = entry.1
    · simp only [hname, if_true]
      have hstep : Step E heap appGraph allow st (st.addEdge s.ID node.ID) :=
        Step.backward st node s entry hnode hl he hd hs hname
      obtain ⟨h1, h2, h3, h4⟩ := ih (st.addEdge s.ID node.ID) hnode hrest
      exact ⟨Relation.ReflTransGen.head hstep h1, h2, h3, h4⟩
    · simp only [hname, if_false]
      exact ih st hnode hrest

theorem checkSources_middle (E : Entropy) (heap : Heap) (appGraph : Graph) (allow : LocMap)
    (node : Node) (entry : String × List String)
    (hl : goLookup appGraph.Edges node.Name = none) (he : entry ∈ appGraph.Edges)
    (dests : List String) (hdests : dests ⊆ entry.2)
    (st : St) (hnode : node ∈ st.g.Nodes) :
    let st' := dests.foldl
      (fun st destNodeName =>
        if destNodeName = node.Name then
          st.g.Nodes.foldl
            (fun st srcNode =>
              if srcNode.Name = entry.1 then
                { st with g := { st.g with Edges := goAppend st.g.Edges srcNode.ID node.ID } }
              else st) st
        else st) st
    Steps E heap appGraph allow st st' ∧ st'.g.Nodes = st.g.Nodes ∧
      st'.uuids = st.uuids ∧ st'.rands = st.rands := by
  induction dests generalizing st with
  | nil => exact ⟨Relation.ReflTransGen.refl, rfl, rfl, rfl⟩
  | cons d rest ih =>
    have hd : d ∈ entry.2 := hdests (List.mem_cons_self _ _)
    have hrest : rest ⊆ entry.2 := fun x hx => hdests (List.mem_cons_of_mem _ hx)
    simp only [List.foldl_cons]
    by_cases hname : d = node.Name
    · simp only [hname, if_true]
      obtain ⟨a1, a2, a3, a4⟩ :=
        checkSources_inner E heap appGraph allow node entry hl he (hname ▸ hd) st.g.Nodes st hnode
          (List.Subset.refl _)
      obtain ⟨b1, b2, b3, b4⟩ := ih hrest _ (by rw [a2]; exact hnode)
      exact ⟨a1.trans b1, b2.trans a2, b3.trans a3, b4.trans a4⟩
    · simp only [hname, if_false]
      exact ih hrest st hnode

theorem checkSources_outer (E : Entropy) (heap : Heap) (appGraph : Graph) (allow : LocMap)
    (node : Node) (hl : goLookup appGraph.Edges node.Name = none)
    (entries : EdgeMap) (hentries : entries ⊆ appGraph.Edges)
    (st : St) (hnode : node ∈ st.g.Nodes) :
    let st' := checkSources st { appGraph with Edges := entries } node
    Steps E heap appGraph allow st st' ∧ st'.g.Nodes = st.g.Nodes ∧
      st'.uuids = st.uuids ∧ st'.rands = st.rands := by
  induction entries generalizing st with
  | nil => exact ⟨Relation.ReflTransGen.refl, rfl, rfl, rfl⟩
  | cons e rest ih =>
    have he : e ∈ appGraph.Edges := hentries (List.mem_cons_self _ _)
    have hrest : rest ⊆ appGraph.Edges := fun x hx => hentries (List.mem_cons_of_mem _ hx)
    obtain ⟨a1, a2, a3, a4⟩ :=
      checkSources_middle E heap appGraph allow node e hl he e.2 (List.Subset.refl _) st hnode
    obtain ⟨b1, b2, b3, b4⟩ := ih hrest _ (by rw [a2]; exact hnode)
    exact ⟨a1.trans b1, b2.trans a2, b3.trans a3, b4.trans a4⟩

theorem checkSources_spec (E : Entropy) (heap : Heap) (appGraph : Graph) (allow : LocMap)
    (node : Node) (hl : goLookup appGraph.Edges node.Name = none)
    (st : St) (hnode : node ∈ st.g.Nodes) :
    Steps E heap appGraph allow st (checkSources st appGraph node) ∧
      (checkSources st appGraph node).g.Nodes = st.g.Nodes ∧
      (checkSources st appGraph node).uuids = st.uuids ∧
      (checkSources st appGraph node).rands = st.rands :=
  checkSources_outer E heap appGraph allow node hl appGraph.Edges (List.Subset.refl _) st hnode


/-! ## `processConnections` -/

theorem processConnectionsStep_existing (E : Entropy) (heap : Heap)
    (recur : St → Node → Except Fault (St × List Node)) (node : Node) (allow : LocMap)
    (acc : St × List Node) (D : String)
    (h : (containsNode acc.1.g.Nodes D).length > 0) :
    processConnectionsStep E heap recur node allow acc D =
      (processExistingNode acc.1 node (containsNode acc.1.g.Nodes D)).map
        (fun st => (st, acc.2)) := by
  unfold processConnectionsStep
  simp only [h, if_true]
  cases processExistingNode acc.1 node (containsNode acc.1.g.Nodes D) <;> rfl

theorem processConnectionsStep_noLocation (E : Entropy) (heap : Heap)
    (recur : St → Node → Except Fault (St × List Node)) (node : Node) (allow : LocMap)
    (acc : St × List Node) (D : String)
    (h : containsNode acc.1.g.Nodes D = []) (hallow : goIndex allow D = []) :
    processConnectionsStep E heap recur node allow acc D = .error .intnInvalidArgument := by
  unfold processConnectionsStep
  simp [h, hallow, intn]
  rfl

theorem processConnectionsStep_create (E : Entropy) (heap : Heap)
    (recur : St → Node → Except Fault (St × List Node)) (node : Node) (allow : LocMap)
    (acc : St × List Node) (D : String)
    (h : containsNode acc.1.g.Nodes D = []) (hallow : goIndex allow D ≠ [])
    (hlen : 14 ≤ goLen (createInstance heap (E.uuid acc.1.uuids) D
      (pickedLocation E allow acc.1 D)).ID) :
    processConnectionsStep E heap recur node allow acc D =
      (recur (acc.1.addNode node (createInstance heap (E.uuid acc.1.uuids) D
          (pickedLocation E allow acc.1 D)))
        (createInstance heap (E.uuid acc.1.uuids) D (pickedLocation E allow acc.1 D))).map
        (fun r => (r.1, acc.2 ++ [createInstance heap (E.uuid acc.1.uuids) D
          (pickedLocation E allow acc.1 D)])) := by
  have hpos : 0 < (goIndex allow D).length := List.length_pos.2 hallow
  have hlt : E.rand acc.1.rands % (goIndex allow D).length < (goIndex allow D).length :=
    Nat.mod_lt _ hpos
  have hget : (goIndex allow D)[E.rand acc.1.rands % (goIndex allow D).length]? =
      some (pickedLocation E allow acc.1 D) := by
    unfold pickedLocation
    rw [List.getD_eq_getElem?_getD, List.getElem?_eq_getElem hlt]
    rfl
  have hne : (goIndex allow D).length ≠ 0 := Nat.pos_iff_ne_zero.1 hpos
  have hlen' : ¬ goLen (createInstance heap (E.uuid acc.1.uuids) D
      (pickedLocation E allow acc.1 D)).ID < 14 := Nat.not_lt.2 hlen
  unfold processConnectionsStep
  simp only [h, List.length_nil, gt_iff_lt, Nat.lt_irrefl, if_false, intn, hne]
  simp only [bind, Except.bind, hget, hlen', if_false, St.addNode]
  cases recur _ _ <;> rfl

theorem pickedLocation_mem (E : Entropy) (allow : LocMap) (st : St) (D : String)
    (hallow : goIndex allow D ≠ []) : pickedLocation E allow st D ∈ goIndex allow D := by
  have hpos : 0 < (goIndex allow D).length := List.length_pos.2 hallow
  have hlt : E.rand st.rands % (goIndex allow D).length < (goIndex allow D).length :=
    Nat.mod_lt _ hpos
  unfold pickedLocation
  rw [List.getD_eq_getElem?_getD, List.getElem?_eq_getElem hlt]
  exact List.getElem_mem _

theorem processConnectionsStep_shortID (E : Entropy) (heap : Heap)
    (recur : St → Node → Except Fault (St × List Node)) (node : Node) (allow : LocMap)
    (acc : St × List Node) (D : String)
    (h : containsNode acc.1.g.Nodes D = []) (hallow : goIndex allow D ≠ [])
    (hlen : goLen (createInstance heap (E.uuid acc.1.uuids) D
      (pickedLocation E allow acc.1 D)).ID < 14) :
    processConnectionsStep E heap recur node allow acc D = .error .sliceBoundsOutOfRange := by
  have hpos : 0 < (goIndex allow D).length := List.length_pos.2 hallow
  have hlt : E.rand acc.1.rands % (goIndex allow D).length < (goIndex allow D).length :=
    Nat.mod_lt _ hpos
  have hget : (goIndex allow D)[E.rand acc.1.rands % (goIndex allow D).length]? =
      some (pickedLocation E allow acc.1 D) := by
    unfold pickedLocation
    rw [List.getD_eq_getElem?_getD, List.getElem?_eq_getElem hlt]
    rfl
  have hne : (goIndex allow D).length ≠ 0 := Nat.pos_iff_ne_zero.1 hpos
  unfold processConnectionsStep
  simp only [h, List.length_nil, gt_iff_lt, Nat.lt_irrefl, if_false, intn, hne]
  simp only [bind, Except.bind, hget, hlen, if_true]


theorem processConnectionsStep_post (E : Entropy) (heap : Heap) (appGraph : Graph)
    (recur : St → Node → Except Fault (St × List Node)) (node : Node) (allow : LocMap)
    (hrec : ∀ s n r, n ∈ s.g.Nodes → recur s n = .ok r → NodePost E heap appGraph allow s n r.1)
    (connections : List String) (hl : goLookup appGraph.Edges node.Name = some connections)
    (D : String) (hD : D ∈ connections)
    (acc : St × List Node) (hnode : node ∈ acc.1.g.Nodes) (r : St × List Node)
    (h : processConnectionsStep E heap recur node allow acc D = .ok r) :
    Steps E heap appGraph allow acc.1 r.1 ∧
      (∃ i2 ∈ r.1.g.Nodes, i2.Name = D ∧ i2.ID ∈ goIndex r.1.g.Edges node.ID) ∧
      ∀ m ∈ r.1.g.Nodes, m ∈ acc.1.g.Nodes ∨ Covered appGraph r.1.g m := by
  by_cases hpos : (containsNode acc.1.g.Nodes D).length > 0
  · -- an instance of `D` exists
    rw [processConnectionsStep_existing E heap recur node allow acc D hpos] at h
    obtain ⟨st', hst', hs, hn, -, -, he⟩ :=
      processExistingNode_spec E heap appGraph allow node connections D hl hD
        (containsNode acc.1.g.Nodes D) acc.1 hnode
        (fun idx hidx => (mem_containsNode _ _ _).1 hidx)
    rw [hst'] at h
    have hr : r = (st', acc.2) := by
      simp only [Except.map] at h
      exact (Except.ok.inj h).symm
    subst hr
    refine ⟨hs, ?_, ?_⟩
    · obtain ⟨idx, hidx⟩ := List.exists_mem_of_length_pos hpos
      obtain ⟨c, hc, hcn⟩ := (mem_containsNode _ _ _).1 hidx
      refine ⟨c, ?_, hcn, he idx hidx c hc⟩
      show c ∈ st'.g.Nodes
      rw [hn]
      exact List.getElem?_mem hc
    · intro m hm
      left
      have : m ∈ st'.g.Nodes := hm
      rw [hn] at this
      exact this
  · -- no instance of `D` exists
    have hnil : containsNode acc.1.g.Nodes D = [] := by
      cases hc : containsNode acc.1.g.Nodes D with
      | nil => rfl
      | cons a l => simp [hc] at hpos
    have habs : ∀ n ∈ acc.1.g.Nodes, n.Name ≠ D := (containsNode_eq_nil _ _).1 hnil
    by_cases hallow : goIndex allow D = []
    · rw [processConnectionsStep_noLocation E heap recur node allow acc D hnil hallow] at h
      cases h
    · by_cases hlen : 14 ≤ goLen (createInstance heap (E.uuid acc.1.uuids) D
          (pickedLocation E allow acc.1 D)).ID
      · rw [processConnectionsStep_create E heap recur node allow acc D hnil hallow hlen] at h
        generalize hnew : createInstance heap (E.uuid acc.1.uuids) D
          (pickedLocation E allow acc.1 D) = newNode at h hlen
        cases hrr : recur (acc.1.addNode node newNode) newNode with
        | error e => rw [hrr] at h; cases h
        | ok r' =>
          rw [hrr] at h
          have hr : r = (r'.1, acc.2 ++ [newNode]) := by
            simp only [Except.map] at h
            exact (Except.ok.inj h).symm
          subst hr
          have hmem : newNode ∈ (acc.1.addNode node newNode).g.Nodes := by
            simp [St.addNode]
          obtain ⟨p1, p2, p3⟩ := hrec _ _ _ hmem hrr
          have hstep : Step E heap appGraph allow acc.1 (acc.1.addNode node newNode) := by
            rw [← hnew]
            exact Step.create acc.1 node connections D _ hnode hl hD habs
              (pickedLocation_mem E allow acc.1 D hallow) (by rw [hnew]; exact hlen)
          refine ⟨Relation.ReflTransGen.head hstep p1, ?_, ?_⟩
          · refine ⟨newNode, p1.mem_nodes hmem, by rw [← hnew]; rfl, ?_⟩
            apply p1.mem_edges
            simp [St.addNode, goIndex_goAppend_self]
          · intro m hm
            rcases p3 m hm with h1 | h1
            · simp only [St.addNode, List.mem_append, List.mem_singleton] at h1
              rcases h1 with h1 | h1
              · exact Or.inl h1
              · right; rw [h1]; exact p2
            · exact Or.inr h1
      · rw [processConnectionsStep_shortID E heap recur node allow acc D hnil hallow
          (Nat.lt_of_not_le hlen)] at h
        cases h

theorem processConnections_post (E : Entropy) (heap : Heap) (appGraph : Graph)
    (recur : St → Node → Except Fault (St × List Node)) (node : Node) (allow : LocMap)
    (hrec : ∀ s n r, n ∈ s.g.Nodes → recur s n = .ok r → NodePost E heap appGraph allow s n r.1)
    (connections : List String) (hl : goLookup appGraph.Edges node.Name = some connections)
    (todo : List String) (htodo : todo ⊆ connections)
    (acc : St × List Node) (hnode : node ∈ acc.1.g.Nodes) (r : St × List Node)
    (h : todo.foldlM (processConnectionsStep E heap recur node allow) acc = .ok r) :
    Steps E heap appGraph allow acc.1 r.1 ∧
      (∀ T2 ∈ todo, ∃ i2 ∈ r.1.g.Nodes, i2.Name = T2 ∧ i2.ID ∈ goIndex r.1.g.Edges node.ID) ∧
      ∀ m ∈ r.1.g.Nodes, m ∈ acc.1.g.Nodes ∨ Covered appGraph r.1.g m := by
  induction todo generalizing acc with
  | nil =>
    simp only [List.foldlM_nil, pure, Except.pure] at h
    cases h
    exact ⟨Relation.ReflTransGen.refl, by simp, fun m hm => Or.inl hm⟩
  | cons D rest ih =>
    rw [List.foldlM_cons] at h
    cases h1 : processConnectionsStep E heap recur node allow acc D with
    | error e => rw [h1] at h; cases h
    | ok acc1 =>
      rw [h1] at h
      have hD : D ∈ connections := htodo (List.mem_cons_self _ _)
      have hrest : rest ⊆ connections := fun x hx => htodo (List.mem_cons_of_mem _ hx)
      obtain ⟨a1, ⟨i2, hi2, hi2n, hi2e⟩, a3⟩ :=
        processConnectionsStep_post E heap appGraph recur node allow hrec connections hl D hD
          acc hnode acc1 h1
      obtain ⟨b1, b2, b3⟩ := ih hrest acc1 (a1.mem_nodes hnode) h
      refine ⟨a1.trans b1, ?_, ?_⟩
      · intro T2 hT2
        rcases List.mem_cons.1 hT2 with rfl | hT2
        · exact ⟨i2, b1.mem_nodes hi2, hi2n, b1.mem_edges hi2e⟩
        · exact b2 T2 hT2
      · intro m hm
        rcases b3 m hm with h2 | h2
        · rcases a3 m h2 with h3 | h3
          · exact Or.inl h3
          · exact Or.inr (b1.covered h3)
        · exact Or.inr h2

/-! ## `processNode` -/

theorem processNode_post (E : Entropy) (heap : Heap) (appGraph : Graph) (allow : LocMap)
    (fuel : Nat) (st : St) (node : Node) (r : St × List Node) (hnode : node ∈ st.g.Nodes)
    (h : processNode E heap appGraph allow fuel st node = .ok r) :
    NodePost E heap appGraph allow st node r.1 := by
  induction fuel generalizing st node r with
  | zero => simp [processNode] at h
  | succ fuel ih =>
    unfold processNode at h
    by_cases hlen : goLen node.ID < 14
    · simp [hlen] at h
    · simp only [hlen, if_false] at h
      cases hl : goLookup appGraph.Edges node.Name with
      | none =>
        rw [hl] at h
        simp only at h
        have hr : r = (checkSources st appGraph node, []) := (Except.ok.inj h).symm
        subst hr
        obtain ⟨c1, c2, -, -⟩ := checkSources_spec E heap appGraph allow node hl st hnode
        refine ⟨c1, ?_, ?_⟩
        · intro connections hc
          rw [hl] at hc
          cases hc
        · intro m hm
          left
          have : m ∈ (checkSources st appGraph node).g.Nodes := hm
          rw [c2] at this
          exact this
      | some connections =>
        rw [hl] at h
        simp only at h
        obtain ⟨a1, a2, a3⟩ :=
          processConnections_post E heap appGraph _ node allow
            (fun s n r hn hr => ih s n r hn hr) connections hl connections
            (List.Subset.refl _) (st, []) hnode r h
        refine ⟨a1, ?_, a3⟩
        intro connections' hc T2 hT2
        rw [hl] at hc
        cases hc
        exact a2 T2 hT2


/-! ## Length of generated IDs -/

theorem goLen_generateUniqueID (uuid objName loc : String) :
    4 + goLen uuid ≤ goLen (generateUniqueID uuid objName loc) := by
  have h3 : goLen "obj" = 3 := by decide
  have h1 : goLen "_" = 1 := by decide
  unfold generateUniqueID
  by_cases hn : objName = "" <;> by_cases hloc : loc = "" <;>
    simp only [hn, hloc, ne_eq, not_true_eq_false, not_false_eq_true, if_true, if_false,
      goLen_append, h3, h1] <;> omega

theorem createInstance_long (E : Entropy) (heap : Heap) (hu : ∀ k, 10 ≤ goLen (E.uuid k))
    (k : Nat) (name : String) (loc : LocRef) :
    14 ≤ goLen (createInstance heap (E.uuid k) name loc).ID := by
  have := goLen_generateUniqueID (E.uuid k) name (heap loc).Name
  have := hu k
  show 14 ≤ goLen (generateUniqueID (E.uuid k) name (heap loc).Name)
  omega

/-! ## The measure of the recursion -/

theorem absent_iff_all (g : Graph) (D : String) :
    g.Nodes.all (fun n => decide (n.Name ≠ D)) = true ↔ Absent g D := by
  simp [Absent, List.all_eq_true]

theorem absentCount_le (appGraph g : Graph) :
    absentCount appGraph g ≤ (dependencyTypes appGraph).length :=
  Nat.le_trans (List.length_filter_le _ _) (List.dedup_sublist _).length_le

theorem absentCount_mono (appGraph g g' : Graph) (h : g.Nodes ⊆ g'.Nodes) :
    absentCount appGraph g' ≤ absentCount appGraph g := by
  unfold absentCount
  apply List.Sublist.length_le
  apply List.monotone_filter_right
  intro D hD
  rw [absent_iff_all] at hD ⊢
  exact fun n hn => hD n (h hn)

theorem absentCount_lt (appGraph g g' : Graph) (h : g.Nodes ⊆ g'.Nodes) (D : String)
    (hD : D ∈ dependencyTypes appGraph) (habs : Absent g D) (hpres : ¬ Absent g' D) :
    absentCount appGraph g' < absentCount appGraph g := by
  unfold absentCount
  have hsub : List.Sublist
      ((dependencyTypes appGraph).dedup.filter
        (fun D => g'.Nodes.all (fun n => decide (n.Name ≠ D))))
      ((dependencyTypes appGraph).dedup.filter
        (fun D => g.Nodes.all (fun n => decide (n.Name ≠ D)))) := by
    apply List.monotone_filter_right
    intro D hD
    rw [absent_iff_all] at hD ⊢
    exact fun n hn => hD n (h hn)
  by_contra hlt
  have heq := hsub.eq_of_length_le (Nat.le_of_not_lt hlt)
  have hmem : D ∈ (dependencyTypes appGraph).dedup.filter
      (fun D => g.Nodes.all (fun n => decide (n.Name ≠ D))) :=
    List.mem_filter.2 ⟨List.mem_dedup.2 hD, (absent_iff_all g D).2 habs⟩
  rw [← heq] at hmem
  exact hpres ((absent_iff_all g' D).1 (List.mem_filter.1 hmem).2)

theorem mem_dependencyTypes (appGraph : Graph) (T1 : String) (connections : List String)
    (hl : goLookup appGraph.Edges T1 = some connections) (D : String) (hD : D ∈ connections) :
    D ∈ dependencyTypes appGraph := by
  unfold dependencyTypes
  rw [List.mem_flatMap]
  exact ⟨(T1, connections), goLookup_mem _ _ _ hl, hD⟩

theorem Steps.allowlistCovers {E : Entropy} {heap : Heap} {appGraph : Graph} {allow : LocMap}
    {st st' : St} (h : Steps E heap appGraph allow st st')
    (hc : AllowlistCovers appGraph allow st.g) : AllowlistCovers appGraph allow st'.g :=
  fun D hD habs => hc D hD (fun n hn => habs n (h.mem_nodes hn))

theorem Steps.absentCount_noninc {E : Entropy} {heap : Heap} {appGraph : Graph} {allow : LocMap}
    {st st' : St} (h : Steps E heap appGraph allow st st') :
    absentCount appGraph st'.g ≤ absentCount appGraph st.g :=
  absentCount_mono _ _ _ h.nodes_grow.subset


/-! ## The closure returns -/

theorem processConnectionsStep_ok (E : Entropy) (heap : Heap) (appGraph : Graph)
    (recur : St → Node → Except Fault (St × List Node)) (node : Node) (allow : LocMap)
    (fuel : Nat) (hu : ∀ k, 10 ≤ goLen (E.uuid k))
    (hrecok : ∀ s n, n ∈ s.g.Nodes → 14 ≤ goLen n.ID → AllowlistCovers appGraph allow s.g →
      absentCount appGraph s.g < fuel → ∃ r, recur s n = .ok r)
    (connections : List String) (hl : goLookup appGraph.Edges node.Name = some connections)
    (D : String) (hD : D ∈ connections)
    (acc : St × List Node) (hnode : node ∈ acc.1.g.Nodes)
    (hcov : AllowlistCovers appGraph allow acc.1.g)
    (hcount : absentCount appGraph acc.1.g < fuel + 1) :
    ∃ r, processConnectionsStep E heap recur node allow acc D = .ok r := by
  by_cases hpos : (containsNode acc.1.g.Nodes D).length > 0
  · rw [processConnectionsStep_existing E heap recur node allow acc D hpos]
    obtain ⟨st', hst', -⟩ :=
      processExistingNode_spec E heap appGraph allow node connections D hl hD
        (containsNode acc.1.g.Nodes D) acc.1 hnode
        (fun idx hidx => (mem_containsNode _ _ _).1 hidx)
    rw [hst']
    exact ⟨_, rfl⟩
  · have hnil : containsNode acc.1.g.Nodes D = [] := by
      cases hc : containsNode acc.1.g.Nodes D with
      | nil => rfl
      | cons a l => simp [hc] at hpos
    have habs : Absent acc.1.g D := (containsNode_eq_nil _ _).1 hnil
    have hdep : D ∈ dependencyTypes appGraph := mem_dependencyTypes appGraph _ _ hl D hD
    have hallow : goIndex allow D ≠ [] := hcov D hdep habs
    have hlen := createInstance_long E heap hu acc.1.uuids D (pickedLocation E allow acc.1 D)
    have hNew : (createInstance heap (E.uuid acc.1.uuids) D
      (pickedLocation E allow acc.1 D)).Name = D := rfl
    rw [processConnectionsStep_create E heap recur node allow acc D hnil hallow hlen]
    generalize createInstance heap (E.uuid acc.1.uuids) D
      (pickedLocation E allow acc.1 D) = newNode at hlen hNew
    have hmem : newNode ∈ (acc.1.addNode node newNode).g.Nodes := by simp [St.addNode]
    have hsub : acc.1.g.Nodes ⊆ (acc.1.addNode node newNode).g.Nodes := by
      intro x hx; simp [St.addNode, hx]
    have hcov' : AllowlistCovers appGraph allow (acc.1.addNode node newNode).g :=
      fun D' hD' habs' => hcov D' hD' (fun n hn => habs' n (hsub hn))
    have hlt : absentCount appGraph (acc.1.addNode node newNode).g <
        absentCount appGraph acc.1.g :=
      absentCount_lt appGraph _ _ hsub D hdep habs (fun h => h newNode hmem hNew)
    obtain ⟨r', hr'⟩ := hrecok _ newNode hmem hlen hcov' (by omega)
    rw [hr']
    exact ⟨_, rfl⟩

theorem processConnections_ok (E : Entropy) (heap : Heap) (appGraph : Graph)
    (recur : St → Node → Except Fault (St × List Node)) (node : Node) (allow : LocMap)
    (fuel : Nat) (hu : ∀ k, 10 ≤ goLen (E.uuid k))
    (hrec : ∀ s n r, n ∈ s.g.Nodes → recur s n = .ok r → NodePost E heap appGraph allow s n r.1)
    (hrecok : ∀ s n, n ∈ s.g.Nodes → 14 ≤ goLen n.ID → AllowlistCovers appGraph allow s.g →
      absentCount appGraph s.g < fuel → ∃ r, recur s n = .ok r)
    (connections : List String) (hl : goLookup appGraph.Edges node.Name = some connections)
    (todo : List String) (htodo : todo ⊆ connections)
    (acc : St × List Node) (hnode : node ∈ acc.1.g.Nodes)
    (hcov : AllowlistCovers appGraph allow acc.1.g)
    (hcount : absentCount appGraph acc.1.g < fuel + 1) :
    ∃ r, todo.foldlM (processConnectionsStep E heap recur node allow) acc = .ok r := by
  induction todo generalizing acc with
  | nil => exact ⟨acc, rfl⟩
  | cons D rest ih =>
    have hD : D ∈ connections := htodo (List.mem_cons_self _ _)
    have hrest : rest ⊆ connections := fun x hx => htodo (List.mem_cons_of_mem _ hx)
    obtain ⟨acc1, h1⟩ :=
      processConnectionsStep_ok E heap appGraph recur node allow fuel hu hrecok connections hl
        D hD acc hnode hcov hcount
    obtain ⟨a1, -, -⟩ :=
      processConnectionsStep_post E heap appGraph recur node allow hrec connections hl D hD
        acc hnode acc1 h1
    obtain ⟨r, hr⟩ := ih hrest acc1 (a1.mem_nodes hnode) (a1.allowlistCovers hcov)
      (Nat.lt_of_le_of_lt a1.absentCount_noninc hcount)
    refine ⟨r, ?_⟩
    rw [List.foldlM_cons, h1]
    exact hr

theorem processNode_ok (E : Entropy) (heap : Heap) (appGraph : Graph) (allow : LocMap)
    (hu : ∀ k, 10 ≤ goLen (E.uuid k))
    (fuel : Nat) (st : St) (node : Node) (hnode : node ∈ st.g.Nodes)
    (hlen : 14 ≤ goLen node.ID) (hcov : AllowlistCovers appGraph allow st.g)
    (hcount : absentCount appGraph st.g < fuel) :
    ∃ r, processNode E heap appGraph allow fuel st node = .ok r := by
  induction fuel generalizing st node with
  | zero => exact absurd hcount (Nat.not_lt_zero _)
  | succ fuel ih =>
    unfold processNode
    have hlen' : ¬ goLen node.ID < 14 := Nat.not_lt.2 hlen
    simp only [hlen', if_false]
    cases hl : goLookup appGraph.Edges node.Name with
    | none => exact ⟨_, rfl⟩
    | some connections =>
      exact processConnections_ok E heap appGraph _ node allow fuel hu
        (fun s n r hn hr => processNode_post E heap appGraph allow fuel s n r hn hr)
        (fun s n hn hl' hc hcnt => ih s n hn hl' hc hcnt)
        connections hl connections (List.Subset.refl _) (st, []) hnode hcov hcount

/-! ## `GeneratePEAGraph` -/

theorem GeneratePEAGraph_loop_post (E : Entropy) (heap : Heap) (appGraph : Graph)
    (allow : LocMap) (fuel : Nat) (todo : List Node) (acc st' : St)
    (htodo : todo ⊆ acc.g.Nodes)
    (hinv : ∀ m ∈ acc.g.Nodes, m ∈ todo ∨ Covered appGraph acc.g m)
    (h : todo.foldlM
      (fun st node => do
        let r ← processNode E heap appGraph allow fuel st node
        pure r.1) acc = .ok st') :
    Steps E heap appGraph allow acc st' ∧ ∀ m ∈ st'.g.Nodes, Covered appGraph st'.g m := by
  induction todo generalizing acc with
  | nil =>
    simp only [List.foldlM_nil, pure, Except.pure] at h
    cases h
    exact ⟨Relation.ReflTransGen.refl, fun m hm => (hinv m hm).resolve_left (by simp)⟩
  | cons n rest ih =>
    rw [List.foldlM_cons] at h
    cases h1 : processNode E heap appGraph allow fuel acc n with
    | error e => simp [h1, bind, Except.bind] at h
    | ok r =>
      simp only [h1, bind, Except.bind, pure, Except.pure] at h
      have hn : n ∈ acc.g.Nodes := htodo (List.mem_cons_self _ _)
      obtain ⟨p1, p2, p3⟩ := processNode_post E heap appGraph allow fuel acc n r hn h1
      have hrest : rest ⊆ r.1.g.Nodes :=
        fun x hx => p1.mem_nodes (htodo (List.mem_cons_of_mem _ hx))
      have hinv' : ∀ m ∈ r.1.g.Nodes, m ∈ rest ∨ Covered appGraph r.1.g m := by
        intro m hm
        rcases p3 m hm with h2 | h2
        · rcases hinv m h2 with h3 | h3
          · rcases List.mem_cons.1 h3 with rfl | h3
            · exact Or.inr p2
            · exact Or.inl h3
          · exact Or.inr (p1.covered h3)
        · exact Or.inr h2
      obtain ⟨q1, q2⟩ := ih r.1 hrest hinv' h
      exact ⟨p1.trans q1, q2⟩

theorem GeneratePEAGraph_post (E : Entropy) (heap : Heap) (appGraph : Graph)
    (allow : LocMap) (st st' : St)
    (h : GeneratePEAGraph E heap st appGraph allow = .ok st') :
    Steps E heap appGraph allow st st' ∧ ∀ m ∈ st'.g.Nodes, Covered appGraph st'.g m :=
  GeneratePEAGraph_loop_post E heap appGraph allow (recursionBudget appGraph) st.g.Nodes st st'
    (List.Subset.refl _) (fun _ hm => Or.inl hm) h

theorem GeneratePEAGraph_loop_ok (E : Entropy) (heap : Heap) (appGraph : Graph)
    (allow : LocMap) (hu : ∀ k, 10 ≤ goLen (E.uuid k)) (todo : List Node) (acc : St)
    (htodo : todo ⊆ acc.g.Nodes) (hlong : ∀ n ∈ todo, 14 ≤ goLen n.ID)
    (hcov : AllowlistCovers appGraph allow acc.g) :
    ∃ st', todo.foldlM
      (fun st node => do
        let r ← processNode E heap appGraph allow (recursionBudget appGraph) st node
        pure r.1) acc = .ok st' := by
  induction todo generalizing acc with
  | nil => exact ⟨acc, rfl⟩
  | cons n rest ih =>
    have hn : n ∈ acc.g.Nodes := htodo (List.mem_cons_self _ _)
    have hcount : absentCount appGraph acc.g < recursionBudget appGraph :=
      Nat.lt_succ_of_le (absentCount_le _ _)
    obtain ⟨r, h1⟩ := processNode_ok E heap appGraph allow hu (recursionBudget appGraph) acc n hn
      (hlong n (List.mem_cons_self _ _)) hcov hcount
    obtain ⟨p1, -, -⟩ := processNode_post E heap appGraph allow _ acc n r hn h1
    obtain ⟨st', h2⟩ := ih r.1 (fun x hx => p1.mem_nodes (htodo (List.mem_cons_of_mem _ hx)))
      (fun x hx => hlong x (List.mem_cons_of_mem _ hx)) (p1.allowlistCovers hcov)
    refine ⟨st', ?_⟩
    rw [List.foldlM_cons]
    simp only [h1, bind, Except.bind, pure, Except.pure]
    exact h2

theorem GeneratePEAGraph_ok (E : Entropy) (heap : Heap) (appGraph : Graph)
    (allow : LocMap) (hu : ∀ k, 10 ≤ goLen (E.uuid k)) (st : St)
    (hlong : LongIDs st.g) (hcov : AllowlistCovers appGraph allow st.g) :
    ∃ st', GeneratePEAGraph E heap st appGraph allow = .ok st' :=
  GeneratePEAGraph_loop_ok E heap appGraph allow hu st.g.Nodes st (List.Subset.refl _) hlong hcov


/-! ## The recursion budget is never exhausted -/

theorem processConnectionsStep_fuel (E : Entropy) (heap : Heap) (appGraph : Graph)
    (recur : St → Node → Except Fault (St × List Node)) (node : Node) (allow : LocMap)
    (fuel : Nat)
    (hrecfuel : ∀ s n, n ∈ s.g.Nodes → absentCount appGraph s.g < fuel →
      recur s n ≠ .error .outOfFuel)
    (connections : List String) (hl : goLookup appGraph.Edges node.Name = some connections)
    (D : String) (hD : D ∈ connections)
    (acc : St × List Node) (hnode : node ∈ acc.1.g.Nodes)
    (hcount : absentCount appGraph acc.1.g < fuel + 1) :
    processConnectionsStep E heap recur node allow acc D ≠ .error .outOfFuel := by
  by_cases hpos : (containsNode acc.1.g.Nodes D).length > 0
  · rw [processConnectionsStep_existing E heap recur node allow acc D hpos]
    obtain ⟨st', hst', -⟩ :=
      processExistingNode_spec E heap appGraph allow node connections D hl hD
        (containsNode acc.1.g.Nodes D) acc.1 hnode
        (fun idx hidx => (mem_containsNode _ _ _).1 hidx)
    rw [hst']
    intro h
    cases h
  · have hnil : containsNode acc.1.g.Nodes D = [] := by
      cases hc : containsNode acc.1.g.Nodes D with
      | nil => rfl
      | cons a l => simp [hc] at hpos
    have habs : Absent acc.1.g D := (containsNode_eq_nil _ _).1 hnil
    have hdep : D ∈ dependencyTypes appGraph := mem_dependencyTypes appGraph _ _ hl D hD
    by_cases hallow : goIndex allow D = []
    · rw [processConnectionsStep_noLocation E heap recur node allow acc D hnil hallow]
      intro h
      cases h
    · by_cases hlen : 14 ≤ goLen (createInstance heap (E.uuid acc.1.uuids) D
          (pickedLocation E allow acc.1 D)).ID
      · have hNew : (createInstance heap (E.uuid acc.1.uuids) D
          (pickedLocation E allow acc.1 D)).Name = D := rfl
        rw [processConnectionsStep_create E heap recur node allow acc D hnil hallow hlen]
        generalize createInstance heap (E.uuid acc.1.uuids) D
          (pickedLocation E allow acc.1 D) = newNode at hlen hNew
        have hmem : newNode ∈ (acc.1.addNode node newNode).g.Nodes := by simp [St.addNode]
        have hsub : acc.1.g.Nodes ⊆ (acc.1.addNode node newNode).g.Nodes := by
          intro x hx; simp [St.addNode, hx]
        have hlt : absentCount appGraph (acc.1.addNode node newNode).g <
            absentCount appGraph acc.1.g :=
          absentCount_lt appGraph _ _ hsub D hdep habs (fun h => h newNode hmem hNew)
        have hr := hrecfuel _ newNode hmem (by omega)
        cases hrr : recur (acc.1.addNode node newNode) newNode with
        | ok r' => intro h; cases h
        | error e =>
          intro h
          simp only [Except.map] at h
          have he : e = Fault.outOfFuel := Except.error.inj h
          rw [hrr, he] at hr
          exact hr rfl
      · rw [processConnectionsStep_shortID E heap recur node allow acc D hnil hallow
          (Nat.lt_of_not_le hlen)]
        intro h
        cases h

theorem processConnections_fuel (E : Entropy) (heap : Heap) (appGraph : Graph)
    (recur : St → Node → Except Fault (St × List Node)) (node : Node) (allow : LocMap)
    (fuel : Nat)
    (hrec : ∀ s n r, n ∈ s.g.Nodes → recur s n = .ok r → NodePost E heap appGraph allow s n r.1)
    (hrecfuel : ∀ s n, n ∈ s.g.Nodes → absentCount appGraph s.g < fuel →
      recur s n ≠ .error .outOfFuel)
    (connections : List String) (hl : goLookup appGraph.Edges node.Name = some connections)
    (todo : List String) (htodo : todo ⊆ connections)
    (acc : St × List Node) (hnode : node ∈ acc.1.g.Nodes)
    (hcount : absentCount appGraph acc.1.g < fuel + 1) :
    todo.foldlM (processConnectionsStep E heap recur node allow) acc ≠ .error .outOfFuel := by
  induction todo generalizing acc with
  | nil => intro h; cases h
  | cons D rest ih =>
    have hD : D ∈ connections := htodo (List.mem_cons_self _ _)
    have hrest : rest ⊆ connections := fun x hx => htodo (List.mem_cons_of_mem _ hx)
    have hstep := processConnectionsStep_fuel E heap appGraph recur node allow fuel hrecfuel
      connections hl D hD acc hnode hcount
    rw [List.foldlM_cons]
    cases h1 : processConnectionsStep E heap recur node allow acc D with
    | error e =>
      intro h
      have he : e = Fault.outOfFuel := Except.error.inj h
      rw [h1, he] at hstep
      exact hstep rfl
    | ok acc1 =>
      obtain ⟨a1, -, -⟩ :=
        processConnectionsStep_post E heap appGraph recur node allow hrec connections hl D hD
          acc hnode acc1 h1
      exact ih hrest acc1 (a1.mem_nodes hnode) (Nat.lt_of_le_of_lt a1.absentCount_noninc hcount)

theorem processNode_fuel (E : Entropy) (heap : Heap) (appGraph : Graph) (allow : LocMap)
    (fuel : Nat) (st : St) (node : Node) (hnode : node ∈ st.g.Nodes)
    (hcount : absentCount appGraph st.g < fuel) :
    processNode E heap appGraph allow fuel st node ≠ .error .outOfFuel := by
  induction fuel generalizing st node with
  | zero => exact absurd hcount (Nat.not_lt_zero _)
  | succ fuel ih =>
    unfold processNode
    by_cases hlen : goLen node.ID < 14
    · simp only [hlen, if_true]
      intro h
      cases h
    · simp only [hlen, if_false]
      cases hl : goLookup appGraph.Edges node.Name with
      | none => intro h; cases h
      | some connections =>
        exact processConnections_fuel E heap appGraph _ node allow fuel
          (fun s n r hn hr => processNode_post E heap appGraph allow fuel s n r hn hr)
          (fun s n hn hc => ih s n hn hc)
          connections hl connections (List.Subset.refl _) (st, []) hnode hcount

/-- The recursion budget of `GeneratePEAGraph` is never exhausted: the fault
`outOfFuel` of the model is not an outcome of a run, for any input. -/
theorem GeneratePEAGraph_fuel (E : Entropy) (heap : Heap) (appGraph : Graph)
    (allow : LocMap) (st : St) :
    GeneratePEAGraph E heap st appGraph allow ≠ .error .outOfFuel := by
  unfold GeneratePEAGraph
  have key : ∀ (todo : List Node) (acc : St), todo ⊆ acc.g.Nodes →
      todo.foldlM
        (fun st node => do
          let r ← processNode E heap appGraph allow (recursionBudget appGraph) st node
          pure r.1) acc ≠ .error .outOfFuel := by
    intro todo
    induction todo with
    | nil => intro acc _ h; cases h
    | cons n rest ih =>
      intro acc htodo
      have hn : n ∈ acc.g.Nodes := htodo (List.mem_cons_self _ _)
      have hcount : absentCount appGraph acc.g < recursionBudget appGraph :=
        Nat.lt_succ_of_le (absentCount_le _ _)
      have hf := processNode_fuel E heap appGraph allow _ acc n hn hcount
      rw [List.foldlM_cons]
      cases h1 : processNode E heap appGraph allow (recursionBudget appGraph) acc n with
      | error e =>
        intro h
        have he : e = Fault.outOfFuel := Except.error.inj h
        rw [h1, he] at hf
        exact hf rfl
      | ok r =>
        obtain ⟨p1, -, -⟩ := processNode_post E heap appGraph allow _ acc n r hn h1
        simp only [bind, Except.bind, pure, Except.pure]
        exact ih r.1 (fun x hx => p1.mem_nodes (htodo (List.mem_cons_of_mem _ hx)))
  exact key st.g.Nodes st (List.Subset.refl _)


/-! ## `createInstances` -/

theorem createInstances_fold_inner (E : Entropy) (name : String) (locs : List LocRef)
    (s : InstState) :
    ((locs.foldl (createInstancesStep E name) s).newNodes.map (fun n => (n.Name, n.Location)) =
        s.newNodes.map (fun n => (n.Name, n.Location)) ++ locs.map (fun L => (name, L))) ∧
      (locs.foldl (createInstancesStep E name) s).uuids = s.uuids + locs.length := by
  induction locs generalizing s with
  | nil => simp
  | cons L rest ih =>
    obtain ⟨h1, h2⟩ := ih (createInstancesStep E name s L)
    simp only [List.foldl_cons]
    refine ⟨?_, ?_⟩
    · rw [h1]
      simp [createInstancesStep, createInstance]
    · rw [h2]
      simp [createInstancesStep]
      omega

theorem createInstances_fold_outer (E : Entropy) (req : LocMap) (nodes : List Node)
    (s : InstState) :
    (nodes.foldl
        (fun s node => (goIndex req node.Name).foldl (createInstancesStep E node.Name) s)
        s).newNodes.map (fun n => (n.Name, n.Location)) =
      s.newNodes.map (fun n => (n.Name, n.Location)) ++
        nodes.flatMap (fun node => (goIndex req node.Name).map (fun L => (node.Name, L))) := by
  induction nodes generalizing s with
  | nil => simp
  | cons node rest ih =>
    simp only [List.foldl_cons, List.flatMap_cons]
    rw [ih, (createInstances_fold_inner E node.Name (goIndex req node.Name) s).1,
      List.append_assoc]

/-- An invariant of the loop body of `createInstances` holds of its result. -/
theorem createInstances_induction (E : Entropy) (heap : Heap) (uuids : Nat)
    (nodes : List Node) (req : LocMap) (P : InstState → Prop)
    (h0 : P { heap := heap, uuids := uuids, newNodes := [] })
    (hstep : ∀ s name loc, P s → P (createInstancesStep E name s loc)) :
    P (createInstances E heap uuids nodes req) := by
  unfold createInstances
  generalize ({ heap := heap, uuids := uuids, newNodes := [] } : InstState) = s at h0
  induction nodes generalizing s with
  | nil => exact h0
  | cons node rest ih =>
    simp only [List.foldl_cons]
    apply ih
    generalize goIndex req node.Name = locs
    induction locs generalizing s with
    | nil => exact h0
    | cons L more ih2 =>
      simp only [List.foldl_cons]
      exact ih2 _ (hstep s node.Name L h0)

/-! ## Uniqueness of generated IDs -/

theorem generateUniqueID_eq_append (uuid objName loc : String) :
    ∃ p : String, generateUniqueID uuid objName loc = p ++ uuid := by
  unfold generateUniqueID
  exact ⟨_, rfl⟩

theorem append_suffix_eq (a b c d : List Char) (h : a ++ b = c ++ d)
    (hlen : String.utf8Len b = String.utf8Len d) : b = d := by
  rcases List.append_eq_append_iff.1 h with ⟨a', -, hb⟩ | ⟨c', -, hd⟩
  · rw [hb, String.utf8Len_append] at hlen
    have : String.utf8Len a' = 0 := by omega
    rw [String.utf8Len_eq_zero] at this
    rw [hb, this]; rfl
  · rw [hd, String.utf8Len_append] at hlen
    have : String.utf8Len c' = 0 := by omega
    rw [String.utf8Len_eq_zero] at this
    rw [hd, this]; rfl

theorem generateUniqueID_uuid_eq (u u' n n' l l' : String)
    (h : generateUniqueID u n l = generateUniqueID u' n' l') (hlen : goLen u = goLen u') :
    u = u' := by
  obtain ⟨p, hp⟩ := generateUniqueID_eq_append u n l
  obtain ⟨p', hp'⟩ := generateUniqueID_eq_append u' n' l'
  rw [hp, hp'] at h
  have hd : p.data ++ u.data = p'.data ++ u'.data := by
    rw [← String.data_append, ← String.data_append, h]
  have := append_suffix_eq _ _ _ _ hd hlen
  exact String.ext this

theorem freshIDs_append (E : Entropy) (N : Nat) (hfresh : E.FreshUpTo N)
    (nodes : List Node) (uuids : Nat) (hN : uuids < N) (name loc : String) (newNode : Node)
    (hid : newNode.ID = generateUniqueID (E.uuid uuids) name loc)
    (hnd : (nodes.map (fun n => n.ID)).Nodup)
    (hshape : ∀ n ∈ nodes, ∃ j < uuids, ∃ name loc, n.ID = generateUniqueID (E.uuid j) name loc) :
    ((nodes ++ [newNode]).map (fun n => n.ID)).Nodup ∧
      ∀ n ∈ nodes ++ [newNode],
        ∃ j < uuids + 1, ∃ name loc, n.ID = generateUniqueID (E.uuid j) name loc := by
  refine ⟨?_, ?_⟩
  · rw [List.map_append, List.nodup_append]
    refine ⟨hnd, by simp, ?_⟩
    intro a ha hb
    simp only [List.map_cons, List.map_nil, List.mem_singleton] at hb
    obtain ⟨n, hn, rfl⟩ := List.mem_map.1 ha
    obtain ⟨j, hj, nm, lc, hnid⟩ := hshape n hn
    rw [hnid, hid] at hb
    obtain ⟨hlen, hinj⟩ := hfresh j uuids (by omega) hN
    have := hinj (generateUniqueID_uuid_eq _ _ _ _ _ _ hb hlen)
    omega
  · intro n hn
    rcases List.mem_append.1 hn with h1 | h1
    · obtain ⟨j, hj, nm, lc, hnid⟩ := hshape n h1
      exact ⟨j, by omega, nm, lc, hnid⟩
    · rw [List.mem_singleton] at h1
      subst h1
      exact ⟨uuids, by omega, name, loc, hid⟩

theorem createInstances_shape (E : Entropy) (heap : Heap) (nodes : List Node) (req : LocMap) :
    ∀ n ∈ (createInstances E heap 0 nodes req).newNodes,
      ∃ j < (createInstances E heap 0 nodes req).uuids, ∃ name loc,
        n.ID = generateUniqueID (E.uuid j) name loc := by
  apply createInstances_induction E heap 0 nodes req
    (fun s => ∀ n ∈ s.newNodes, ∃ j < s.uuids, ∃ name loc,
      n.ID = generateUniqueID (E.uuid j) name loc)
  · intro n hn; simp at hn
  · intro s name loc hs n hn
    simp only [createInstancesStep, List.mem_append, List.mem_singleton] at hn ⊢
    rcases hn with h1 | h1
    · obtain ⟨j, hj, nm, lc, hnid⟩ := hs n h1
      exact ⟨j, by omega, nm, lc, hnid⟩
    · subst h1
      exact ⟨s.uuids, by omega, name, (s.heap loc).Name, rfl⟩

theorem createInstances_fresh (E : Entropy) (N : Nat) (hfresh : E.FreshUpTo N)
    (heap : Heap) (nodes : List Node) (req : LocMap)
    (hN : (createInstances E heap 0 nodes req).uuids ≤ N) :
    ((createInstances E heap 0 nodes req).newNodes.map (fun n => n.ID)).Nodup ∧
    ∀ n ∈ (createInstances E heap 0 nodes req).newNodes,
      ∃ j < (createInstances E heap 0 nodes req).uuids, ∃ name loc,
        n.ID = generateUniqueID (E.uuid j) name loc := by
  revert hN
  apply createInstances_induction E heap 0 nodes req
    (fun s => s.uuids ≤ N → ((s.newNodes.map (fun n => n.ID)).Nodup ∧ ∀ n ∈ s.newNodes,
      ∃ j < s.uuids, ∃ name loc, n.ID = generateUniqueID (E.uuid j) name loc))
  · intro _; simp
  · intro s name loc hs hN
    have hN' : s.uuids < N := hN
    obtain ⟨h1, h2⟩ := hs (Nat.le_of_lt hN')
    exact freshIDs_append E N hfresh s.newNodes s.uuids hN' name (s.heap loc).Name _ rfl h1 h2

theorem initial_longIDs (E : Entropy) (hu : ∀ k, 10 ≤ goLen (E.uuid k)) (heap : Heap)
    (template : Graph) (req : LocMap) :
    LongIDs (GenerateInitialPEAGraph E heap template req).1.g := by
  intro n hn
  obtain ⟨j, -, name, loc, hid⟩ := createInstances_shape E heap template.Nodes req n hn
  rw [hid]
  have := goLen_generateUniqueID (E.uuid j) name loc
  have := hu j
  omega


/-! ## `addEdges` -/

theorem addEdges_fold_connections (n1 n2 : Node) (connections : List String) (edges : EdgeMap)
    (u v : String) :
    v ∈ goIndex (connections.foldl
        (fun edges connectedNode =>
          if connectedNode = n2.Name then goAppend edges n1.ID n2.ID else edges) edges) u ↔
      v ∈ goIndex edges u ∨ (u = n1.ID ∧ v = n2.ID ∧ n2.Name ∈ connections) := by
  induction connections generalizing edges with
  | nil => simp
  | cons c rest ih =>
    simp only [List.foldl_cons]
    rw [ih]
    by_cases hc : c = n2.Name
    · simp only [hc, if_true, goIndex_goAppend, List.mem_cons, true_or, and_true]
      by_cases hu : u = n1.ID
      · simp only [hu, if_true, List.mem_append, List.mem_singleton, true_and]
        tauto
      · simp [hu]
    · have hc' : ¬ n2.Name = c := fun e => hc e.symm
      simp only [hc, if_false, List.mem_cons, hc', false_or]

theorem addEdgesPair_mem (graph : Graph) (edges : EdgeMap) (n1 n2 : Node) (u v : String) :
    v ∈ goIndex (addEdgesPair graph edges n1 n2) u ↔
      v ∈ goIndex edges u ∨
        (u = n1.ID ∧ v = n2.ID ∧ n1.ID ≠ n2.ID ∧ n2.Name ∈ goIndex graph.Edges n1.Name) := by
  unfold addEdgesPair
  by_cases hne : n1.ID = n2.ID
  · simp [hne]
  · simp only [ne_eq, hne, not_false_eq_true, if_true, true_and]
    cases hl : goLookup graph.Edges n1.Name with
    | none => simp [goIndex, hl]
    | some connections =>
      simp only [goIndex, hl, Option.getD_some]
      exact addEdges_fold_connections n1 n2 connections edges u v

theorem addEdges_fold_inner (graph : Graph) (n1 : Node) (l2 : List Node) (edges : EdgeMap)
    (u v : String) :
    v ∈ goIndex (l2.foldl (fun edges node2 => addEdgesPair graph edges n1 node2) edges) u ↔
      v ∈ goIndex edges u ∨
        ∃ n2 ∈ l2, u = n1.ID ∧ v = n2.ID ∧ n1.ID ≠ n2.ID ∧
          n2.Name ∈ goIndex graph.Edges n1.Name := by
  induction l2 generalizing edges with
  | nil => simp
  | cons n2 rest ih =>
    simp only [List.foldl_cons]
    rw [ih, addEdgesPair_mem]
    simp only [List.mem_cons, exists_eq_or_imp]
    tauto

theorem addEdges_fold_outer (graph : Graph) (l1 l2 : List Node) (edges : EdgeMap)
    (u v : String) :
    v ∈ goIndex (l1.foldl
        (fun edges node1 =>
          l2.foldl (fun edges node2 => addEdgesPair graph edges node1 node2) edges) edges) u ↔
      v ∈ goIndex edges u ∨
        ∃ n1 ∈ l1, ∃ n2 ∈ l2, u = n1.ID ∧ v = n2.ID ∧ n1.ID ≠ n2.ID ∧
          n2.Name ∈ goIndex graph.Edges n1.Name := by
  induction l1 generalizing edges with
  | nil => simp
  | cons n1 rest ih =>
    simp only [List.foldl_cons]
    rw [ih, addEdges_fold_inner]
    simp only [List.mem_cons, exists_eq_or_imp]
    exact or_assoc

/-- The edges made by `addEdges`: `u -> v` is an edge exactly when `u` and `v`
are the IDs of two nodes with different IDs whose types are adjacent in the
template. -/
theorem mem_addEdges (graph : Graph) (newNodes : List Node) (u v : String) :
    v ∈ goIndex (addEdges graph newNodes) u ↔
      ∃ n1 ∈ newNodes, ∃ n2 ∈ newNodes, u = n1.ID ∧ v = n2.ID ∧ n1.ID ≠ n2.ID ∧
        n2.Name ∈ goIndex graph.Edges n1.Name := by
  unfold addEdges
  rw [addEdges_fold_outer]
  simp [goIndex, goLookup]

theorem initial_edgeValid (E : Entropy) (heap : Heap) (template : Graph) (req : LocMap) :
    EdgeValid (GenerateInitialPEAGraph E heap template req).1.g := by
  intro u v hv
  have hv' : v ∈ goIndex (addEdges template
      (createInstances E heap 0 template.Nodes req).newNodes) u := hv
  rw [mem_addEdges] at hv'
  obtain ⟨n1, h1, n2, h2, hu, hv2, -, -⟩ := hv'
  exact ⟨⟨n1, h1, hu.symm⟩, ⟨n2, h2, hv2.symm⟩⟩

/-! ## Invariants of the elementary mutations -/

theorem Step.one_edgeValid {E : Entropy} {heap : Heap} {appGraph : Graph} {allow : LocMap}
    {st st' : St} (h : Step E heap appGraph allow st st') (hv : EdgeValid st.g) :
    EdgeValid st'.g := by
  cases h with
  | forward node c connections hnode hl hc hcn hne =>
    intro u v huv
    simp only [St.addEdge, goIndex_goAppend] at huv
    by_cases hu : u = node.ID
    · simp only [hu, if_true, List.mem_append, List.mem_singleton] at huv
      rcases huv with h1 | h1
      · exact hu ▸ hv node.ID v h1
      · exact ⟨⟨node, hnode, hu.symm⟩, ⟨c, hc, h1.symm⟩⟩
    · simp only [hu, if_false] at huv
      exact hv u v huv
  | create node connections D loc hnode hl hD habs hloc hlen =>
    have hsub : ∀ id, st.g.hasID id →
        (st.addNode node (createInstance heap (E.uuid st.uuids) D loc)).g.hasID id := by
      rintro id ⟨n, hn, hid⟩
      exact ⟨n, by simp [St.addNode, hn], hid⟩
    intro u v huv
    simp only [St.addNode, goIndex_goAppend] at huv
    by_cases hu : u = node.ID
    · simp only [hu, if_true, List.mem_append, List.mem_singleton] at huv
      rcases huv with h1 | h1
      · have := hv node.ID v h1
        exact hu ▸ ⟨hsub _ this.1, hsub _ this.2⟩
      · exact ⟨hsub _ ⟨node, hnode, hu.symm⟩, ⟨_, by simp [St.addNode], h1.symm⟩⟩
    · simp only [hu, if_false] at huv
      have := hv u v huv
      exact ⟨hsub _ this.1, hsub _ this.2⟩
  | backward node s entry hnode hl he hd hs hname =>
    intro u v huv
    simp only [St.addEdge, goIndex_goAppend] at huv
    by_cases hu : u = s.ID
    · simp only [hu, if_true, List.mem_append, List.mem_singleton] at huv
      rcases huv with h1 | h1
      · exact hu ▸ hv s.ID v h1
      · exact ⟨⟨s, hs, hu.symm⟩, ⟨node, hnode, h1.symm⟩⟩
    · simp only [hu, if_false] at huv
      exact hv u v huv

theorem Step.one_uuids_le {E : Entropy} {heap : Heap} {appGraph : Graph} {allow : LocMap}
    {st st' : St} (h : Step E heap appGraph allow st st') : st.uuids ≤ st'.uuids := by
  cases h <;> simp [St.addEdge, St.addNode]

theorem Step.one_freshIDs {E : Entropy} {heap : Heap} {appGraph : Graph} {allow : LocMap}
    (N : Nat) (hfresh : E.FreshUpTo N)
    {st st' : St} (h : Step E heap appGraph allow st st') (hN : st'.uuids ≤ N)
    (hf : FreshIDs E st) : FreshIDs E st' := by
  cases h with
  | forward node c connections hnode hl hc hcn hne => exact hf
  | create node connections D loc hnode hl hD habs hloc hlen' =>
    have hN' : st.uuids < N := hN
    exact freshIDs_append E N hfresh st.g.Nodes st.uuids hN' D (heap loc).Name _ rfl hf.1 hf.2
  | backward node s entry hnode hl he hd hs hname => exact hf

theorem Steps.freshIDs {E : Entropy} {heap : Heap} {appGraph : Graph} {allow : LocMap}
    (N : Nat) (hfresh : E.FreshUpTo N)
    {st st' : St} (h : Steps E heap appGraph allow st st') (hN : st'.uuids ≤ N)
    (hf : FreshIDs E st) : FreshIDs E st' := by
  induction h with
  | refl => exact hf
  | tail _ hs ih => exact hs.one_freshIDs N hfresh hN (ih (Nat.le_trans hs.one_uuids_le hN))

theorem Steps.edgeValid {E : Entropy} {heap : Heap} {appGraph : Graph} {allow : LocMap}
    {st st' : St} (h : Steps E heap appGraph allow st st') (hv : EdgeValid st.g) :
    EdgeValid st'.g :=
  Steps.invariant (fun s => EdgeValid s.g) (fun _ _ ha hs => hs.one_edgeValid ha) h hv

theorem Steps.uuids_le {E : Entropy} {heap : Heap} {appGraph : Graph} {allow : LocMap}
    {st st' : St} (h : Steps E heap appGraph allow st st') : st.uuids ≤ st'.uuids := by
  induction h with
  | refl => exact Nat.le_refl _
  | tail _ hs ih => exact Nat.le_trans ih hs.one_uuids_le

theorem mem_goIndex {β : Type} (m : List (String × List β)) (k : String) (v : β)
    (h : v ∈ goIndex m k) : ∃ vs, goLookup m k = some vs ∧ v ∈ vs := by
  unfold goIndex at h
  cases hl : goLookup m k with
  | none => simp [hl] at h
  | some vs => exact ⟨vs, rfl, by simpa [hl] using h⟩


theorem generateUniqueID_A_ne_B (u u' l : String) :
    generateUniqueID u "A" l ≠ generateUniqueID u' "B" l := by
  intro h
  have hd := congrArg String.data h
  unfold generateUniqueID at hd
  by_cases hl : l = ""
  · simp [hl] at hd
  · simp [hl] at hd


/-! ## The sample entropy source -/

theorem sampleEntropy_canonical : sampleEntropy.Canonical := by
  intro k
  match k with
  | 0 => decide
  | 1 => decide
  | 2 => decide
  | 3 => decide
  | n + 4 => exact (by decide : goLen "ffffffff-ffff-4fff-8fff-ffffffffffff" = 36)

/-! ## Claims -/

/-- C2 (code at the failing input): in Scenario A (template `Web -> DB`,
requirement `Web:[L1]`, allow-list `DB:[L1, L2]`) the run ends with the nodes
Web and DB and with the ID of DB stored twice in the edge list of Web: the
recursion into the new DB instance reaches `checkSources`, which appends the
edge `Web -> DB` again without an existence check. -/
theorem scenarioA_duplicate_edge :
    ∃ st, run sampleEntropy sampleHeap webDbTemplate [("Web", [1])] [("DB", [1, 2])] = .ok st ∧
      st.g.Nodes = [webL1, dbL1] ∧
      goIndex st.g.Edges webL1.ID = [dbL1.ID, dbL1.ID] ∧
      (goIndex st.g.Edges webL1.ID).count dbL1.ID = 2 :=
  ⟨_, rfl, by decide, by decide, by decide⟩


/-- C1: forward-edge coverage.  For every template graph, requirement map and
allow-list that has a location for every dependency type without an instance in
the initial graph (UUID strings in canonical form), the pipeline
`GenerateInitialPEAGraph`, `GeneratePEAGraph` returns a graph in which, for
every template edge `T1 -> T2` and every instance `i1` named `T1`, some
instance `i2` named `T2` has its ID in `g.Edges[i1.ID]`. -/
theorem forward_edge_coverage (E : Entropy) (heap : Heap) (template : Graph)
    (locationReqList locationAllowlist : LocMap) (hE : E.Canonical)
    (hallow : AllowlistCovers template locationAllowlist
      (GenerateInitialPEAGraph E heap template locationReqList).1.g) :
    ∃ st, run E heap template locationReqList locationAllowlist = .ok st ∧
      ∀ T1 T2, T2 ∈ goIndex template.Edges T1 →
        ∀ i1 ∈ st.g.Nodes, i1.Name = T1 →
          ∃ i2 ∈ st.g.Nodes, i2.Name = T2 ∧ i2.ID ∈ goIndex st.g.Edges i1.ID := by
  have hu : ∀ k, 10 ≤ goLen (E.uuid k) := fun k => by rw [hE k]; decide
  obtain ⟨st, hst⟩ := GeneratePEAGraph_ok E heap template locationAllowlist hu
    (GenerateInitialPEAGraph E heap template locationReqList).1
    (initial_longIDs E hu heap template locationReqList) hallow
  refine ⟨st, hst, ?_⟩
  obtain ⟨-, hcov⟩ := GeneratePEAGraph_post E heap template locationAllowlist _ st hst
  intro T1 T2 hT i1 hi1 hname
  obtain ⟨connections, hl, hmem⟩ := mem_goIndex _ _ _ hT
  exact hcov i1 hi1 connections (by rw [hname]; exact hl) T2 hmem

/-- C1, at Scenario D (template `Gateway -> Auth`, `Gateway -> Cache`). -/
theorem forward_edge_coverage_scenarioD :
    sampleEntropy.Canonical ∧
    ∃ st, run sampleEntropy sampleHeap gatewayTemplate [("Gateway", [1])]
        [("Auth", [1]), ("Cache", [1])] = .ok st ∧
      ∀ T1 T2, T2 ∈ goIndex gatewayTemplate.Edges T1 →
        ∀ i1 ∈ st.g.Nodes, i1.Name = T1 →
          ∃ i2 ∈ st.g.Nodes, i2.Name = T2 ∧ i2.ID ∈ goIndex st.g.Edges i1.ID :=
  ⟨sampleEntropy_canonical,
    forward_edge_coverage sampleEntropy sampleHeap gatewayTemplate [("Gateway", [1])]
      [("Auth", [1]), ("Cache", [1])] sampleEntropy_canonical
      (by
        intro D hD _
        have hD' : D ∈ ["Auth", "Cache"] := hD
        simp only [List.mem_cons, List.mem_singleton, List.not_mem_nil, or_false] at hD'
        rcases hD' with rfl | rfl <;> decide)⟩

/-- C3 (code at the failing input): the graph that closes Scenario A is not a
fixed point.  A second call of `GeneratePEAGraph` with the same inputs leaves
the nodes unchanged but appends the ID of DB to the edge list of Web a third
time (`checkSources` appends without an existence check). -/
theorem scenarioA_second_run_adds_edge :
    ∃ st st2,
      run sampleEntropy sampleHeap webDbTemplate [("Web", [1])] [("DB", [1, 2])] = .ok st ∧
      GeneratePEAGraph sampleEntropy sampleHeap st webDbTemplate [("DB", [1, 2])] = .ok st2 ∧
      st2.g.Nodes = st.g.Nodes ∧
      goIndex st.g.Edges webL1.ID = [dbL1.ID, dbL1.ID] ∧
      goIndex st2.g.Edges webL1.ID = [dbL1.ID, dbL1.ID, dbL1.ID] :=
  ⟨_, _, rfl, rfl, by decide, by decide, by decide⟩

/-- C4 (refutation of the claim as stated): Scenario C (template `A -> B`,
`B -> A`, requirement `A:[L1]`, allow-list `B:[L1]`) ends with a normal
completed graph, not with an error. -/
theorem scenarioC_returns_graph :
    run sampleEntropy sampleHeap cyclicTemplate [("A", [1])] [("B", [1])] =
      .ok { g := { Nodes := [aL1, bL1],
                   Edges := [(aL1.ID, [bL1.ID]), (bL1.ID, [aL1.ID])] },
            uuids := 2, rands := 1 } := by
  rfl

/-- C5 (refutation of the claim as stated): Scenario B (template `Web -> DB`,
requirement `Web:[L1]`, allow-list `DB:[]`) ends with the runtime panic of
`rand.Intn(0)`, a generic runtime fault. -/
theorem scenarioB_panics :
    run sampleEntropy sampleHeap webDbTemplate [("Web", [1])] [("DB", [])] =
      .error .intnInvalidArgument := by
  rfl

/-- C7 (code at the failing input): with the template `T -> T` and the
requirement `T:[L1]` the run ends with an edge from the T instance to itself:
`processExistingNode` connects the node to every instance of the dependency
type, itself included. -/
theorem self_edge_template_makes_self_loop :
    ∃ st, run sampleEntropy sampleHeap selfEdgeTemplate [("T", [1])] [] = .ok st ∧
      tL1 ∈ st.g.Nodes ∧ tL1.ID ∈ goIndex st.g.Edges tL1.ID :=
  ⟨_, rfl, by decide, by decide⟩


/-- C4 (amended): Scenario C (template `A -> B`, `B -> A`, requirement `A:[L]`,
allow-list `B:[L]`) ends, for every entropy source with canonical UUIDs and
every location `L`, with a normal completed graph: one instance of A and one of
B, both at `L`, and the edges `A -> B` and `B -> A`.  The run is bounded and
raises no error. -/
theorem cyclic_template_completes (E : Entropy) (heap : Heap) (L : LocRef) (hE : E.Canonical) :
    run E heap cyclicTemplate [("A", [L])] [("B", [L])] =
      .ok { g := { Nodes := [createInstance heap (E.uuid 0) "A" L,
                             createInstance heap (E.uuid 1) "B" L],
                   Edges := [((createInstance heap (E.uuid 0) "A" L).ID,
                               [(createInstance heap (E.uuid 1) "B" L).ID]),
                             ((createInstance heap (E.uuid 1) "B" L).ID,
                               [(createInstance heap (E.uuid 0) "A" L).ID])] },
            uuids := 2, rands := 1 } := by
  have hu : ∀ k, 10 ≤ goLen (E.uuid k) := fun k => by rw [hE k]; decide
  have hinit : (GenerateInitialPEAGraph E heap cyclicTemplate [("A", [L])]).1 =
      { g := { Nodes := [createInstance heap (E.uuid 0) "A" L], Edges := [] },
        uuids := 1, rands := 0 } := by
    simp [GenerateInitialPEAGraph, createInstances, cyclicTemplate, templateNode, goIndex,
      goLookup, createInstancesStep, addEdges, addEdgesPair]
  have hne : (createInstance heap (E.uuid 0) "A" L).ID ≠ (createInstance heap (E.uuid 1) "B" L).ID :=
    generateUniqueID_A_ne_B _ _ _
  have hlenA : ¬ goLen (createInstance heap (E.uuid 0) "A" L).ID < 14 :=
    Nat.not_lt.2 (createInstance_long E heap hu 0 "A" L)
  have hlenB : ¬ goLen (createInstance heap (E.uuid 1) "B" L).ID < 14 :=
    Nat.not_lt.2 (createInstance_long E heap hu 1 "B" L)
  have hAn : (createInstance heap (E.uuid 0) "A" L).Name = "A" := rfl
  have hBn : (createInstance heap (E.uuid 1) "B" L).Name = "B" := rfl
  generalize createInstance heap (E.uuid 0) "A" L = a at *
  generalize hb : createInstance heap (E.uuid 1) "B" L = b at *
  have hlA : goLookup cyclicTemplate.Edges "A" = some ["B"] := by decide
  have hlB : goLookup cyclicTemplate.Edges "B" = some ["A"] := by decide
  -- the recursive call for the new B instance
  have hB : processNode E heap cyclicTemplate [("B", [L])] 2
      { g := { Nodes := [a, b], Edges := [(a.ID, [b.ID])] }, uuids := 2, rands := 1 } b =
      .ok ({ g := { Nodes := [a, b], Edges := [(a.ID, [b.ID]), (b.ID, [a.ID])] },
             uuids := 2, rands := 1 }, []) := by
    rw [show (2 : Nat) = 1 + 1 from rfl, processNode]
    simp only [hlenB, if_false, hBn, hlB, processConnections, List.foldlM_cons, List.foldlM_nil]
    have hc : containsNode [a, b] "A" = [0] := by
      simp [containsNode, containsNodeFrom, hAn, hBn]
    rw [processConnectionsStep_existing _ _ _ _ _ _ _ (by simp [hc])]
    simp only [hc, processExistingNode, List.foldlM_cons, List.foldlM_nil]
    rw [processExistingNodeStep_eq b _ 0 a (by simp)]
    have hne' : ¬ b.ID = a.ID := fun e => hne e.symm
    simp [goIndex, goLookup, hne, hne', St.addEdge, goAppend, Except.map, bind, Except.bind, pure,
      Except.pure]
  have hpick : pickedLocation E [("B", [L])]
      { g := { Nodes := [a], Edges := [] }, uuids := 1, rands := 0 } "B" = L := by
    simp [pickedLocation, goIndex, goLookup, Nat.mod_one]
  have hcA : containsNode [a] "B" = [] := by
    simp [containsNode, containsNodeFrom, hAn]
  have hallow : goIndex [("B", [L])] "B" ≠ [] := by simp [goIndex, goLookup]
  have hA : processNode E heap cyclicTemplate [("B", [L])] (recursionBudget cyclicTemplate)
      { g := { Nodes := [a], Edges := [] }, uuids := 1, rands := 0 } a =
      .ok ({ g := { Nodes := [a, b], Edges := [(a.ID, [b.ID]), (b.ID, [a.ID])] },
             uuids := 2, rands := 1 }, [b]) := by
    rw [show recursionBudget cyclicTemplate = 2 + 1 from rfl, processNode]
    simp only [hlenA, if_false, hAn, hlA, processConnections, List.foldlM_cons, List.foldlM_nil]
    rw [processConnectionsStep_create E heap _ a _ _ "B" hcA hallow
      (by rw [hpick]; exact hb ▸ Nat.le_of_not_lt hlenB)]
    simp only [hpick, hb]
    have hst : ({ g := { Nodes := [a], Edges := [] }, uuids := 1, rands := 0 } : St).addNode a b =
        { g := { Nodes := [a, b], Edges := [(a.ID, [b.ID])] }, uuids := 2, rands := 1 } := by
      simp [St.addNode, goAppend]
    rw [hst, hB]
    rfl
  unfold run
  rw [hinit]
  unfold GeneratePEAGraph
  simp only [List.foldlM_cons, List.foldlM_nil, hA, bind, Except.bind, pure, Except.pure]

/-- C4 (amended), at the sample entropy source and the location `L1`. -/
theorem cyclic_template_completes_sample :
    sampleEntropy.Canonical ∧
    run sampleEntropy sampleHeap cyclicTemplate [("A", [1])] [("B", [1])] =
      .ok { g := { Nodes := [createInstance sampleHeap (sampleEntropy.uuid 0) "A" 1,
                             createInstance sampleHeap (sampleEntropy.uuid 1) "B" 1],
                   Edges := [((createInstance sampleHeap (sampleEntropy.uuid 0) "A" 1).ID,
                               [(createInstance sampleHeap (sampleEntropy.uuid 1) "B" 1).ID]),
                             ((createInstance sampleHeap (sampleEntropy.uuid 1) "B" 1).ID,
                               [(createInstance sampleHeap (sampleEntropy.uuid 0) "A" 1).ID])] },
            uuids := 2, rands := 1 } :=
  ⟨sampleEntropy_canonical,
    cyclic_template_completes sampleEntropy sampleHeap 1 sampleEntropy_canonical⟩

/-- C5 (amended): whenever `processConnections` reaches a dependency type `D`
that has no instance in `g.Nodes` while `locationAllowlist[D]` is empty or
absent, the call ends with the runtime panic of `rand.Intn(0)`; the panic ends
every enclosing call of `processNode`, at any depth of the recursion, and the
run of `GeneratePEAGraph`, whichever node of `g.Nodes` the loop is at.  The code
has no `AllocationError`. -/
theorem allocation_failure_is_intn_panic (E : Entropy) (heap : Heap) (appGraph : Graph)
    (locationAllowlist : LocMap) :
    (∀ (recur : St → Node → Except Fault (St × List Node)) (st : St) (node : Node)
        (done rest : List String) (D : String) (acc : St × List Node),
        done.foldlM (processConnectionsStep E heap recur node locationAllowlist) (st, []) =
          .ok acc →
        containsNode acc.1.g.Nodes D = [] → goIndex locationAllowlist D = [] →
        processConnections E heap recur st node (done ++ D :: rest) locationAllowlist =
          .error .intnInvalidArgument) ∧
    (∀ (fuel : Nat) (st : St) (node : Node),
        ReachesEmptyAllowlist E heap appGraph locationAllowlist fuel st node →
        processNode E heap appGraph locationAllowlist fuel st node =
          .error .intnInvalidArgument) ∧
    (∀ (st st1 : St) (done rest : List Node) (node : Node),
        st.g.Nodes = done ++ node :: rest →
        done.foldlM
          (fun st node => do
            let r ← processNode E heap appGraph locationAllowlist (recursionBudget appGraph)
              st node
            pure r.1) st = .ok st1 →
        ReachesEmptyAllowlist E heap appGraph locationAllowlist (recursionBudget appGraph)
          st1 node →
        GeneratePEAGraph E heap st appGraph locationAllowlist = .error .intnInvalidArgument) := by
  have part1 : ∀ (recur : St → Node → Except Fault (St × List Node)) (st : St) (node : Node)
      (done rest : List String) (D : String) (acc : St × List Node),
      done.foldlM (processConnectionsStep E heap recur node locationAllowlist) (st, []) =
        .ok acc →
      containsNode acc.1.g.Nodes D = [] → goIndex locationAllowlist D = [] →
      processConnections E heap recur st node (done ++ D :: rest) locationAllowlist =
        .error .intnInvalidArgument := by
    intro recur st node done rest D acc hdone habs hallow
    unfold processConnections
    rw [List.foldlM_append, hdone]
    simp only [bind, Except.bind, List.foldlM_cons]
    rw [processConnectionsStep_noLocation E heap recur node locationAllowlist acc D habs hallow]
  have part2 : ∀ (fuel : Nat) (st : St) (node : Node),
      ReachesEmptyAllowlist E heap appGraph locationAllowlist fuel st node →
      processNode E heap appGraph locationAllowlist fuel st node =
        .error .intnInvalidArgument := by
    intro fuel st node hreach
    induction hreach with
    | here fuel st node done rest D acc hlen hl hdone habs hallow =>
      rw [processNode]
      simp only [Nat.not_lt.2 hlen, if_false, hl]
      exact part1 _ st node done rest D acc hdone habs hallow
    | nested fuel st node done rest D acc hlen hl hdone habs hallow hnew _ ih =>
      rw [processNode]
      simp only [Nat.not_lt.2 hlen, if_false, hl]
      unfold processConnections
      rw [List.foldlM_append, hdone]
      simp only [bind, Except.bind, List.foldlM_cons]
      rw [processConnectionsStep_create E heap _ node locationAllowlist acc D habs hallow hnew,
        ih]
      rfl
  refine ⟨part1, part2, ?_⟩
  intro st st1 done rest node hnodes hdone hreach
  unfold GeneratePEAGraph
  rw [hnodes, List.foldlM_append, hdone]
  simp only [bind, Except.bind, List.foldlM_cons]
  rw [part2 _ st1 node hreach]

/-- C5 (amended), at three inputs.  Scenario B: the first dependency of the
first node has an empty allow-list.  The template `Web -> DB`, `Api -> Cache`
with instances of Web and Api and the allow-list `DB:[L1]`: the panic comes at
the second node.  The chain `Web -> DB`, `DB -> Store` with the allow-list
`DB:[L1]`: the panic comes in the nested call for the new DB instance. -/
theorem allocation_failure_scenarios :
    GeneratePEAGraph sampleEntropy sampleHeap scenarioAStart webDbTemplate [("DB", [])] =
      .error .intnInvalidArgument ∧
    GeneratePEAGraph sampleEntropy sampleHeap
        (GenerateInitialPEAGraph sampleEntropy sampleHeap twoSourcesTemplate
          [("Web", [1]), ("Api", [1])]).1
        twoSourcesTemplate [("DB", [1])] = .error .intnInvalidArgument ∧
    GeneratePEAGraph sampleEntropy sampleHeap scenarioAStart storeTemplate [("DB", [1])] =
      .error .intnInvalidArgument :=
  ⟨(allocation_failure_is_intn_panic sampleEntropy sampleHeap webDbTemplate [("DB", [])]).2.2
      scenarioAStart scenarioAStart [] [] webL1 rfl rfl
      (ReachesEmptyAllowlist.here 1 scenarioAStart webL1 [] [] "DB" (scenarioAStart, [])
        (by decide) (by decide) rfl (by decide) (by decide)),
    (allocation_failure_is_intn_panic sampleEntropy sampleHeap twoSourcesTemplate
        [("DB", [1])]).2.2
      (GenerateInitialPEAGraph sampleEntropy sampleHeap twoSourcesTemplate
        [("Web", [1]), ("Api", [1])]).1
      { g := { Nodes := [webL1, createInstance sampleHeap (sampleEntropy.uuid 1) "Api" 1,
                         createInstance sampleHeap (sampleEntropy.uuid 2) "DB" 1],
               Edges := [(webL1.ID,
                 [(createInstance sampleHeap (sampleEntropy.uuid 2) "DB" 1).ID,
                  (createInstance sampleHeap (sampleEntropy.uuid 2) "DB" 1).ID])] },
        uuids := 3, rands := 1 }
      [webL1] [] (createInstance sampleHeap (sampleEntropy.uuid 1) "Api" 1) rfl rfl
      (ReachesEmptyAllowlist.here 2 _ _ [] [] "Cache" (_, [])
        (by decide) (by decide) rfl (by decide) (by decide)),
    (allocation_failure_is_intn_panic sampleEntropy sampleHeap storeTemplate [("DB", [1])]).2.2
      scenarioAStart scenarioAStart [] [] webL1 rfl rfl
      (ReachesEmptyAllowlist.nested 2 scenarioAStart webL1 [] [] "DB" (scenarioAStart, [])
        (by decide) (by decide) rfl (by decide) (by decide) (by decide)
        (ReachesEmptyAllowlist.here 1 _ _ [] [] "Store" (_, [])
          (by decide) (by decide) rfl (by decide) (by decide)))⟩

/-- C6: edge validity.  `GeneratePEAGraph` preserves edge validity for every
input graph; every graph returned by the pipeline `GenerateInitialPEAGraph`,
`GeneratePEAGraph` is edge valid (each key of `g.Edges` with a non-empty list
and each ID stored in a list is the ID of a node of `g.Nodes`); and the pipeline
returns whenever the UUIDs are canonical and the allow-list has a location for
every dependency type without an instance in the initial graph. -/
theorem edge_validity (E : Entropy) (heap : Heap) (appGraph : Graph)
    (locationAllowlist : LocMap) :
    (∀ st st', EdgeValid st.g →
        GeneratePEAGraph E heap st appGraph locationAllowlist = .ok st' → EdgeValid st'.g) ∧
    (∀ locationReqList st',
        run E heap appGraph locationReqList locationAllowlist = .ok st' → EdgeValid st'.g) ∧
    (∀ locationReqList, E.Canonical →
        AllowlistCovers appGraph locationAllowlist
          (GenerateInitialPEAGraph E heap appGraph locationReqList).1.g →
        ∃ st', run E heap appGraph locationReqList locationAllowlist = .ok st') := by
  refine ⟨?_, ?_, ?_⟩
  · intro st st' hv h
    exact (GeneratePEAGraph_post E heap appGraph locationAllowlist st st' h).1.edgeValid hv
  · intro req st' h
    exact (GeneratePEAGraph_post E heap appGraph locationAllowlist _ st' h).1.edgeValid
      (initial_edgeValid E heap appGraph req)
  · intro req hE hallow
    have hu : ∀ k, 10 ≤ goLen (E.uuid k) := fun k => by rw [hE k]; decide
    exact GeneratePEAGraph_ok E heap appGraph locationAllowlist hu _
      (initial_longIDs E hu heap appGraph req) hallow

/-- C6, at Scenario A: the graph returned there is edge valid. -/
theorem edge_validity_scenarioA :
    EdgeValid ({ Nodes := [webL1, dbL1], Edges := [(webL1.ID, [dbL1.ID, dbL1.ID])] } : Graph) :=
  (edge_validity sampleEntropy sampleHeap webDbTemplate [("DB", [1, 2])]).2.1 [("Web", [1])]
    { g := { Nodes := [webL1, dbL1], Edges := [(webL1.ID, [dbL1.ID, dbL1.ID])] },
      uuids := 2, rands := 1 } rfl

/-- C8: uniqueness.  When the UUIDs drawn during a run of the pipeline are
pairwise distinct and all of the same length, the instances of the returned
graph have pairwise distinct IDs, whatever the type and location names are. -/
theorem unique_ids (E : Entropy) (heap : Heap) (template : Graph)
    (locationReqList locationAllowlist : LocMap) (st : St)
    (h : run E heap template locationReqList locationAllowlist = .ok st)
    (hfresh : E.FreshUpTo st.uuids) :
    (st.g.Nodes.map (fun n => n.ID)).Nodup := by
  obtain ⟨hsteps, -⟩ := GeneratePEAGraph_post E heap template locationAllowlist _ st h
  have hle : (createInstances E heap 0 template.Nodes locationReqList).uuids ≤ st.uuids :=
    hsteps.uuids_le
  have h0 : FreshIDs E (GenerateInitialPEAGraph E heap template locationReqList).1 :=
    createInstances_fresh E st.uuids hfresh heap template.Nodes locationReqList hle
  exact (hsteps.freshIDs st.uuids hfresh (Nat.le_refl _) h0).1

/-- C8, at Scenario D: three instances with three distinct IDs. -/
theorem unique_ids_scenarioD :
    sampleEntropy.FreshUpTo 3 ∧
    ∃ st, run sampleEntropy sampleHeap gatewayTemplate [("Gateway", [1])]
        [("Auth", [1]), ("Cache", [1])] = .ok st ∧ st.g.Nodes.length = 3 ∧
      (st.g.Nodes.map (fun n => n.ID)).Nodup := by
  have hfresh : sampleEntropy.FreshUpTo 3 := by
    intro j k hj hk
    interval_cases j <;> interval_cases k <;> decide
  obtain ⟨st, hst, hlen, hu⟩ : ∃ st, run sampleEntropy sampleHeap gatewayTemplate
      [("Gateway", [1])] [("Auth", [1]), ("Cache", [1])] = .ok st ∧ st.g.Nodes.length = 3 ∧
      st.uuids = 3 := ⟨_, rfl, rfl, rfl⟩
  exact ⟨hfresh, st, hst, hlen,
    unique_ids sampleEntropy sampleHeap gatewayTemplate _ _ st hst (hu ▸ hfresh)⟩

/-- C9 (refutation of the claim as stated): for the template `A -> B` and an
instance list in which an A instance and a C instance share the ID `x`, the
result of `addEdges` has the edge `x -> y` to the B instance although the
template has no edge `C -> B`. -/
theorem edge_projector_fails_on_shared_id : ¬ EdgeProjectorSpec abTemplate clashingNodes := by
  intro h
  have h1 := (h.1 { ID := "x", Name := "C", Location := 1 } (by decide)
    { ID := "y", Name := "B", Location := 1 } (by decide) (by decide)).1 (by decide)
  revert h1
  decide

/-- C9 (amended): for every template graph and every list `newNodes` in which
instances with the same ID have the same type name, and for every ordered pair
`(I1, I2)` of entries with distinct IDs, `I2.ID` occurs in
`addEdges(graph, newNodes)[I1.ID]` if and only if `I2.Name` occurs in
`graph.Edges[I1.Name]`; and every ID in a list of the result is such an
`I2.ID`. -/
theorem edge_projector (graph : Graph) (newNodes : List Node)
    (hnames : ∀ a ∈ newNodes, ∀ b ∈ newNodes, a.ID = b.ID → a.Name = b.Name) :
    EdgeProjectorSpec graph newNodes := by
  refine ⟨?_, ?_⟩
  · intro I1 h1 I2 h2 hne
    rw [mem_addEdges]
    constructor
    · rintro ⟨n1, hn1, n2, hn2, e1, e2, -, hadj⟩
      rw [hnames I1 h1 n1 hn1 e1, hnames I2 h2 n2 hn2 e2]
      exact hadj
    · intro hadj
      exact ⟨I1, h1, I2, h2, rfl, rfl, hne, hadj⟩
  · intro u v huv
    rw [mem_addEdges] at huv
    obtain ⟨n1, hn1, n2, hn2, e1, e2, hne, hadj⟩ := huv
    exact ⟨n1, hn1, n2, hn2, e1.symm, e2.symm, hne, hadj⟩

/-- C9 (amended), at the instances of Scenario A. -/
theorem edge_projector_scenarioA : EdgeProjectorSpec webDbTemplate [webL1, dbL1] :=
  edge_projector webDbTemplate [webL1, dbL1] (by decide)

/-- C10: Node Instantiator.  The (Name, Location) pairs of the instances that
`createInstances` returns are, in order, the pairs `(node.Name, L)` for the
template nodes in list order and `L` in `locationReqList[node.Name]` in list
order; a type whose requirement list is absent or empty gets no instance. -/
theorem node_instantiator (E : Entropy) (heap : Heap) (uuids : Nat) (nodes : List Node)
    (locationReqList : LocMap) :
    (createInstances E heap uuids nodes locationReqList).newNodes.map
        (fun n => (n.Name, n.Location)) =
      nodes.flatMap
        (fun node => (goIndex locationReqList node.Name).map (fun L => (node.Name, L))) ∧
    ∀ T, goIndex locationReqList T = [] →
      ∀ n ∈ (createInstances E heap uuids nodes locationReqList).newNodes, n.Name ≠ T := by
  have h1 : (createInstances E heap uuids nodes locationReqList).newNodes.map
      (fun n => (n.Name, n.Location)) =
      nodes.flatMap
        (fun node => (goIndex locationReqList node.Name).map (fun L => (node.Name, L))) := by
    unfold createInstances
    rw [createInstances_fold_outer]
    rfl
  refine ⟨h1, ?_⟩
  intro T hT n hn hname
  have hmem : (n.Name, n.Location) ∈
      (createInstances E heap uuids nodes locationReqList).newNodes.map
        (fun n => (n.Name, n.Location)) := List.mem_map.2 ⟨n, hn, rfl⟩
  rw [h1, List.mem_flatMap] at hmem
  obtain ⟨node, -, hpair⟩ := hmem
  obtain ⟨L, hL, heq⟩ := List.mem_map.1 hpair
  have hnn : node.Name = n.Name := congrArg Prod.fst heq
  rw [hnn, hname, hT] at hL
  simp at hL

/-- C10, at Scenario A: one Web instance at `L1`, no DB instance. -/
theorem node_instantiator_scenarioA :
    (createInstances sampleEntropy sampleHeap 0 webDbTemplate.Nodes [("Web", [1])]).newNodes.map
        (fun n => (n.Name, n.Location)) = [("Web", 1)] ∧
    ∀ n ∈ (createInstances sampleEntropy sampleHeap 0 webDbTemplate.Nodes
        [("Web", [1])]).newNodes, n.Name ≠ "DB" :=
  ⟨(node_instantiator sampleEntropy sampleHeap 0 webDbTemplate.Nodes [("Web", [1])]).1.trans
      (by decide),
    (node_instantiator sampleEntropy sampleHeap 0 webDbTemplate.Nodes [("Web", [1])]).2 "DB"
      (by decide)⟩


/-! ## What the closure adds -/

theorem containsNodeFrom_length (name : String) (start : Nat) (nodes : List Node) :
    (containsNodeFrom name start nodes).length =
      nodes.countP (fun n => decide (n.Name = name)) := by
  induction nodes generalizing start with
  | nil => rfl
  | cons n rest ih =>
    unfold containsNodeFrom
    by_cases hn : n.Name = name
    · simp [hn, ih]
    · simp [hn, ih]

theorem instanceCount_eq_countP (g : Graph) (D : String) :
    instanceCount g D = g.Nodes.countP (fun n => decide (n.Name = D)) :=
  containsNodeFrom_length D 0 g.Nodes

/-- The nodes that a sequence of elementary mutations appends: their type names
are pairwise distinct dependency types without instance in the start state,
their locations are allow-listed, and each of them consumed one UUID and one
random number. -/
theorem Steps.added {E : Entropy} {heap : Heap} {appGraph : Graph} {allow : LocMap}
    {st st' : St} (h : Steps E heap appGraph allow st st') :
    ∃ added : List Node, st'.g.Nodes = st.g.Nodes ++ added ∧
      (added.map (fun n => n.Name)).Nodup ∧
      (∀ n ∈ added, n.Name ∈ dependencyTypes appGraph ∧ Absent st.g n.Name ∧
        n.Location ∈ goIndex allow n.Name) ∧
      st'.uuids = st.uuids + added.length ∧ st'.rands = st.rands + added.length := by
  induction h with
  | refl => exact ⟨[], by simp, by simp, by simp, by simp, by simp⟩
  | @tail b c hs hstep ih =>
    obtain ⟨added, hnodes, hnd, hprop, hu, hr⟩ := ih
    cases hstep with
    | forward node c connections hnode hl hc hcn hne =>
      exact ⟨added, hnodes, hnd, hprop, hu, hr⟩
    | backward node s entry hnode hl he hd hs' hname =>
      exact ⟨added, hnodes, hnd, hprop, hu, hr⟩
    | create node connections D loc hnode hl hD habs hloc hlen =>
      refine ⟨added ++ [createInstance heap (E.uuid b.uuids) D loc], ?_, ?_, ?_, ?_, ?_⟩
      · simp [St.addNode, hnodes]
      · rw [List.map_append, List.nodup_append]
        refine ⟨hnd, by simp, ?_⟩
        intro a ha hb
        simp only [List.map_cons, List.map_nil, List.mem_singleton] at hb
        obtain ⟨n, hn, rfl⟩ := List.mem_map.1 ha
        exact habs n (by rw [hnodes]; exact List.mem_append_right _ hn) hb
      · intro n hn
        rcases List.mem_append.1 hn with h1 | h1
        · exact hprop n h1
        · rw [List.mem_singleton] at h1
          subst h1
          refine ⟨mem_dependencyTypes appGraph _ _ hl D hD, ?_, hloc⟩
          intro m hm
          exact habs m (by rw [hnodes]; exact List.mem_append_left _ hm)
      · simp [St.addNode, hu]; omega
      · simp [St.addNode, hr]; omega

theorem added_length_le (appGraph : Graph) (g : Graph) (added : List Node)
    (hnd : (added.map (fun n => n.Name)).Nodup)
    (hprop : ∀ n ∈ added, n.Name ∈ dependencyTypes appGraph ∧ Absent g n.Name) :
    added.length ≤ absentCount appGraph g := by
  have hsub : added.map (fun n => n.Name) ⊆
      (dependencyTypes appGraph).dedup.filter
        (fun D => g.Nodes.all (fun n => decide (n.Name ≠ D))) := by
    intro D hD
    obtain ⟨n, hn, rfl⟩ := List.mem_map.1 hD
    exact List.mem_filter.2
      ⟨List.mem_dedup.2 (hprop n hn).1, (absent_iff_all g n.Name).2 (hprop n hn).2⟩
  have := (List.subperm_of_subset hnd hsub).length_le
  simpa [absentCount] using this


theorem countP_name_eq_count (added : List Node) (D : String) :
    added.countP (fun n => decide (n.Name = D)) = (added.map (fun n => n.Name)).count D := by
  induction added with
  | nil => rfl
  | cons n rest ih =>
    by_cases hn : n.Name = D
    · simp [List.countP_cons, List.count_cons, hn, ih]
    · simp [List.countP_cons, List.count_cons, hn, ih]


/-! ## Instance edges and template edges -/

theorem goLookup_of_mem_nodup {β : Type} (m : List (String × β))
    (hkeys : (m.map Prod.fst).Nodup) (k : String) (v : β) (h : (k, v) ∈ m) :
    goLookup m k = some v := by
  induction m with
  | nil => cases h
  | cons e rest ih =>
    obtain ⟨k0, v0⟩ := e
    rw [List.map_cons, List.nodup_cons] at hkeys
    rcases List.mem_cons.1 h with heq | hmem
    · cases heq
      simp [goLookup]
    · have hne : k0 ≠ k := by
        intro e
        apply hkeys.1
        rw [e]
        exact List.mem_map.2 ⟨(k, v), hmem, rfl⟩
      simp only [goLookup, hne, if_false]
      exact ih hkeys.2 hmem

theorem Step.one_followTemplate {E : Entropy} {heap : Heap} {appGraph : Graph}
    {allow : LocMap} (hkeys : (appGraph.Edges.map Prod.fst).Nodup)
    {st st' : St} (h : Step E heap appGraph allow st st')
    (hf : EdgesFollowTemplate appGraph st.g) : EdgesFollowTemplate appGraph st'.g := by
  -- an appended edge `a -> b` between two nodes of the state
  have key : ∀ (s : St) (a b : Node), a ∈ s.g.Nodes → b ∈ s.g.Nodes →
      b.Name ∈ goIndex appGraph.Edges a.Name → EdgesFollowTemplate appGraph s.g →
      EdgesFollowTemplate appGraph (s.addEdge a.ID b.ID).g := by
    intro s a b ha hb hadj hs u v huv
    simp only [St.addEdge, goIndex_goAppend] at huv
    by_cases hu : u = a.ID
    · simp only [hu, if_true, List.mem_append, List.mem_singleton] at huv
      rcases huv with h1 | h1
      · exact hu ▸ hs a.ID v h1
      · exact ⟨a, ha, b, hb, hu.symm, h1.symm, hadj⟩
    · simp only [hu, if_false] at huv
      exact hs u v huv
  cases h with
  | forward node c connections hnode hl hc hcn hne =>
    exact key st node c hnode hc (by simp [goIndex, hl, hcn]) hf
  | backward node s entry hnode hl he hd hs hname =>
    have hlook : goLookup appGraph.Edges s.Name = some entry.2 := by
      rw [hname]
      exact goLookup_of_mem_nodup _ hkeys _ _ he
    exact key st s node hs hnode (by simp [goIndex, hlook, hd]) hf
  | create node connections D loc hnode hl hD habs hloc hlen =>
    intro u v huv
    have hsub : ∀ n ∈ st.g.Nodes,
        n ∈ (st.addNode node (createInstance heap (E.uuid st.uuids) D loc)).g.Nodes := by
      intro n hn
      simp [St.addNode, hn]
    simp only [St.addNode, goIndex_goAppend] at huv
    by_cases hu : u = node.ID
    · simp only [hu, if_true, List.mem_append, List.mem_singleton] at huv
      rcases huv with h1 | h1
      · obtain ⟨i, hi, j, hj, e1, e2, hadj⟩ := hf node.ID v h1
        exact ⟨i, hsub i hi, j, hsub j hj, e1.trans hu.symm, e2, hadj⟩
      · refine ⟨node, hsub node hnode, createInstance heap (E.uuid st.uuids) D loc,
          by simp [St.addNode], hu.symm, h1.symm, ?_⟩
        simp [goIndex, hl, createInstance, hD]
    · simp only [hu, if_false] at huv
      obtain ⟨i, hi, j, hj, e1, e2, hadj⟩ := hf u v huv
      exact ⟨i, hsub i hi, j, hsub j hj, e1, e2, hadj⟩

theorem initial_followTemplate (E : Entropy) (heap : Heap) (template : Graph) (req : LocMap) :
    EdgesFollowTemplate template (GenerateInitialPEAGraph E heap template req).1.g := by
  intro u v hv
  have hv' : v ∈ goIndex (addEdges template
      (createInstances E heap 0 template.Nodes req).newNodes) u := hv
  rw [mem_addEdges] at hv'
  obtain ⟨n1, h1, n2, h2, hu, hv2, -, hadj⟩ := hv'
  exact ⟨n1, h1, n2, h2, hu.symm, hv2.symm, hadj⟩

theorem run_freshIDs (E : Entropy) (heap : Heap) (template : Graph) (req allow : LocMap)
    (st : St) (h : run E heap template req allow = .ok st) (hfresh : E.FreshUpTo st.uuids) :
    FreshIDs E st := by
  obtain ⟨hsteps, -⟩ := GeneratePEAGraph_post E heap template allow _ st h
  have hle : (createInstances E heap 0 template.Nodes req).uuids ≤ st.uuids := hsteps.uuids_le
  have h0 : FreshIDs E (GenerateInitialPEAGraph E heap template req).1 :=
    createInstances_fresh E st.uuids hfresh heap template.Nodes req hle
  exact hsteps.freshIDs st.uuids hfresh (Nat.le_refl _) h0

theorem eq_of_id_eq (nodes : List Node) (hnd : (nodes.map (fun n => n.ID)).Nodup)
    (a b : Node) (ha : a ∈ nodes) (hb : b ∈ nodes) (h : a.ID = b.ID) : a = b :=
  List.inj_on_of_nodup_map hnd ha hb h

theorem sampleEntropy_fresh : sampleEntropy.FreshUpTo 3 := by
  intro j k hj hk
  interval_cases j <;> interval_cases k <;> decide


/-! ## The closure reads only the names of the locations -/

theorem processConnectionsStep_heap (E : Entropy) (h1 h2 : Heap)
    (hnames : ∀ r, (h1 r).Name = (h2 r).Name)
    (recur : St → Node → Except Fault (St × List Node)) (node : Node) (allow : LocMap) :
    processConnectionsStep E h1 recur node allow = processConnectionsStep E h2 recur node allow := by
  have hci : ∀ u n l, createInstance h1 u n l = createInstance h2 u n l := by
    intro u n l
    simp [createInstance, hnames l]
  funext acc D
  unfold processConnectionsStep
  simp only [hci]

theorem processNode_heap (E : Entropy) (h1 h2 : Heap)
    (hnames : ∀ r, (h1 r).Name = (h2 r).Name) (appGraph : Graph) (allow : LocMap) (fuel : Nat) :
    processNode E h1 appGraph allow fuel = processNode E h2 appGraph allow fuel := by
  induction fuel with
  | zero => rfl
  | succ fuel ih =>
    funext st node
    unfold processNode processConnections
    rw [ih, processConnectionsStep_heap E h1 h2 hnames]

/-- `GeneratePEAGraph` gives the same result on two heaps that agree on the
names of the locations; in particular on the heap before and after
`GenerateInitialPEAGraph`. -/
theorem GeneratePEAGraph_heap (E : Entropy) (h1 h2 : Heap)
    (hnames : ∀ r, (h1 r).Name = (h2 r).Name) (st : St) (appGraph : Graph) (allow : LocMap) :
    GeneratePEAGraph E h1 st appGraph allow = GeneratePEAGraph E h2 st appGraph allow := by
  unfold GeneratePEAGraph
  rw [processNode_heap E h1 h2 hnames]

theorem createInstances_heap_names (E : Entropy) (heap : Heap) (uuids : Nat)
    (nodes : List Node) (req : LocMap) :
    ∀ r, ((createInstances E heap uuids nodes req).heap r).Name = (heap r).Name := by
  apply createInstances_induction E heap uuids nodes req
    (fun s => ∀ r, (s.heap r).Name = (heap r).Name)
  · intro r; rfl
  · intro s name loc hs r
    simp only [createInstancesStep]
    by_cases hr : r = loc
    · simp [hr, hs loc]
    · simp [hr, hs r]

/-- The pipeline `run`, which hands the initial heap to `GeneratePEAGraph`, gives
the result of the closure on the heap left by `GenerateInitialPEAGraph`. -/
theorem run_eq_on_final_heap (E : Entropy) (heap : Heap) (template : Graph)
    (req allow : LocMap) :
    run E heap template req allow =
      GeneratePEAGraph E (GenerateInitialPEAGraph E heap template req).2
        (GenerateInitialPEAGraph E heap template req).1 template allow :=
  GeneratePEAGraph_heap E heap _
    (fun r => (createInstances_heap_names E heap 0 template.Nodes req r).symm) _ _ _

/-! ## `strings.Split` -/

theorem splitChars_append_sep (sep : Char) (w rest : List Char) (hw : sep ∉ w) :
    splitChars sep (w ++ sep :: rest) = w :: splitChars sep rest := by
  induction w with
  | nil => simp [splitChars]
  | cons c w ih =>
    have hc : c ≠ sep := fun e => hw (by simp [e])
    have hw' : sep ∉ w := fun h => hw (List.mem_cons_of_mem _ h)
    have ih' : splitChars sep (w.append (sep :: rest)) = w :: splitChars sep rest := ih hw'
    simp only [List.cons_append, splitChars, hc, if_false, ih']

theorem splitChars_ne_nil (sep : Char) (l : List Char) : splitChars sep l ≠ [] := by
  induction l with
  | nil => simp [splitChars]
  | cons c cs ih =>
    unfold splitChars
    by_cases hc : c = sep
    · simp [hc]
    · simp only [hc, if_false]
      cases h : splitChars sep cs with
      | nil => simp
      | cons w ws => simp


/-! ## Complete coverage -/

theorem Step.one_fullFor {E : Entropy} {heap : Heap} {appGraph : Graph} {allow : LocMap}
    {st st' : St} (h : Step E heap appGraph allow st st') {n : Node} {D : String}
    (hf : FullFor st.g n D) : FullFor st'.g n D := by
  have hsteps : Steps E heap appGraph allow st st' := Relation.ReflTransGen.single h
  obtain ⟨⟨w, hw, hwn⟩, hall⟩ := hf
  refine ⟨⟨w, hsteps.mem_nodes hw, hwn⟩, ?_⟩
  cases h with
  | forward node c connections hnode hl hc hcn hne =>
    intro i2 hi2 hname
    exact hsteps.mem_edges (hall i2 hi2 hname)
  | backward node s entry hnode hl he hd hs hname =>
    intro i2 hi2 hname2
    exact hsteps.mem_edges (hall i2 hi2 hname2)
  | create node connections D' loc hnode hl hD habs hloc hlen =>
    intro i2 hi2 hname
    simp only [St.addNode, List.mem_append, List.mem_singleton] at hi2
    rcases hi2 with h1 | h1
    · exact hsteps.mem_edges (hall i2 h1 hname)
    · subst h1
      exact absurd (hwn.trans hname.symm) (habs w hw)

theorem Steps.fullFor {E : Entropy} {heap : Heap} {appGraph : Graph} {allow : LocMap}
    {st st' : St} (h : Steps E heap appGraph allow st st') {n : Node} {D : String}
    (hf : FullFor st.g n D) : FullFor st'.g n D := by
  induction h with
  | refl => exact hf
  | tail _ hs ih => exact hs.one_fullFor ih

theorem Steps.fullyCovered {E : Entropy} {heap : Heap} {appGraph : Graph} {allow : LocMap}
    {st st' : St} (h : Steps E heap appGraph allow st st') {n : Node}
    (hf : FullyCovered appGraph st.g n) : FullyCovered appGraph st'.g n :=
  fun connections hl D hD => h.fullFor (hf connections hl D hD)

theorem processConnectionsStep_full (E : Entropy) (heap : Heap) (appGraph : Graph)
    (recur : St → Node → Except Fault (St × List Node)) (node : Node) (allow : LocMap)
    (hrec : ∀ s n r, n ∈ s.g.Nodes → recur s n = .ok r → NodePost E heap appGraph allow s n r.1)
    (hfull : ∀ s n r, n ∈ s.g.Nodes → recur s n = .ok r →
      FullyCovered appGraph r.1.g n ∧
        ∀ m ∈ r.1.g.Nodes, m ∈ s.g.Nodes ∨ FullyCovered appGraph r.1.g m)
    (connections : List String) (hl : goLookup appGraph.Edges node.Name = some connections)
    (D : String) (hD : D ∈ connections)
    (acc : St × List Node) (hnode : node ∈ acc.1.g.Nodes) (r : St × List Node)
    (h : processConnectionsStep E heap recur node allow acc D = .ok r) :
    FullFor r.1.g node D ∧
      ∀ m ∈ r.1.g.Nodes, m ∈ acc.1.g.Nodes ∨ FullyCovered appGraph r.1.g m := by
  by_cases hpos : (containsNode acc.1.g.Nodes D).length > 0
  · rw [processConnectionsStep_existing E heap recur node allow acc D hpos] at h
    obtain ⟨st', hst', hs, hn, -, -, he⟩ :=
      processExistingNode_spec E heap appGraph allow node connections D hl hD
        (containsNode acc.1.g.Nodes D) acc.1 hnode
        (fun idx hidx => (mem_containsNode _ _ _).1 hidx)
    rw [hst'] at h
    have hr : r = (st', acc.2) := by
      simp only [Except.map] at h
      exact (Except.ok.inj h).symm
    subst hr
    refine ⟨⟨?_, ?_⟩, ?_⟩
    · obtain ⟨idx, hidx⟩ := List.exists_mem_of_length_pos hpos
      obtain ⟨c, hc, hcn⟩ := (mem_containsNode _ _ _).1 hidx
      refine ⟨c, ?_, hcn⟩
      show c ∈ st'.g.Nodes
      rw [hn]
      exact List.getElem?_mem hc
    · intro i2 hi2 hname
      have hi2' : i2 ∈ acc.1.g.Nodes := by
        have : i2 ∈ st'.g.Nodes := hi2
        rw [hn] at this
        exact this
      obtain ⟨idx, hget⟩ := List.getElem?_of_mem hi2'
      exact he idx ((mem_containsNode _ _ _).2 ⟨i2, hget, hname⟩) i2 hget
    · intro m hm
      left
      have : m ∈ st'.g.Nodes := hm
      rw [hn] at this
      exact this
  · have hnil : containsNode acc.1.g.Nodes D = [] := by
      cases hc : containsNode acc.1.g.Nodes D with
      | nil => rfl
      | cons a l => simp [hc] at hpos
    have habs : ∀ n ∈ acc.1.g.Nodes, n.Name ≠ D := (containsNode_eq_nil _ _).1 hnil
    by_cases hallow : goIndex allow D = []
    · rw [processConnectionsStep_noLocation E heap recur node allow acc D hnil hallow] at h
      cases h
    · by_cases hlen : 14 ≤ goLen (createInstance heap (E.uuid acc.1.uuids) D
          (pickedLocation E allow acc.1 D)).ID
      · rw [processConnectionsStep_create E heap recur node allow acc D hnil hallow hlen] at h
        have hNew : (createInstance heap (E.uuid acc.1.uuids) D
          (pickedLocation E allow acc.1 D)).Name = D := rfl
        generalize createInstance heap (E.uuid acc.1.uuids) D
          (pickedLocation E allow acc.1 D) = newNode at h hlen hNew
        cases hrr : recur (acc.1.addNode node newNode) newNode with
        | error e => rw [hrr] at h; cases h
        | ok r' =>
          rw [hrr] at h
          have hr : r = (r'.1, acc.2 ++ [newNode]) := by
            simp only [Except.map] at h
            exact (Except.ok.inj h).symm
          subst hr
          have hmem : newNode ∈ (acc.1.addNode node newNode).g.Nodes := by
            simp [St.addNode]
          obtain ⟨p1, -, -⟩ := hrec _ _ _ hmem hrr
          obtain ⟨q1, q2⟩ := hfull _ _ _ hmem hrr
          have hfor : FullFor (acc.1.addNode node newNode).g node D := by
            refine ⟨⟨newNode, hmem, hNew⟩, ?_⟩
            intro i2 hi2 hname
            simp only [St.addNode, List.mem_append, List.mem_singleton] at hi2
            rcases hi2 with h1 | h1
            · exact absurd hname (habs i2 h1)
            · subst h1
              simp [St.addNode, goIndex_goAppend_self]
          refine ⟨p1.fullFor hfor, ?_⟩
          intro m hm
          rcases q2 m hm with h1 | h1
          · simp only [St.addNode, List.mem_append, List.mem_singleton] at h1
            rcases h1 with h1 | h1
            · exact Or.inl h1
            · right; rw [h1]; exact q1
          · exact Or.inr h1
      · rw [processConnectionsStep_shortID E heap recur node allow acc D hnil hallow
          (Nat.lt_of_not_le hlen)] at h
        cases h

theorem processConnections_full (E : Entropy) (heap : Heap) (appGraph : Graph)
    (recur : St → Node → Except Fault (St × List Node)) (node : Node) (allow : LocMap)
    (hrec : ∀ s n r, n ∈ s.g.Nodes → recur s n = .ok r → NodePost E heap appGraph allow s n r.1)
    (hfull : ∀ s n r, n ∈ s.g.Nodes → recur s n = .ok r →
      FullyCovered appGraph r.1.g n ∧
        ∀ m ∈ r.1.g.Nodes, m ∈ s.g.Nodes ∨ FullyCovered appGraph r.1.g m)
    (connections : List String) (hl : goLookup appGraph.Edges node.Name = some connections)
    (todo : List String) (htodo : todo ⊆ connections)
    (acc : St × List Node) (hnode : node ∈ acc.1.g.Nodes) (r : St × List Node)
    (h : todo.foldlM (processConnectionsStep E heap recur node allow) acc = .ok r) :
    (∀ D ∈ todo, FullFor r.1.g node D) ∧
      ∀ m ∈ r.1.g.Nodes, m ∈ acc.1.g.Nodes ∨ FullyCovered appGraph r.1.g m := by
  induction todo generalizing acc with
  | nil =>
    simp only [List.foldlM_nil, pure, Except.pure] at h
    cases h
    exact ⟨by simp, fun m hm => Or.inl hm⟩
  | cons D rest ih =>
    rw [List.foldlM_cons] at h
    cases h1 : processConnectionsStep E heap recur node allow acc D with
    | error e => rw [h1] at h; cases h
    | ok acc1 =>
      rw [h1] at h
      have hD : D ∈ connections := htodo (List.mem_cons_self _ _)
      have hrest : rest ⊆ connections := fun x hx => htodo (List.mem_cons_of_mem _ hx)
      obtain ⟨a1, -, -⟩ :=
        processConnectionsStep_post E heap appGraph recur node allow hrec connections hl D hD
          acc hnode acc1 h1
      obtain ⟨f1, f2⟩ :=
        processConnectionsStep_full E heap appGraph recur node allow hrec hfull connections hl
          D hD acc hnode acc1 h1
      obtain ⟨b1, -, -⟩ :=
        processConnections_post E heap appGraph recur node allow hrec connections hl rest hrest
          acc1 (a1.mem_nodes hnode) r h
      obtain ⟨g1, g2⟩ := ih hrest acc1 (a1.mem_nodes hnode) h
      refine ⟨?_, ?_⟩
      · intro T2 hT2
        rcases List.mem_cons.1 hT2 with rfl | hT2
        · exact b1.fullFor f1
        · exact g1 T2 hT2
      · intro m hm
        rcases g2 m hm with h2 | h2
        · rcases f2 m h2 with h3 | h3
          · exact Or.inl h3
          · exact Or.inr (b1.fullyCovered h3)
        · exact Or.inr h2

theorem processNode_full (E : Entropy) (heap : Heap) (appGraph : Graph) (allow : LocMap)
    (fuel : Nat) (st : St) (node : Node) (r : St × List Node) (hnode : node ∈ st.g.Nodes)
    (h : processNode E heap appGraph allow fuel st node = .ok r) :
    FullyCovered appGraph r.1.g node ∧
      ∀ m ∈ r.1.g.Nodes, m ∈ st.g.Nodes ∨ FullyCovered appGraph r.1.g m := by
  induction fuel generalizing st node r with
  | zero => simp [processNode] at h
  | succ fuel ih =>
    unfold processNode at h
    by_cases hlen : goLen node.ID < 14
    · simp [hlen] at h
    · simp only [hlen, if_false] at h
      cases hl : goLookup appGraph.Edges node.Name with
      | none =>
        rw [hl] at h
        simp only at h
        have hr : r = (checkSources st appGraph node, []) := (Except.ok.inj h).symm
        subst hr
        obtain ⟨-, c2, -, -⟩ := checkSources_spec E heap appGraph allow node hl st hnode
        refine ⟨?_, ?_⟩
        · intro connections hc
          rw [hl] at hc
          cases hc
        · intro m hm
          left
          have : m ∈ (checkSources st appGraph node).g.Nodes := hm
          rw [c2] at this
          exact this
      | some connections =>
        rw [hl] at h
        simp only at h
        obtain ⟨a1, a2⟩ :=
          processConnections_full E heap appGraph _ node allow
            (fun s n r hn hr => processNode_post E heap appGraph allow fuel s n r hn hr)
            (fun s n r hn hr => ih s n r hn hr) connections hl connections
            (List.Subset.refl _) (st, []) hnode r h
        refine ⟨?_, a2⟩
        intro connections' hc D hD
        rw [hl] at hc
        cases hc
        exact a1 D hD

theorem GeneratePEAGraph_loop_full (E : Entropy) (heap : Heap) (appGraph : Graph)
    (allow : LocMap) (fuel : Nat) (todo : List Node) (acc st' : St)
    (htodo : todo ⊆ acc.g.Nodes)
    (hinv : ∀ m ∈ acc.g.Nodes, m ∈ todo ∨ FullyCovered appGraph acc.g m)
    (h : todo.foldlM
      (fun st node => do
        let r ← processNode E heap appGraph allow fuel st node
        pure r.1) acc = .ok st') :
    ∀ m ∈ st'.g.Nodes, FullyCovered appGraph st'.g m := by
  induction todo generalizing acc with
  | nil =>
    simp only [List.foldlM_nil, pure, Except.pure] at h
    cases h
    exact fun m hm => (hinv m hm).resolve_left (by simp)
  | cons n rest ih =>
    rw [List.foldlM_cons] at h
    cases h1 : processNode E heap appGraph allow fuel acc n with
    | error e => simp [h1, bind, Except.bind] at h
    | ok r =>
      simp only [h1, bind, Except.bind, pure, Except.pure] at h
      have hn : n ∈ acc.g.Nodes := htodo (List.mem_cons_self _ _)
      obtain ⟨p1, -, -⟩ := processNode_post E heap appGraph allow fuel acc n r hn h1
      obtain ⟨f1, f2⟩ := processNode_full E heap appGraph allow fuel acc n r hn h1
      have hrest : rest ⊆ r.1.g.Nodes :=
        fun x hx => p1.mem_nodes (htodo (List.mem_cons_of_mem _ hx))
      have hinv' : ∀ m ∈ r.1.g.Nodes, m ∈ rest ∨ FullyCovered appGraph r.1.g m := by
        intro m hm
        rcases f2 m hm with h2 | h2
        · rcases hinv m h2 with h3 | h3
          · rcases List.mem_cons.1 h3 with rfl | h3
            · exact Or.inr f1
            · exact Or.inl h3
          · exact Or.inr (p1.fullyCovered h3)
        · exact Or.inr h2
      exact ih r.1 hrest hinv' h

theorem GeneratePEAGraph_full (E : Entropy) (heap : Heap) (appGraph : Graph)
    (allow : LocMap) (st st' : St)
    (h : GeneratePEAGraph E heap st appGraph allow = .ok st') :
    ∀ m ∈ st'.g.Nodes, FullyCovered appGraph st'.g m :=
  GeneratePEAGraph_loop_full E heap appGraph allow (recursionBudget appGraph) st.g.Nodes st st'
    (List.Subset.refl _) (fun _ hm => Or.inl hm) h


/-! ## Independence of the enumeration order -/

theorem checkSources_inner_eq (node : Node) (key : String) (srcs : List Node) (st : St) :
    srcs.foldl
        (fun st srcNode =>
          if srcNode.Name = key then
            { st with g := { st.g with Edges := goAppend st.g.Edges srcNode.ID node.ID } }
          else st) st =
      st.withEdges
        (((srcs.filter (fun srcNode => decide (srcNode.Name = key))).map
          (fun srcNode => srcNode.ID)).foldl (fun m k => goAppend m k node.ID) st.g.Edges) := by
  induction srcs generalizing st with
  | nil => rfl
  | cons s rest ih =>
    simp only [List.foldl_cons]
    by_cases hname : s.Name = key
    · simp only [hname, if_true, List.filter_cons, decide_True, List.map_cons, List.foldl_cons]
      rw [ih]
      rfl
    · simp only [hname, if_false, List.filter_cons, decide_False]
      rw [ih]
      rfl

theorem checkSources_middle_eq (node : Node) (entry : String × List String)
    (dests : List String) (st : St) :
    dests.foldl
        (fun st destNodeName =>
          if destNodeName = node.Name then
            st.g.Nodes.foldl
              (fun st srcNode =>
                if srcNode.Name = entry.1 then
                  { st with g := { st.g with Edges := goAppend st.g.Edges srcNode.ID node.ID } }
                else st) st
          else st) st =
      st.withEdges
        ((dests.flatMap (fun destNodeName =>
          if destNodeName = node.Name then
            (st.g.Nodes.filter (fun srcNode => decide (srcNode.Name = entry.1))).map
              (fun srcNode => srcNode.ID)
          else [])).foldl (fun m k => goAppend m k node.ID) st.g.Edges) := by
  induction dests generalizing st with
  | nil => rfl
  | cons d rest ih =>
    simp only [List.foldl_cons, List.flatMap_cons, List.foldl_append]
    by_cases hd : d = node.Name
    · simp only [hd, if_true]
      rw [checkSources_inner_eq, ih]
      rfl
    · simp only [hd, if_false, List.foldl_nil]
      rw [ih]

theorem checkSources_eq (st : St) (appGraph : Graph) (node : Node) :
    checkSources st appGraph node =
      st.withEdges ((backwardKeys appGraph.Edges st.g.Nodes node).foldl
        (fun m k => goAppend m k node.ID) st.g.Edges) := by
  unfold checkSources backwardKeys
  generalize appGraph.Edges = entries
  induction entries generalizing st with
  | nil => rfl
  | cons e rest ih =>
    simp only [List.foldl_cons, List.flatMap_cons, List.foldl_append]
    rw [checkSources_middle_eq, ih]
    rfl

theorem goIndex_foldl_goAppend (keys : List String) (v : String) (m : EdgeMap) (id : String) :
    goIndex (keys.foldl (fun m k => goAppend m k v) m) id =
      goIndex m id ++ List.replicate (keys.count id) v := by
  induction keys generalizing m with
  | nil => simp
  | cons k rest ih =>
    simp only [List.foldl_cons]
    rw [ih, goIndex_goAppend]
    by_cases hk : id = k
    · subst hk
      simp [List.count_cons_self, List.replicate_succ]
    · have hk' : ¬ k = id := fun e => hk e.symm
      simp [hk, List.count_cons, hk']

theorem checkSources_sameGraph (appGraph : Graph) (entries1 entries2 : EdgeMap)
    (hperm : entries1.Perm entries2) (node : Node) (s1 s2 : St) (h : SameGraph s1 s2) :
    SameGraph (checkSources s1 { appGraph with Edges := entries1 } node)
      (checkSources s2 { appGraph with Edges := entries2 } node) := by
  obtain ⟨hn, he, hu, hr⟩ := h
  rw [checkSources_eq, checkSources_eq]
  refine ⟨hn, ?_, hu, hr⟩
  intro id
  show goIndex (List.foldl _ s1.g.Edges (backwardKeys entries1 s1.g.Nodes node)) id =
    goIndex (List.foldl _ s2.g.Edges (backwardKeys entries2 s2.g.Nodes node)) id
  rw [goIndex_foldl_goAppend, goIndex_foldl_goAppend, he id, hn]
  have hp : (backwardKeys entries1 s2.g.Nodes node).Perm (backwardKeys entries2 s2.g.Nodes node) :=
    List.Perm.flatMap_right _ hperm
  rw [hp.count_eq]

theorem SameGraph.refl (s : St) : SameGraph s s := ⟨rfl, fun _ => rfl, rfl, rfl⟩

theorem SameGraph.addEdge {s1 s2 : St} (h : SameGraph s1 s2) (u v : String) :
    SameGraph (s1.addEdge u v) (s2.addEdge u v) := by
  obtain ⟨hn, he, hu, hr⟩ := h
  refine ⟨hn, ?_, hu, hr⟩
  intro id
  simp only [St.addEdge, goIndex_goAppend, he]

theorem SameGraph.addNode {s1 s2 : St} (h : SameGraph s1 s2) (node newNode : Node) :
    SameGraph (s1.addNode node newNode) (s2.addNode node newNode) := by
  obtain ⟨hn, he, hu, hr⟩ := h
  refine ⟨by simp [St.addNode, hn], ?_, by simp [St.addNode, hu], by simp [St.addNode, hr]⟩
  intro id
  simp only [St.addNode, goIndex_goAppend, he]

theorem processExistingNodeStep_same (node : Node) (idx : Nat) (s1 s2 : St)
    (h : SameGraph s1 s2) :
    SameOutcome (processExistingNodeStep node s1 idx) (processExistingNodeStep node s2 idx) := by
  cases hc : s1.g.Nodes[idx]? with
  | none =>
    have hc2 : s2.g.Nodes[idx]? = none := by rw [← h.1]; exact hc
    unfold processExistingNodeStep
    rw [hc, hc2]
    exact rfl
  | some c =>
    have hc2 : s2.g.Nodes[idx]? = some c := by rw [← h.1]; exact hc
    rw [processExistingNodeStep_eq node s1 idx c hc, processExistingNodeStep_eq node s2 idx c hc2]
    by_cases hmem : c.ID ∈ goIndex s1.g.Edges node.ID
    · have hmem2 : c.ID ∈ goIndex s2.g.Edges node.ID := by rw [← h.2.1]; exact hmem
      rw [if_pos hmem, if_pos hmem2]
      exact h
    · have hmem2 : c.ID ∉ goIndex s2.g.Edges node.ID := by rw [← h.2.1]; exact hmem
      rw [if_neg hmem, if_neg hmem2]
      exact h.addEdge _ _

theorem processExistingNode_same (node : Node) (idxs : List Nat) (s1 s2 : St)
    (h : SameGraph s1 s2) :
    SameOutcome (processExistingNode s1 node idxs) (processExistingNode s2 node idxs) := by
  unfold processExistingNode
  induction idxs generalizing s1 s2 with
  | nil => exact h
  | cons idx rest ih =>
    have hstep := processExistingNodeStep_same node idx s1 s2 h
    rw [List.foldlM_cons, List.foldlM_cons]
    cases h1 : processExistingNodeStep node s1 idx with
    | error e1 =>
      cases h2 : processExistingNodeStep node s2 idx with
      | error e2 =>
        rw [h1, h2] at hstep
        exact hstep
      | ok t2 =>
        rw [h1, h2] at hstep
        exact hstep.elim
    | ok t1 =>
      cases h2 : processExistingNodeStep node s2 idx with
      | error e2 =>
        rw [h1, h2] at hstep
        exact hstep.elim
      | ok t2 =>
        rw [h1, h2] at hstep
        exact ih t1 t2 hstep


theorem pickedLocation_same (E : Entropy) (allow : LocMap) (s1 s2 : St) (D : String)
    (h : SameGraph s1 s2) : pickedLocation E allow s1 D = pickedLocation E allow s2 D := by
  unfold pickedLocation
  rw [h.2.2.2]

theorem SameResult.map_added {r1 r2 : Except Fault (St × List Node)} (h : SameResult r1 r2)
    (f : List Node → List Node) :
    SameResult (r1.map (fun r => (r.1, f r.2))) (r2.map (fun r => (r.1, f r.2))) := by
  cases r1 with
  | error e1 =>
    cases r2 with
    | error e2 => exact h
    | ok a2 => exact h.elim
  | ok a1 =>
    cases r2 with
    | error e2 => exact h.elim
    | ok a2 => exact ⟨h.1, congrArg f h.2⟩

theorem processConnectionsStep_same (E : Entropy) (heap : Heap)
    (recur1 recur2 : St → Node → Except Fault (St × List Node)) (node : Node) (allow : LocMap)
    (hrec : ∀ s1 s2 n, SameGraph s1 s2 → SameResult (recur1 s1 n) (recur2 s2 n))
    (D : String) (acc1 acc2 : St × List Node)
    (hst : SameGraph acc1.1 acc2.1) (hadded : acc1.2 = acc2.2) :
    SameResult (processConnectionsStep E heap recur1 node allow acc1 D)
      (processConnectionsStep E heap recur2 node allow acc2 D) := by
  have hnodes : acc1.1.g.Nodes = acc2.1.g.Nodes := hst.1
  by_cases hpos : (containsNode acc1.1.g.Nodes D).length > 0
  · have hpos2 : (containsNode acc2.1.g.Nodes D).length > 0 := by rw [← hnodes]; exact hpos
    rw [processConnectionsStep_existing E heap recur1 node allow acc1 D hpos,
      processConnectionsStep_existing E heap recur2 node allow acc2 D hpos2, ← hnodes, ← hadded]
    have hex := processExistingNode_same node (containsNode acc1.1.g.Nodes D) acc1.1 acc2.1 hst
    cases h1 : processExistingNode acc1.1 node (containsNode acc1.1.g.Nodes D) with
    | error e1 =>
      cases h2 : processExistingNode acc2.1 node (containsNode acc1.1.g.Nodes D) with
      | error e2 => rw [h1, h2] at hex; exact hex
      | ok t2 => rw [h1, h2] at hex; exact hex.elim
    | ok t1 =>
      cases h2 : processExistingNode acc2.1 node (containsNode acc1.1.g.Nodes D) with
      | error e2 => rw [h1, h2] at hex; exact hex.elim
      | ok t2 => rw [h1, h2] at hex; exact ⟨hex, rfl⟩
  · have hnil : containsNode acc1.1.g.Nodes D = [] := by
      cases hc : containsNode acc1.1.g.Nodes D with
      | nil => rfl
      | cons a l => simp [hc] at hpos
    have hnil2 : containsNode acc2.1.g.Nodes D = [] := by rw [← hnodes]; exact hnil
    by_cases hallow : goIndex allow D = []
    · rw [processConnectionsStep_noLocation E heap recur1 node allow acc1 D hnil hallow,
        processConnectionsStep_noLocation E heap recur2 node allow acc2 D hnil2 hallow]
      exact rfl
    · have hpick := pickedLocation_same E allow acc1.1 acc2.1 D hst
      have hu : acc1.1.uuids = acc2.1.uuids := hst.2.2.1
      by_cases hlen : 14 ≤ goLen (createInstance heap (E.uuid acc1.1.uuids) D
          (pickedLocation E allow acc1.1 D)).ID
      · have hlen2 : 14 ≤ goLen (createInstance heap (E.uuid acc2.1.uuids) D
            (pickedLocation E allow acc2.1 D)).ID := by rw [← hu, ← hpick]; exact hlen
        rw [processConnectionsStep_create E heap recur1 node allow acc1 D hnil hallow hlen,
          processConnectionsStep_create E heap recur2 node allow acc2 D hnil2 hallow hlen2,
          ← hu, ← hpick, ← hadded]
        exact (hrec _ _ _ (hst.addNode node _)).map_added
          (fun _ => acc1.2 ++ [createInstance heap (E.uuid acc1.1.uuids) D
            (pickedLocation E allow acc1.1 D)])
      · have hlen2 : ¬ 14 ≤ goLen (createInstance heap (E.uuid acc2.1.uuids) D
            (pickedLocation E allow acc2.1 D)).ID := by rw [← hu, ← hpick]; exact hlen
        rw [processConnectionsStep_shortID E heap recur1 node allow acc1 D hnil hallow
            (Nat.lt_of_not_le hlen),
          processConnectionsStep_shortID E heap recur2 node allow acc2 D hnil2 hallow
            (Nat.lt_of_not_le hlen2)]
        exact rfl

theorem processConnections_same (E : Entropy) (heap : Heap)
    (recur1 recur2 : St → Node → Except Fault (St × List Node)) (node : Node) (allow : LocMap)
    (hrec : ∀ s1 s2 n, SameGraph s1 s2 → SameResult (recur1 s1 n) (recur2 s2 n))
    (todo : List String) (acc1 acc2 : St × List Node)
    (hst : SameGraph acc1.1 acc2.1) (hadded : acc1.2 = acc2.2) :
    SameResult (todo.foldlM (processConnectionsStep E heap recur1 node allow) acc1)
      (todo.foldlM (processConnectionsStep E heap recur2 node allow) acc2) := by
  induction todo generalizing acc1 acc2 with
  | nil => exact ⟨hst, hadded⟩
  | cons D rest ih =>
    have hstep := processConnectionsStep_same E heap recur1 recur2 node allow hrec D acc1 acc2
      hst hadded
    rw [List.foldlM_cons, List.foldlM_cons]
    cases h1 : processConnectionsStep E heap recur1 node allow acc1 D with
    | error e1 =>
      cases h2 : processConnectionsStep E heap recur2 node allow acc2 D with
      | error e2 => rw [h1, h2] at hstep; exact hstep
      | ok t2 => rw [h1, h2] at hstep; exact hstep.elim
    | ok t1 =>
      cases h2 : processConnectionsStep E heap recur2 node allow acc2 D with
      | error e2 => rw [h1, h2] at hstep; exact hstep.elim
      | ok t2 =>
        rw [h1, h2] at hstep
        exact ih t1 t2 hstep.1 hstep.2

theorem processNodeWith_same (E : Entropy) (heap : Heap) (appGraph : Graph) (allow : LocMap)
    (enum1 enum2 : St → Node → EdgeMap)
    (h1 : ∀ s n, (enum1 s n).Perm appGraph.Edges)
    (h2 : ∀ s n, (enum2 s n).Perm appGraph.Edges)
    (fuel : Nat) (s1 s2 : St) (node : Node) (h : SameGraph s1 s2) :
    SameResult (processNodeWith enum1 E heap appGraph allow fuel s1 node)
      (processNodeWith enum2 E heap appGraph allow fuel s2 node) := by
  induction fuel generalizing s1 s2 node with
  | zero => exact rfl
  | succ fuel ih =>
    unfold processNodeWith
    by_cases hlen : goLen node.ID < 14
    · simp only [hlen, if_true]
      exact rfl
    · simp only [hlen, if_false]
      cases hl : goLookup appGraph.Edges node.Name with
      | none =>
        exact ⟨checkSources_sameGraph appGraph _ _
          ((h1 s1 node).trans (h2 s2 node).symm) node s1 s2 h, rfl⟩
      | some connections =>
        exact processConnections_same E heap _ _ node allow
          (fun t1 t2 n ht => ih t1 t2 n ht) connections (s1, []) (s2, []) h rfl

theorem GeneratePEAGraphWith_same (E : Entropy) (heap : Heap) (appGraph : Graph)
    (allow : LocMap) (enum1 enum2 : St → Node → EdgeMap)
    (h1 : ∀ s n, (enum1 s n).Perm appGraph.Edges)
    (h2 : ∀ s n, (enum2 s n).Perm appGraph.Edges) (st : St) :
    SameOutcome (GeneratePEAGraphWith enum1 E heap st appGraph allow)
      (GeneratePEAGraphWith enum2 E heap st appGraph allow) := by
  unfold GeneratePEAGraphWith
  have key : ∀ (todo : List Node) (s1 s2 : St), SameGraph s1 s2 →
      SameOutcome
        (todo.foldlM
          (fun st node => do
            let r ← processNodeWith enum1 E heap appGraph allow (recursionBudget appGraph) st node
            pure r.1) s1)
        (todo.foldlM
          (fun st node => do
            let r ← processNodeWith enum2 E heap appGraph allow (recursionBudget appGraph) st node
            pure r.1) s2) := by
    intro todo
    induction todo with
    | nil => intro s1 s2 h; exact h
    | cons n rest ih =>
      intro s1 s2 h
      have hstep := processNodeWith_same E heap appGraph allow enum1 enum2 h1 h2
        (recursionBudget appGraph) s1 s2 n h
      rw [List.foldlM_cons, List.foldlM_cons]
      cases hr1 : processNodeWith enum1 E heap appGraph allow (recursionBudget appGraph) s1 n with
      | error e1 =>
        cases hr2 : processNodeWith enum2 E heap appGraph allow (recursionBudget appGraph) s2 n with
        | error e2 => rw [hr1, hr2] at hstep; exact hstep
        | ok t2 => rw [hr1, hr2] at hstep; exact hstep.elim
      | ok t1 =>
        cases hr2 : processNodeWith enum2 E heap appGraph allow (recursionBudget appGraph) s2 n with
        | error e2 => rw [hr1, hr2] at hstep; exact hstep.elim
        | ok t2 =>
          rw [hr1, hr2] at hstep
          simp only [bind, Except.bind, pure, Except.pure]
          exact ih t1.1 t2.1 hstep.1
  exact key st.g.Nodes st st (SameGraph.refl st)

theorem processNodeWith_source (E : Entropy) (heap : Heap) (appGraph : Graph) (allow : LocMap)
    (fuel : Nat) :
    processNodeWith (fun _ _ => appGraph.Edges) E heap appGraph allow fuel =
      processNode E heap appGraph allow fuel := by
  induction fuel with
  | zero => rfl
  | succ fuel ih =>
    funext st node
    unfold processNodeWith processNode
    rw [ih]

theorem GeneratePEAGraphWith_source (E : Entropy) (heap : Heap) (appGraph : Graph)
    (allow : LocMap) (st : St) :
    GeneratePEAGraphWith (fun _ _ => appGraph.Edges) E heap st appGraph allow =
      GeneratePEAGraph E heap st appGraph allow := by
  unfold GeneratePEAGraphWith GeneratePEAGraph
  rw [processNodeWith_source]


/-- C12: creation only when none exists.  A returning run of `GeneratePEAGraph`
is a sequence of elementary mutations, whose creation step requires that the
type has no instance at that moment; hence a type with an instance in the
input graph keeps its number of instances, and a type without one ends with at
most one instance. -/
theorem creation_only_when_absent (E : Entropy) (heap : Heap) (appGraph : Graph)
    (locationAllowlist : LocMap) (st st' : St)
    (h : GeneratePEAGraph E heap st appGraph locationAllowlist = .ok st') :
    Steps E heap appGraph locationAllowlist st st' ∧
    ∀ D, ((∃ n ∈ st.g.Nodes, n.Name = D) → instanceCount st'.g D = instanceCount st.g D) ∧
      (Absent st.g D → instanceCount st'.g D ≤ 1) := by
  obtain ⟨hsteps, -⟩ := GeneratePEAGraph_post E heap appGraph locationAllowlist st st' h
  refine ⟨hsteps, ?_⟩
  obtain ⟨added, hnodes, hnd, hprop, -, -⟩ := hsteps.added
  intro D
  have hcount : instanceCount st'.g D =
      instanceCount st.g D + added.countP (fun n => decide (n.Name = D)) := by
    rw [instanceCount_eq_countP, instanceCount_eq_countP, hnodes, List.countP_append]
  have hone : added.countP (fun n => decide (n.Name = D)) ≤ 1 := by
    rw [countP_name_eq_count]
    exact List.nodup_iff_count_le_one.1 hnd D
  refine ⟨?_, ?_⟩
  · rintro ⟨n, hn, hname⟩
    have hzero : added.countP (fun n => decide (n.Name = D)) = 0 := by
      rw [List.countP_eq_zero]
      intro m hm
      simp only [decide_eq_true_eq]
      intro hmD
      exact (hprop m hm).2.1 n hn (hname.trans hmD.symm)
    omega
  · intro habs
    have hzero : instanceCount st.g D = 0 := by
      rw [instanceCount_eq_countP, List.countP_eq_zero]
      intro m hm
      simp only [decide_eq_true_eq]
      exact habs m hm
    omega

/-- C12, at Scenario A: closure keeps the single Web instance and creates
exactly one DB instance. -/
theorem creation_only_when_absent_scenarioA :
    instanceCount scenarioAEnd.g "Web" = 1 ∧ instanceCount scenarioAEnd.g "DB" ≤ 1 :=
  have h := creation_only_when_absent sampleEntropy sampleHeap webDbTemplate [("DB", [1, 2])]
    scenarioAStart scenarioAEnd rfl
  ⟨((h.2 "Web").1 ⟨webL1, by decide, by decide⟩).trans (by decide),
    (h.2 "DB").2 (by unfold Absent; decide)⟩

/-- C13: allow-list placement.  Every instance that a returning run of
`GeneratePEAGraph` adds to `g.Nodes` has a location that is an element of
`locationAllowlist[instance.Name]`.  And whenever `processConnections` comes to a
dependency type `D` without instance whose allow-list is not empty, then for
every random source the index that `rand.Intn` returns is within the bounds of
`locationAllowlist[D]`: the index expression yields an element of the list, and
the call goes on to create the instance at that location (the only panic left in
the branch is the slice `newNode.ID[:14]` of the log line, for an ID shorter than
14 bytes) and to the recursive call for it. -/
theorem allowlist_placement (E : Entropy) (heap : Heap) (appGraph : Graph)
    (locationAllowlist : LocMap) :
    (∀ st st', GeneratePEAGraph E heap st appGraph locationAllowlist = .ok st' →
      ∃ added, st'.g.Nodes = st.g.Nodes ++ added ∧
        ∀ n ∈ added, n.Location ∈ goIndex locationAllowlist n.Name) ∧
    (∀ (recur : St → Node → Except Fault (St × List Node)) (node : Node)
        (acc : St × List Node) (D : String),
      containsNode acc.1.g.Nodes D = [] → goIndex locationAllowlist D ≠ [] →
      ∃ (i : Nat) (loc : LocRef),
        intn E acc.1.rands (goIndex locationAllowlist D).length = .ok i ∧
        i < (goIndex locationAllowlist D).length ∧
        (goIndex locationAllowlist D)[i]? = some loc ∧
        loc ∈ goIndex locationAllowlist D ∧
        processConnectionsStep E heap recur node locationAllowlist acc D =
          if goLen (createInstance heap (E.uuid acc.1.uuids) D loc).ID < 14 then
            .error .sliceBoundsOutOfRange
          else
            (recur (acc.1.addNode node (createInstance heap (E.uuid acc.1.uuids) D loc))
              (createInstance heap (E.uuid acc.1.uuids) D loc)).map
              (fun r => (r.1, acc.2 ++ [createInstance heap (E.uuid acc.1.uuids) D loc]))) := by
  refine ⟨?_, ?_⟩
  · intro st st' h
    obtain ⟨hsteps, -⟩ := GeneratePEAGraph_post E heap appGraph locationAllowlist st st' h
    obtain ⟨added, hnodes, -, hprop, -, -⟩ := hsteps.added
    exact ⟨added, hnodes, fun n hn => (hprop n hn).2.2⟩
  · intro recur node acc D hnil hne
    have hpos : 0 < (goIndex locationAllowlist D).length := List.length_pos.2 hne
    have hlt : E.rand acc.1.rands % (goIndex locationAllowlist D).length <
        (goIndex locationAllowlist D).length := Nat.mod_lt _ hpos
    have hget : (goIndex locationAllowlist D)[E.rand acc.1.rands %
        (goIndex locationAllowlist D).length]? =
        some (pickedLocation E locationAllowlist acc.1 D) := by
      unfold pickedLocation
      rw [List.getD_eq_getElem?_getD, List.getElem?_eq_getElem hlt]
      rfl
    refine ⟨E.rand acc.1.rands % (goIndex locationAllowlist D).length,
      pickedLocation E locationAllowlist acc.1 D, ?_, hlt, hget,
      pickedLocation_mem E locationAllowlist acc.1 D hne, ?_⟩
    · simp [intn, Nat.pos_iff_ne_zero.1 hpos]
    · by_cases hlen : goLen (createInstance heap (E.uuid acc.1.uuids) D
          (pickedLocation E locationAllowlist acc.1 D)).ID < 14
      · rw [if_pos hlen]
        exact processConnectionsStep_shortID E heap recur node locationAllowlist acc D hnil hne
          hlen
      · rw [if_neg hlen]
        exact processConnectionsStep_create E heap recur node locationAllowlist acc D hnil hne
          (Nat.le_of_not_lt hlen)

/-- C13, at Scenario A: the DB instance that closure adds is at `L1`, an element
of the allow-list `[L1, L2]` of DB; and when `processConnections` comes to DB the
index is within the bounds of that list. -/
theorem allowlist_placement_scenarioA :
    (∃ added, scenarioAEnd.g.Nodes = scenarioAStart.g.Nodes ++ added ∧
      ∀ n ∈ added, n.Location ∈ goIndex ([("DB", [1, 2])] : LocMap) n.Name) ∧
    ∃ (i : Nat) (loc : LocRef),
      intn sampleEntropy scenarioAStart.rands
        (goIndex ([("DB", [1, 2])] : LocMap) "DB").length = .ok i ∧
      i < (goIndex ([("DB", [1, 2])] : LocMap) "DB").length ∧
      (goIndex ([("DB", [1, 2])] : LocMap) "DB")[i]? = some loc ∧
      loc ∈ goIndex ([("DB", [1, 2])] : LocMap) "DB" ∧
      processConnectionsStep sampleEntropy sampleHeap
          (processNode sampleEntropy sampleHeap webDbTemplate [("DB", [1, 2])] 1) webL1
          [("DB", [1, 2])] (scenarioAStart, []) "DB" =
        if goLen (createInstance sampleHeap (sampleEntropy.uuid scenarioAStart.uuids) "DB"
            loc).ID < 14 then
          .error .sliceBoundsOutOfRange
        else
          (processNode sampleEntropy sampleHeap webDbTemplate [("DB", [1, 2])] 1
            (scenarioAStart.addNode webL1
              (createInstance sampleHeap (sampleEntropy.uuid scenarioAStart.uuids) "DB" loc))
            (createInstance sampleHeap (sampleEntropy.uuid scenarioAStart.uuids) "DB" loc)).map
            (fun r => (r.1, ([] : List Node) ++
              [createInstance sampleHeap (sampleEntropy.uuid scenarioAStart.uuids) "DB" loc])) :=
  ⟨(allowlist_placement sampleEntropy sampleHeap webDbTemplate [("DB", [1, 2])]).1
      scenarioAStart scenarioAEnd rfl,
    (allowlist_placement sampleEntropy sampleHeap webDbTemplate [("DB", [1, 2])]).2
      (processNode sampleEntropy sampleHeap webDbTemplate [("DB", [1, 2])] 1) webL1
      (scenarioAStart, []) "DB" (by decide) (by decide)⟩

/-- C14: monotone growth.  After a returning run of `GeneratePEAGraph` the node
list before the call is a prefix of `g.Nodes` (every earlier node is at its
index, with its ID, Name and Location), and for every ID the edge list before
the call is a prefix of the edge list after it. -/
theorem monotone_growth (E : Entropy) (heap : Heap) (appGraph : Graph)
    (locationAllowlist : LocMap) (st st' : St)
    (h : GeneratePEAGraph E heap st appGraph locationAllowlist = .ok st') :
    st.g.Nodes <+: st'.g.Nodes ∧
    (∀ (i : Nat) (n : Node), st.g.Nodes[i]? = some n → st'.g.Nodes[i]? = some n) ∧
    ∀ id, goIndex st.g.Edges id <+: goIndex st'.g.Edges id := by
  obtain ⟨hsteps, -⟩ := GeneratePEAGraph_post E heap appGraph locationAllowlist st st' h
  refine ⟨hsteps.nodes_grow, ?_, hsteps.edges_grow⟩
  intro i n hi
  obtain ⟨t, ht⟩ := hsteps.nodes_grow
  rw [← ht]
  have hlt : i < st.g.Nodes.length := by
    by_contra hge
    rw [List.getElem?_eq_none (Nat.le_of_not_lt hge)] at hi
    cases hi
  rw [List.getElem?_append_left hlt]
  exact hi

/-- C14, at Scenario A. -/
theorem monotone_growth_scenarioA :
    scenarioAStart.g.Nodes <+: scenarioAEnd.g.Nodes ∧
    (∀ (i : Nat) (n : Node), scenarioAStart.g.Nodes[i]? = some n →
      scenarioAEnd.g.Nodes[i]? = some n) ∧
    ∀ id, goIndex scenarioAStart.g.Edges id <+: goIndex scenarioAEnd.g.Edges id :=
  monotone_growth sampleEntropy sampleHeap webDbTemplate [("DB", [1, 2])]
    scenarioAStart scenarioAEnd rfl

/-- C18: termination on every template graph.  For every template graph,
input graph and allow-list the recursion budget is never exhausted: a depth of
one more than the number of distinct dependency types without instance is
enough for `processNode`, whatever the outcome of the call.  In a returning run
every recursive call follows the creation of an instance (one UUID drawn) whose
type is a dependency type without instance in the input graph, these types are
pairwise distinct, and so the number of recursive calls is at most the number
of distinct dependency types without instance in the input graph. -/
theorem recursion_terminates (E : Entropy) (heap : Heap) (appGraph : Graph)
    (locationAllowlist : LocMap) (st : St) :
    (∀ fuel node, node ∈ st.g.Nodes → absentCount appGraph st.g < fuel →
      processNode E heap appGraph locationAllowlist fuel st node ≠ .error .outOfFuel) ∧
    GeneratePEAGraph E heap st appGraph locationAllowlist ≠ .error .outOfFuel ∧
    ∀ st', GeneratePEAGraph E heap st appGraph locationAllowlist = .ok st' →
      ∃ added, st'.g.Nodes = st.g.Nodes ++ added ∧
        (added.map (fun n => n.Name)).Nodup ∧
        (∀ n ∈ added, n.Name ∈ dependencyTypes appGraph ∧ Absent st.g n.Name) ∧
        st'.uuids = st.uuids + added.length ∧
        added.length ≤ absentCount appGraph st.g := by
  refine ⟨?_, GeneratePEAGraph_fuel E heap appGraph locationAllowlist st, ?_⟩
  · intro fuel node hnode hcount
    exact processNode_fuel E heap appGraph locationAllowlist fuel st node hnode hcount
  · intro st' h
    obtain ⟨hsteps, -⟩ := GeneratePEAGraph_post E heap appGraph locationAllowlist st st' h
    obtain ⟨added, hnodes, hnd, hprop, hu, -⟩ := hsteps.added
    exact ⟨added, hnodes, hnd, fun n hn => ⟨(hprop n hn).1, (hprop n hn).2.1⟩, hu,
      added_length_le appGraph st.g added hnd
        (fun n hn => ⟨(hprop n hn).1, (hprop n hn).2.1⟩)⟩

/-- C18, at the cyclic template of Scenario C: one recursive call, for the one
dependency type (B) that has no instance in the initial graph. -/
theorem recursion_terminates_scenarioC :
    absentCount cyclicTemplate scenarioCStart.g = 1 ∧
    ∃ added, scenarioCEnd.g.Nodes = scenarioCStart.g.Nodes ++ added ∧
      (added.map (fun n => n.Name)).Nodup ∧
      (∀ n ∈ added, n.Name ∈ dependencyTypes cyclicTemplate ∧
        Absent scenarioCStart.g n.Name) ∧
      scenarioCEnd.uuids = scenarioCStart.uuids + added.length ∧
      added.length ≤ absentCount cyclicTemplate scenarioCStart.g :=
  ⟨by decide,
    (recursion_terminates sampleEntropy sampleHeap cyclicTemplate [("B", [1])]
      scenarioCStart).2.2 scenarioCEnd rfl⟩


/-- C11: instance edges follow template edges.  In every graph returned by the
pipeline `GenerateInitialPEAGraph`, `GeneratePEAGraph` (template adjacency map
with one entry per key, UUIDs of the run pairwise distinct and of one length),
every edge `i -> j` joins instances whose types are adjacent in the template:
`j.Name` occurs in `appGraph.Edges[i.Name]`. -/
theorem edges_follow_template (E : Entropy) (heap : Heap) (template : Graph)
    (locationReqList locationAllowlist : LocMap) (st : St)
    (hkeys : (template.Edges.map Prod.fst).Nodup)
    (h : run E heap template locationReqList locationAllowlist = .ok st)
    (hfresh : E.FreshUpTo st.uuids) :
    ∀ i ∈ st.g.Nodes, ∀ j ∈ st.g.Nodes, j.ID ∈ goIndex st.g.Edges i.ID →
      j.Name ∈ goIndex template.Edges i.Name := by
  obtain ⟨hsteps, -⟩ := GeneratePEAGraph_post E heap template locationAllowlist _ st h
  have hfollow : EdgesFollowTemplate template st.g :=
    Steps.invariant (fun s => EdgesFollowTemplate template s.g)
      (fun _ _ ha hs => hs.one_followTemplate hkeys ha) hsteps
      (initial_followTemplate E heap template locationReqList)
  have hnd := (run_freshIDs E heap template locationReqList locationAllowlist st h hfresh).1
  intro i hi j hj hedge
  obtain ⟨i', hi', j', hj', e1, e2, hadj⟩ := hfollow i.ID j.ID hedge
  rw [eq_of_id_eq st.g.Nodes hnd i' i hi' hi e1, eq_of_id_eq st.g.Nodes hnd j' j hj' hj e2]
    at hadj
  exact hadj

/-- C11, at the scenarios: in Scenario D there is no edge between the Auth and
the Cache instance, and in Scenario A there is no edge from DB to Web. -/
theorem edges_follow_template_scenarios :
    cacheL1.ID ∉ goIndex scenarioDEnd.g.Edges authL1.ID ∧
    authL1.ID ∉ goIndex scenarioDEnd.g.Edges cacheL1.ID ∧
    webL1.ID ∉ goIndex scenarioAEnd.g.Edges dbL1.ID := by
  have hD := edges_follow_template sampleEntropy sampleHeap gatewayTemplate [("Gateway", [1])]
    [("Auth", [1]), ("Cache", [1])] scenarioDEnd (by decide) rfl sampleEntropy_fresh
  have hA := edges_follow_template sampleEntropy sampleHeap webDbTemplate [("Web", [1])]
    [("DB", [1, 2])] scenarioAEnd (by decide) rfl
    (fun j k hj hk => sampleEntropy_fresh j k
      (Nat.lt_trans (show j < 2 from hj) (by decide))
      (Nat.lt_trans (show k < 2 from hk) (by decide)))
  refine ⟨?_, ?_, ?_⟩
  · intro hedge
    exact absurd (hD authL1 (by decide) cacheL1 (by decide) hedge) (by decide)
  · intro hedge
    exact absurd (hD cacheL1 (by decide) authL1 (by decide) hedge) (by decide)
  · intro hedge
    exact absurd (hA dbL1 (by decide) webL1 (by decide) hedge) (by decide)


/-- C15 (code at the failing input): for the template `Web -> DB, DB` (the
dependency DB listed twice) and the instance list `[Web, DB]` with distinct IDs,
the edge list that `addEdges` makes for Web holds the ID of DB twice: the loop
over the adjacency list appends once for each occurrence of the type name. -/
theorem addEdges_repeats_edge :
    ([webL1, dbL1].map (fun n => n.ID)).Nodup ∧
    addEdges repeatedDependencyTemplate [webL1, dbL1] = [(webL1.ID, [dbL1.ID, dbL1.ID])] ∧
    (goIndex (addEdges repeatedDependencyTemplate [webL1, dbL1]) webL1.ID).count dbL1.ID = 2 :=
  ⟨by decide, by decide, by decide⟩

/-- C16 (code at the failing input): in Scenario A the DB instance that closure
creates is at location `L1`, but the `Nodes` list of `L1` after the run holds
the Web instance only: `processConnections` does not append the new instance to
`loc.Nodes`, as `createInstances` does. -/
theorem closure_instance_not_owned :
    GeneratePEAGraph sampleEntropy
        (GenerateInitialPEAGraph sampleEntropy sampleHeap webDbTemplate [("Web", [1])]).2
        (GenerateInitialPEAGraph sampleEntropy sampleHeap webDbTemplate [("Web", [1])]).1
        webDbTemplate [("DB", [1, 2])] = .ok scenarioAEnd ∧
    dbL1 ∈ scenarioAEnd.g.Nodes ∧ dbL1.Location = 1 ∧
    ((GenerateInitialPEAGraph sampleEntropy sampleHeap webDbTemplate [("Web", [1])]).2 1).Nodes =
      [webL1] ∧
    dbL1 ∉
      ((GenerateInitialPEAGraph sampleEntropy sampleHeap webDbTemplate [("Web", [1])]).2 1).Nodes :=
  ⟨rfl, by decide, rfl, by decide, by decide⟩

/-- C20 (code at the failing input): for the type name `auth_service` and the
location `L1`, `getLocationLable` returns `service`, not the location `L1` that
the ID was built from: `generateUniqueID` writes the type name unescaped, and
`getLocationLable` takes the third `_`-separated field of the ID. -/
theorem location_label_fails_on_underscore :
    getLocationLable
        (generateUniqueID "00000000-0000-4000-8000-000000000000" "auth_service" "L1") =
      "service" ∧
    getLocationLable
        (generateUniqueID "00000000-0000-4000-8000-000000000000" "auth_service" "L1") ≠
      "L1" :=
  ⟨by decide, by decide⟩

/-- The location label is recovered when the fields are not shifted: for every
uuid string, every type name that is not empty and has no `_`, and every
location name that is not empty and has no `_`,
`getLocationLable(generateUniqueID(uuid, name, loc)) = loc`. -/
theorem location_label_round_trip (uuid name loc : String)
    (hname : name ≠ "") (hnameSep : '_' ∉ name.data)
    (hloc : loc ≠ "") (hlocSep : '_' ∉ loc.data) :
    getLocationLable (generateUniqueID uuid name loc) = loc := by
  have hdata : (generateUniqueID uuid name loc).data =
      ['o', 'b', 'j'] ++ '_' :: (name.data ++ '_' :: (loc.data ++ '_' :: uuid.data)) := by
    unfold generateUniqueID
    simp [hname, hloc]
  have hobj : '_' ∉ ['o', 'b', 'j'] := by decide
  have hsplit : splitChars '_' (generateUniqueID uuid name loc).data =
      ['o', 'b', 'j'] :: name.data :: loc.data :: splitChars '_' uuid.data := by
    rw [hdata, splitChars_append_sep _ _ _ hobj, splitChars_append_sep _ _ _ hnameSep,
      splitChars_append_sep _ _ _ hlocSep]
  unfold getLocationLable goSplit
  simp only [hsplit, List.map_cons, List.length_cons, List.getD_cons_succ, List.getD_cons_zero]
  simp

/-- The location label of the Web instance of Scenario A is `L1`. -/
theorem location_label_round_trip_web :
    getLocationLable webL1.ID = "L1" :=
  location_label_round_trip "00000000-0000-4000-8000-000000000000" "Web" "L1"
    (by decide) (by decide) (by decide) (by decide)


/-- C19: complete coverage.  In every graph returned by the pipeline
`GenerateInitialPEAGraph`, `GeneratePEAGraph`, for every template edge
`T1 -> T2`, every instance `i1` named `T1` and every instance `i2` named `T2`
with a different ID, `i2.ID` occurs in `g.Edges[i1.ID]`.  Moreover, once
`processNode` has returned for a source, in every later state of the closure
each instance of a dependency type of the source already has its ID in the edge
list of the source, so that an edge appended from this source by `checkSources`
is a duplicate. -/
theorem complete_coverage (E : Entropy) (heap : Heap) (template : Graph)
    (locationAllowlist : LocMap) :
    (∀ locationReqList st,
      run E heap template locationReqList locationAllowlist = .ok st →
      ∀ T1 T2, T2 ∈ goIndex template.Edges T1 →
        ∀ i1 ∈ st.g.Nodes, i1.Name = T1 → ∀ i2 ∈ st.g.Nodes, i2.Name = T2 →
          i1.ID ≠ i2.ID → i2.ID ∈ goIndex st.g.Edges i1.ID) ∧
    (∀ fuel st0 src r st1, src ∈ st0.g.Nodes →
      processNode E heap template locationAllowlist fuel st0 src = .ok r →
      Steps E heap template locationAllowlist r.1 st1 →
      ∀ node ∈ st1.g.Nodes, node.Name ∈ goIndex template.Edges src.Name →
        node.ID ∈ goIndex st1.g.Edges src.ID) := by
  refine ⟨?_, ?_⟩
  · intro req st h T1 T2 hT i1 hi1 hn1 i2 hi2 hn2 _
    obtain ⟨connections, hl, hmem⟩ := mem_goIndex _ _ _ hT
    have hfull := GeneratePEAGraph_full E heap template locationAllowlist _ st h i1 hi1
    exact (hfull connections (by rw [hn1]; exact hl) T2 hmem).2 i2 hi2 hn2
  · intro fuel st0 src r st1 hsrc hr hsteps node hnode hadj
    obtain ⟨connections, hl, hmem⟩ := mem_goIndex _ _ _ hadj
    have hfull := (processNode_full E heap template locationAllowlist fuel st0 src r hsrc hr).1
    exact ((hsteps.fullyCovered hfull) connections hl node.Name hmem).2 node hnode rfl

/-- C19, at Scenario D: the Gateway instance has an edge to the Auth and to the
Cache instance. -/
theorem complete_coverage_scenarioD :
    authL1.ID ∈ goIndex scenarioDEnd.g.Edges gatewayL1.ID ∧
    cacheL1.ID ∈ goIndex scenarioDEnd.g.Edges gatewayL1.ID :=
  have h := (complete_coverage sampleEntropy sampleHeap gatewayTemplate
    [("Auth", [1]), ("Cache", [1])]).1 [("Gateway", [1])] scenarioDEnd rfl
  ⟨h "Gateway" "Auth" (by decide) gatewayL1 (by decide) rfl authL1 (by decide) rfl (by decide),
    h "Gateway" "Cache" (by decide) gatewayL1 (by decide) rfl cacheL1 (by decide) rfl
      (by decide)⟩


/-- C17: determinism apart from the location choice.  For a fixed template
graph, input graph, allow-list and entropy source, two runs of `GeneratePEAGraph`
that differ only in the order in which each call of `checkSources` enumerates the
entries of `appGraph.Edges` end alike: with the same panic, or with the same
`g.Nodes` and the same edge list for every ID (order inside the list included).
The run of the source model is the one that enumerates in list order. -/
theorem closure_independent_of_enumeration (E : Entropy) (heap : Heap) (appGraph : Graph)
    (locationAllowlist : LocMap) (st : St) (enum1 enum2 : St → Node → EdgeMap)
    (h1 : ∀ s n, (enum1 s n).Perm appGraph.Edges)
    (h2 : ∀ s n, (enum2 s n).Perm appGraph.Edges) :
    SameOutcome (GeneratePEAGraphWith enum1 E heap st appGraph locationAllowlist)
      (GeneratePEAGraphWith enum2 E heap st appGraph locationAllowlist) ∧
    GeneratePEAGraphWith (fun _ _ => appGraph.Edges) E heap st appGraph locationAllowlist =
      GeneratePEAGraph E heap st appGraph locationAllowlist :=
  ⟨GeneratePEAGraphWith_same E heap appGraph locationAllowlist enum1 enum2 h1 h2 st,
    GeneratePEAGraphWith_source E heap appGraph locationAllowlist st⟩

/-- C17, at the template `Z -> C`, `X -> C`, `Y -> C`: enumerating the map in
list order and in the reverse order gives the same graph. -/
theorem closure_independent_of_enumeration_shared :
    SameOutcome
      (GeneratePEAGraphWith (fun _ _ => sharedDependencyTemplate.Edges) sampleEntropy sampleHeap
        sharedDependencyStart sharedDependencyTemplate [("C", [1])])
      (GeneratePEAGraphWith (fun _ _ => sharedDependencyTemplate.Edges.reverse) sampleEntropy
        sampleHeap sharedDependencyStart sharedDependencyTemplate [("C", [1])]) :=
  (closure_independent_of_enumeration sampleEntropy sampleHeap sharedDependencyTemplate
    [("C", [1])] sharedDependencyStart _ _ (fun _ _ => List.Perm.refl _)
    (fun _ _ => List.reverse_perm _)).1

end Pegraph
